import Mathlib

/-!
# cparse: the match engine, the tag list and the renderer

A shallow embedding of `cparse.c`.

* Bytes are natural numbers (`0 .. 255`); a C string is the list of its bytes
  before the terminating NUL.
* The two global linked lists (`syntax_list_head`, `code_tags_head`) are Lean
  lists; the file behind `fd` is the list of its bytes, read one byte at a
  time by both passes.
* A read through a NULL pointer or past the terminating NUL of a pattern is
  a fault: the functions that may perform one return `Option`, and `none` is
  the fault.
* `line` and `line_offset` are C `int` counters that only ever count up; they
  are natural numbers here, exact for files shorter than `2^31 - 2` bytes.
  The one mixed signed/unsigned expression of the program,
  `line_offset+2-pSyntax->syntax_check1_len`, is computed modulo `2^32` and
  converted back to `int` (`open_offset`).
* `previous_char` in `evaluate_syntax_checks` is written but never read (the
  condition that read it is commented out in the source); so is `no_flush`.
* The journal is ghost state: next to every tag it records which rule
  (position in the syntax list) appended it and from which of the two kinds
  of `add_tag` call (open string or close string). Erasing the ghost part
  gives the tag list of the program (`cparse.code_tags`).
-/

namespace Cparse

/-! ## C strings -/

/-- ASCII bytes of a string literal. -/
def bytes (s : String) : List Nat := s.toList.map Char.toNat

/-- The C string stored at `s`: the bytes before the first NUL. -/
def c_str (s : List Nat) : List Nat := s.takeWhile (fun b => b != 0)

/-- `strlen`. -/
def strlen (s : List Nat) : Nat := (c_str s).length

/-- `strdup`: a copy of the C string. -/
def strdup (s : List Nat) : List Nat := c_str s

/-- The read `s[i]` of a C string whose bytes are `s`: a byte of the string,
the terminating NUL at `i = strlen`, and a fault beyond it. -/
def c_index (s : List Nat) (i : Nat) : Option Nat :=
  if i < s.length then s.get? i
  else if i = s.length then some 0
  else none

/-- Conversion of an `unsigned int` value to `int` (two's complement). -/
def to_int (u : Nat) : Int :=
  if u < 2147483648 then (u : Int) else (u : Int) - 4294967296

/-- The argument `line_offset+2-pSyntax->syntax_check1_len` of `add_tag`:
`int + int`, then `unsigned` subtraction modulo `2^32`, then conversion to
the `int` parameter. -/
def open_offset (line_offset len : Nat) : Int :=
  to_int (((line_offset + 2) % 4294967296 + (4294967296 - len % 4294967296)) % 4294967296)

/-! ## Data -/

/-- The `struct code_tag` (without `next`). -/
structure code_tag where
  line : Int
  offset : Int
  string : List Nat
deriving DecidableEq, Repr

/-- The `enum syntax_type`. -/
inductive syntax_type where
  | SYNTAX_TYPE_SINGLE_ENDED
  | SYNTAX_TYPE_DOUBLE_ENDED
deriving DecidableEq, Repr

open syntax_type

/-- The `struct syntax_check` (without `next`); `syntax_check2 = none` is the
NULL pointer. -/
structure syntax_check where
  syntax_check1 : List Nat
  syntax_check2 : Option (List Nat)
  syntax_check1_len : Nat
  syntax_check2_len : Nat
  syntax_type : syntax_type
  open_string_if_found : List Nat
  close_string_if_found : List Nat
  no_flush : Nat
  rule_active : Nat
  counter : Nat
deriving DecidableEq, Repr

/-- One `add_tag` call together with its ghost labels: the position of the
rule in the syntax list and whether the call passed the open string. -/
structure tag_event where
  rule : Nat
  opening : Bool
  tag : code_tag
deriving DecidableEq, Repr

/-- The global variables of the program: the syntax list and the journal of
`add_tag` calls. -/
structure cparse where
  syntax_list : List syntax_check
  journal : List tag_event
deriving DecidableEq, Repr

/-- The tag list `code_tags_head` as the program sees it. -/
def cparse.code_tags (st : cparse) : List code_tag := st.journal.map tag_event.tag

/-- The state before `main` registers its first rule. -/
def cparse.init : cparse := { syntax_list := [], journal := [] }

/-! ## Tag list -/

/-- The function `add_tag`: append at the tail. `rule` and `opening` are the
ghost labels of the call. -/
def add_tag (journal : List tag_event) (rule : Nat) (opening : Bool)
    (line offset : Int) (string : List Nat) : List tag_event :=
  journal ++ [{ rule := rule, opening := opening,
                tag := { line := line, offset := offset, string := strdup string } }]

/-- The function `find_tag`: the pointer walk over the tag list. -/
def find_tag : List code_tag → Int → Int → Option (List Nat)
  | [], _, _ => none
  | t :: rest, line, offset =>
    if t.line < line then find_tag rest line offset
    else if t.line > line then none
    else if t.offset > offset then none
    else if t.offset ≥ offset then
      (if t.line = line ∧ t.offset = offset then some t.string else none)
    else if rest = [] then none
    else find_tag rest line offset

/-! ## Syntax list -/

/-- The function `add_syntax_check`: append a rule with `rule_active = 0` and
`counter = 0`. -/
def add_syntax_check (syntax_check1 : List Nat) (syntax_check2 : Option (List Nat))
    (syntax_type : syntax_type) (open_string_if_found close_string_if_found : List Nat)
    (syntax_list : List syntax_check) : List syntax_check :=
  syntax_list ++
    [{ syntax_check1 := strdup syntax_check1
       syntax_check1_len := strlen syntax_check1
       syntax_check2 := syntax_check2.map strdup
       syntax_check2_len := match syntax_check2 with
         | some s2 => strlen s2
         | none => 0
       syntax_type := syntax_type
       open_string_if_found := strdup open_string_if_found
       close_string_if_found := strdup close_string_if_found
       rule_active := 0
       no_flush := 1
       counter := 0 }]

/-- The function `active_rule`. -/
def active_rule : List syntax_check → Nat
  | [] => 0
  | p :: rest => if p.rule_active ≠ 0 then 1 else active_rule rest

/-- The rules registered by `main`, in order. -/
def main_syntax_list : List syntax_check :=
  let purple := bytes "<font color=purple>"
  let yellow := bytes "<font color=#c0c000>"
  let green := bytes "<font color=#00ee00>"
  let blue := bytes "<font color=#0000ff>"
  let red := bytes "<font color=red>"
  let fin := bytes "</font>"
  []
  -- preprocessor
  |> add_syntax_check (bytes "#if") none SYNTAX_TYPE_SINGLE_ENDED purple fin
  |> add_syntax_check (bytes "#elif") none SYNTAX_TYPE_SINGLE_ENDED purple fin
  |> add_syntax_check (bytes "#else") none SYNTAX_TYPE_SINGLE_ENDED purple fin
  |> add_syntax_check (bytes "#endif") none SYNTAX_TYPE_SINGLE_ENDED purple fin
  |> add_syntax_check (bytes "#include") none SYNTAX_TYPE_SINGLE_ENDED purple fin
  |> add_syntax_check (bytes "#define") none SYNTAX_TYPE_SINGLE_ENDED purple fin
  -- control
  |> add_syntax_check (bytes "while") none SYNTAX_TYPE_SINGLE_ENDED yellow fin
  |> add_syntax_check (bytes "for") none SYNTAX_TYPE_SINGLE_ENDED yellow fin
  |> add_syntax_check (bytes "switch") none SYNTAX_TYPE_SINGLE_ENDED yellow fin
  |> add_syntax_check (bytes "case") none SYNTAX_TYPE_SINGLE_ENDED yellow fin
  |> add_syntax_check (bytes "break") none SYNTAX_TYPE_SINGLE_ENDED yellow fin
  |> add_syntax_check (bytes "continue") none SYNTAX_TYPE_SINGLE_ENDED yellow fin
  |> add_syntax_check (bytes "do") none SYNTAX_TYPE_SINGLE_ENDED yellow fin
  |> add_syntax_check (bytes "if") none SYNTAX_TYPE_SINGLE_ENDED yellow fin
  |> add_syntax_check (bytes "else") none SYNTAX_TYPE_SINGLE_ENDED yellow fin
  |> add_syntax_check (bytes "default") none SYNTAX_TYPE_SINGLE_ENDED yellow fin
  |> add_syntax_check (bytes "sizeof") none SYNTAX_TYPE_SINGLE_ENDED yellow fin
  |> add_syntax_check (bytes "return") none SYNTAX_TYPE_SINGLE_ENDED yellow fin
  -- variables
  |> add_syntax_check (bytes "void") none SYNTAX_TYPE_SINGLE_ENDED green fin
  |> add_syntax_check (bytes "unsigned") none SYNTAX_TYPE_SINGLE_ENDED green fin
  |> add_syntax_check (bytes "signed") none SYNTAX_TYPE_SINGLE_ENDED green fin
  |> add_syntax_check (bytes "int") none SYNTAX_TYPE_SINGLE_ENDED green fin
  |> add_syntax_check (bytes "const") none SYNTAX_TYPE_SINGLE_ENDED green fin
  |> add_syntax_check (bytes "char") none SYNTAX_TYPE_SINGLE_ENDED green fin
  |> add_syntax_check (bytes "static") none SYNTAX_TYPE_SINGLE_ENDED green fin
  |> add_syntax_check (bytes "long") none SYNTAX_TYPE_SINGLE_ENDED green fin
  |> add_syntax_check (bytes "float") none SYNTAX_TYPE_SINGLE_ENDED green fin
  |> add_syntax_check (bytes "double") none SYNTAX_TYPE_SINGLE_ENDED green fin
  |> add_syntax_check (bytes "short") none SYNTAX_TYPE_SINGLE_ENDED green fin
  |> add_syntax_check (bytes "struct") none SYNTAX_TYPE_SINGLE_ENDED green fin
  |> add_syntax_check (bytes "enum") none SYNTAX_TYPE_SINGLE_ENDED green fin
  -- comments
  |> add_syntax_check (bytes "/*") (some (bytes "*/")) SYNTAX_TYPE_DOUBLE_ENDED blue fin
  |> add_syntax_check (bytes "//") (some (bytes "\n")) SYNTAX_TYPE_DOUBLE_ENDED blue fin
  -- strings
  |> add_syntax_check (bytes "\"") (some (bytes "\"")) SYNTAX_TYPE_DOUBLE_ENDED red fin
  |> add_syntax_check (bytes "'") (some (bytes "'")) SYNTAX_TYPE_DOUBLE_ENDED red fin
  -- oddball
  |> add_syntax_check (bytes "\\") none SYNTAX_TYPE_SINGLE_ENDED red fin
  |> add_syntax_check (bytes "NULL") none SYNTAX_TYPE_SINGLE_ENDED red fin

/-- The state in which `main` calls `parse_source_code`. -/
def main_state : cparse := { syntax_list := main_syntax_list, journal := [] }

/-! ## Match engine -/

/-- The body of the rule loop of `evaluate_syntax_checks` for the rule
`pSyntax`, the `idx`-th of the list: `act` is the value `active_rule()`
returns at this iteration and `c` the byte `buffer[i]`. `line` and
`line_offset` are the values of the `int` variables of `parse_source_code`,
natural numbers here; the sum `line_offset+2` passed with a close string is
the value of the C expression while it is below `2^31`, the range every
statement about lines and offsets assumes (`input.length + 2 ≤ 2^31`). -/
def evaluate_rule (c line line_offset idx act : Nat) (pSyntax : syntax_check)
    (journal : List tag_event) : Option (syntax_check × List tag_event) :=
  if act ≠ 0 then
    if pSyntax.rule_active ≠ 0 then
      match pSyntax.syntax_check2 with
      | none => none
      | some s2 =>
        match c_index s2 pSyntax.counter with
        | none => none
        | some ch =>
          if ch = c then
            if pSyntax.counter + 1 = pSyntax.syntax_check2_len then
              some ({ pSyntax with counter := 0, rule_active := 0 },
                add_tag journal idx false line (line_offset + 2) pSyntax.close_string_if_found)
            else
              some ({ pSyntax with counter := pSyntax.counter + 1 }, journal)
          else if pSyntax.counter ≠ 0 then
            some ({ pSyntax with counter := 0 }, journal)
          else
            some (pSyntax, journal)
    else
      some ({ pSyntax with counter := 0 }, journal)
  else
    match c_index pSyntax.syntax_check1 pSyntax.counter with
    | none => none
    | some ch =>
      if ch = c then
        if pSyntax.counter + 1 = pSyntax.syntax_check1_len then
          let opened := add_tag journal idx true line
            (open_offset line_offset pSyntax.syntax_check1_len) pSyntax.open_string_if_found
          if pSyntax.syntax_type = SYNTAX_TYPE_SINGLE_ENDED then
            some ({ pSyntax with counter := 0 },
              add_tag opened idx false line (line_offset + 2) pSyntax.close_string_if_found)
          else
            some ({ pSyntax with counter := 0, rule_active := 1 }, opened)
        else
          some ({ pSyntax with counter := pSyntax.counter + 1 }, journal)
      else if pSyntax.counter ≠ 0 then
        some ({ pSyntax with counter := 0 }, journal)
      else
        some (pSyntax, journal)

/-- The rule loop of `evaluate_syntax_checks` for one byte: `done` are the
rules already visited, `todo` the rules from `pSyntax` on. `active_rule()`
is called afresh at every iteration, on the whole list. -/
def rules_loop (c line line_offset : Nat) :
    List syntax_check → List syntax_check → List tag_event →
      Option (List syntax_check × List tag_event)
  | done, [], journal => some (done, journal)
  | done, pSyntax :: rest, journal =>
    match evaluate_rule c line line_offset done.length
        (active_rule (done ++ pSyntax :: rest)) pSyntax journal with
    | none => none
    | some (p, journal1) => rules_loop c line line_offset (done ++ [p]) rest journal1

/-- The function `evaluate_syntax_checks`: the rule loop for every byte of
`buffer` (`buff_len` is its length), all at the same `line`, `line_offset`. -/
def evaluate_syntax_checks : List Nat → Nat → Nat → cparse → Option cparse
  | [], _, _, st => some st
  | c :: buffer, line, line_offset, st =>
    match rules_loop c line line_offset [] st.syntax_list st.journal with
    | none => none
    | some (rules, journal) =>
      evaluate_syntax_checks buffer line line_offset
        { syntax_list := rules, journal := journal }

/-- The `while` loop of `parse_source_code` over the bytes still to read. -/
def parse_loop : List Nat → Nat → Nat → cparse → Option cparse
  | [], _, _, st => some st
  | c :: input, line, line_offset, st =>
    match evaluate_syntax_checks [c] line line_offset st with
    | none => none
    | some st1 =>
      if c = 10 then parse_loop input (line + 1) 0 st1
      else parse_loop input line (line_offset + 1) st1

/-- The function `parse_source_code` on a file with the bytes `input`. -/
def parse_source_code (input : List Nat) (st : cparse) : Option cparse :=
  parse_loop input 0 0 st

/-! ## Renderer -/

/-- The conversion `%d` of a non-negative `int`. -/
def fmt_d (n : Nat) : List Nat := (Nat.toDigits 10 n).map Char.toNat

/-- The conversion `%06d` of a non-negative `int`: zero-padded to six digits. -/
def fmt_06d (n : Nat) : List Nat :=
  List.replicate (6 - (fmt_d n).length) 48 ++ fmt_d n

/-- The output of the three `fprintf` calls before the loop. -/
def html_header (file : List Nat) : List Nat :=
  bytes "<html>\n" ++
  (bytes "<a name=\"" ++ c_str file ++ bytes "\"></a><h3>" ++ c_str file ++ bytes "</h3>\n") ++
  bytes "<pre>\n"

/-- The output of the two `fprintf` calls after the loop. -/
def html_footer : List Nat := bytes "</pre>\n" ++ bytes "</html>\n"

/-- The line-number anchor printed at the start of line `line`. -/
def line_anchor (file : List Nat) (line : Nat) : List Nat :=
  bytes "<a name=\"" ++ c_str file ++ fmt_d line ++
    bytes "\"></a><font color=#000000>" ++ fmt_06d line ++ bytes "</font> "

/-- The `while` loop of `print_source_code` over the bytes still to read;
the result is what the loop writes to `outfile`. -/
def print_loop (st : cparse) (file : List Nat) : List Nat → Nat → Nat → Bool → List Nat
  | [], _, _, _ => []
  | c :: input, line, line_offset, new_line =>
    let line_offset := line_offset + 1
    let start :=
      if new_line then
        (if active_rule st.syntax_list ≠ 0 then bytes "</font>" else []) ++
          line_anchor file line
      else []
    let markup :=
      match find_tag st.code_tags line line_offset with
      | some s => c_str s
      | none => []
    -- `fprintf(outfile, "%s", buffer)`: the byte as a C string
    let echo := c_str [c, 0]
    if c = 10 then
      start ++ markup ++ echo ++ print_loop st file input (line + 1) 0 true
    else
      start ++ markup ++ echo ++ print_loop st file input line line_offset false

/-- The function `print_source_code`: everything written to `outfile`. -/
def print_source_code (st : cparse) (file : List Nat) (input : List Nat) : List Nat :=
  html_header file ++ print_loop st file input 0 0 true ++ html_footer

/-- The two passes of `main` over a file, from the state `st`. -/
def render (st : cparse) (file input : List Nat) : Option (List Nat) :=
  (parse_source_code input st).map (fun st1 => print_source_code st1 file input)

/-! ## Notions used in the statements -/

/-- Number of rules with `rule_active` set. -/
def count_active (l : List syntax_check) : Nat :=
  l.countP (fun p => p.rule_active != 0)

/-- The syntax list at every iteration of the rule loop for one byte (at the
loop test, before the rule `pSyntax` is visited) and at the loop exit. -/
def rules_points (c line line_offset : Nat) :
    List syntax_check → List syntax_check → List tag_event → List (List syntax_check)
  | done, [], _ => [done]
  | done, pSyntax :: rest, journal =>
    (done ++ pSyntax :: rest) ::
      (match evaluate_rule c line line_offset done.length
          (active_rule (done ++ pSyntax :: rest)) pSyntax journal with
       | none => []
       | some (p, journal1) => rules_points c line line_offset (done ++ [p]) rest journal1)

/-- The syntax list at every point of the scan of `input`: all points of the
rule loop of every byte, in order, then the list at the end of the scan. -/
def scan_points : List Nat → Nat → Nat → cparse → List (List syntax_check)
  | [], _, _, st => [st.syntax_list]
  | c :: input, line, line_offset, st =>
    rules_points c line line_offset [] st.syntax_list st.journal ++
      (match evaluate_syntax_checks [c] line line_offset st with
       | none => []
       | some st1 =>
         if c = 10 then scan_points input (line + 1) 0 st1
         else scan_points input line (line_offset + 1) st1)

/-- The rule with its two scan variables cleared: what is left are the fields
the scan never writes. -/
def syntax_check.reset (p : syntax_check) : syntax_check :=
  { p with counter := 0, rule_active := 0 }

/-- Well-formed rule: the lengths are those of the patterns, the open pattern
is not empty, a double-ended rule has a non-empty close pattern, only a
double-ended rule is active, and the counter is inside the pattern it
currently indexes. -/
def rule_wf (p : syntax_check) : Prop :=
  p.syntax_check1_len = p.syntax_check1.length ∧
  0 < p.syntax_check1.length ∧
  (p.rule_active = 0 → p.counter < p.syntax_check1.length) ∧
  (p.syntax_type = SYNTAX_TYPE_DOUBLE_ENDED →
    p.syntax_check2.isSome = true ∧
    p.syntax_check2_len = (p.syntax_check2.getD []).length ∧
    0 < p.syntax_check2_len) ∧
  (p.rule_active ≠ 0 →
    p.syntax_type = SYNTAX_TYPE_DOUBLE_ENDED ∧ p.counter < p.syntax_check2_len)

instance : DecidablePred rule_wf := fun p => by
  unfold rule_wf; infer_instance

/-- The move of (`line`, `line_offset`) in `parse_source_code` after the byte `c`. -/
def advance (pos : Nat × Nat) (c : Nat) : Nat × Nat :=
  if c = 10 then (pos.1 + 1, 0) else (pos.1, pos.2 + 1)

/-- The values of (`line`, `line_offset`) in `parse_source_code` once the bytes
`pre` have been read. -/
def scan_pos (pre : List Nat) : Nat × Nat := pre.foldl advance (0, 0)

/-- Order of tags by (`line`, `offset`), lexicographic. -/
def tag_le (a b : code_tag) : Prop :=
  a.line < b.line ∨ (a.line = b.line ∧ a.offset ≤ b.offset)

instance : DecidableRel tag_le := fun a b =>
  inferInstanceAs (Decidable (a.line < b.line ∨ (a.line = b.line ∧ a.offset ≤ b.offset)))

/-- The tag lies at or before (`line`, `offset`). -/
def tag_before (line offset : Int) (t : code_tag) : Prop :=
  t.line < line ∨ (t.line = line ∧ t.offset ≤ offset)

/-- Order of the journal for which the scan is monotone: lines never
decrease, and a tag appended by a close-string call is at or after
every tag appended before it. -/
def close_ordered (a b : tag_event) : Prop :=
  a.tag.line ≤ b.tag.line ∧ (b.opening = false → tag_le a.tag b.tag)

/-- The tag lies strictly before (`line`, `offset`). -/
def tag_lt_pos (line offset : Int) (t : code_tag) : Prop :=
  t.line < line ∨ (t.line = line ∧ t.offset < offset)

/-- A rule at rest: not active and with its counter at 0. -/
def idle (p : syntax_check) : Prop := p.rule_active = 0 ∧ p.counter = 0

instance : DecidablePred idle := fun p =>
  inferInstanceAs (Decidable (p.rule_active = 0 ∧ p.counter = 0))

/-- The syntax list of `main` in which the rule with the open pattern `pat` is
active with counter `k` and every other rule is as `main` registered it. -/
def main_region (pat : List Nat) (k : Nat) : List syntax_check :=
  main_syntax_list.map (fun p =>
    if p.syntax_check1 = pat then { p with rule_active := 1, counter := k } else p)

/-- The block-comment rule of `main` while it is active with counter `k`. -/
def block_comment_rule (k : Nat) : syntax_check :=
  { syntax_check1 := bytes "/*"
    syntax_check2 := some (bytes "*/")
    syntax_check1_len := 2
    syntax_check2_len := 2
    syntax_type := SYNTAX_TYPE_DOUBLE_ENDED
    open_string_if_found := bytes "<font color=#0000ff>"
    close_string_if_found := bytes "</font>"
    no_flush := 1
    rule_active := 1
    counter := k }

/-- A rule as `add_syntax_check` leaves it: not active, counter 0, and the
stored length that of the open pattern. -/
def fresh_rule (p : syntax_check) : Prop :=
  p.rule_active = 0 ∧ p.counter = 0 ∧ p.syntax_check1_len = p.syntax_check1.length

instance : DecidablePred fresh_rule := fun p =>
  inferInstanceAs (Decidable (p.rule_active = 0 ∧ p.counter = 0 ∧
    p.syntax_check1_len = p.syntax_check1.length))

/-- Progress of a rule that is not active: its counter is inside the open
pattern, and the bytes of the pattern counted so far are the last bytes of
`s`, the bytes read. -/
def open_progress (p : syntax_check) (s : List Nat) : Prop :=
  p.rule_active = 0 →
    p.counter < p.syntax_check1.length ∧ p.syntax_check1.take p.counter <:+ s

/-- Placement of an open tag: the journal entry `e`, if appended with an open
string, belongs to an occurrence of the open pattern of its rule in the
bytes `s`; `before` are the bytes in front of the occurrence,
`line_offset` is the value of that variable at the last byte of the
occurrence. The tag is on the line of the occurrence, at
`line_offset + 2 - syntax_check1_len` in natural numbers (nothing is
borrowed), which is the line offset of the first byte of the occurrence
plus one. -/
def open_tag_placed (rules : List syntax_check) (s : List Nat) (e : tag_event) : Prop :=
  e.opening = true → ∀ p, rules.get? e.rule = some p →
    ∃ (before : List Nat) (line_offset : Nat),
      before ++ p.syntax_check1 <+: s ∧
      (scan_pos before).2 + p.syntax_check1_len = line_offset + 1 ∧
      e.tag.line = ((scan_pos before).1 : Int) ∧
      e.tag.offset = ((line_offset + 2 - p.syntax_check1_len : Nat) : Int) ∧
      e.tag.offset = ((scan_pos before).2 : Int) + 1

/-- Number of tags in the journal appended with the open string of the rule
at position `i` of the syntax list. -/
def open_count (i : Nat) (journal : List tag_event) : Nat :=
  journal.countP (fun e => e.rule = i ∧ e.opening = true)

/-- Number of occurrences of `pat` as a contiguous part of `input`, counted by
the place where they begin: the suffixes of `input` that begin with `pat`. -/
def occurrences (pat input : List Nat) : Nat :=
  input.tails.countP (fun t => pat.isPrefixOf t)

/-- One step of the matcher of a single rule taken alone, in the words of the
specification (section 4.2 with no region active, section 9 for the restart
on the next byte): the state is the cursor and the number of matches so far;
on a byte equal to `pat[cursor]` the cursor moves on, and a cursor reaching
the length of the pattern counts a match and resets; on any other byte the
cursor resets and the byte is not looked at again. -/
def restart_step (pat : List Nat) (s : Nat × Nat) (c : Nat) : Nat × Nat :=
  if pat.get? s.1 = some c then
    (if s.1 + 1 = pat.length then (0, s.2 + 1) else (s.1 + 1, s.2))
  else (0, s.2)

/-- The state of the matcher of one rule taken alone after the bytes `input`. -/
def restart_state (pat input : List Nat) : Nat × Nat :=
  input.foldl (restart_step pat) (0, 0)

/-- The number of matches the matcher of one rule taken alone finds in `input`. -/
def restart_count (pat input : List Nat) : Nat := (restart_state pat input).2

/-- A rule that runs as if alone: not active, the counter inside the open
pattern, at 0 for a double-ended rule, and for a single-ended rule equal to
the cursor of the matcher of that rule taken alone after the bytes `s`. -/
def alone (p : syntax_check) (s : List Nat) : Prop :=
  p.rule_active = 0 ∧ p.counter < p.syntax_check1.length ∧
  (p.syntax_type = SYNTAX_TYPE_DOUBLE_ENDED → p.counter = 0) ∧
  (p.syntax_type = SYNTAX_TYPE_SINGLE_ENDED →
    p.counter = (restart_state p.syntax_check1 s).1)

/-- The lookup of the specification (section 4.3): the markup of the first tag
of the list whose (`line`, `offset`) equals the query, as a first-match
lookup in a map keyed by position would give it. -/
def lookup_first (tags : List code_tag) (line offset : Int) : Option (List Nat) :=
  (tags.find? (fun t => decide (t.line = line ∧ t.offset = offset))).map code_tag.string

/-- Number of tags in the journal appended with an open string. -/
def open_total (journal : List tag_event) : Nat :=
  journal.countP (fun e => e.opening)

/-- Number of tags in the journal appended with a close string. -/
def close_total (journal : List tag_event) : Nat :=
  journal.countP (fun e => !e.opening)

/-- Number of line-feed bytes among the bytes `pre`. -/
def lines_read (pre : List Nat) : Nat := pre.count 10

/-- Number of bytes of `pre` behind its last line feed (all of them if it has
no line feed). -/
def bytes_on_line (pre : List Nat) : Nat :=
  (pre.reverse.takeWhile (fun b => b != 10)).length

/-- The flag `new_line` of `print_source_code` once the bytes `pre` have been
read: set before the first byte and behind every line feed. -/
def at_line_start (pre : List Nat) : Bool :=
  decide (pre = [] ∨ pre.getLast? = some 10)

/-- The rule at position `i` of the syntax list `l` is active. -/
def active_at (l : List syntax_check) (i : Nat) : Prop :=
  ∃ r, l.get? i = some r ∧ r.rule_active ≠ 0

/-- The relation between a journal entry `e` and the entry `x` directly
behind it that an open region imposes: if `e` was appended with the open
string of a double-ended rule, `x` is the tag appended with the close string
of the same rule. -/
def region_blocks (rules : List syntax_check) (e x : tag_event) : Prop :=
  e.opening = true → ∀ p, rules.get? e.rule = some p →
    p.syntax_type = SYNTAX_TYPE_DOUBLE_ENDED →
    x.rule = e.rule ∧ x.opening = false ∧ x.tag.string = strdup p.close_string_if_found

/-- The rule with the counter cleared: what a step of the rule loop leaves of
a rule that is not active while another rule is. -/
def syntax_check.hold (p : syntax_check) : syntax_check := { p with counter := 0 }

/-- The value of `rule_active` of the rule with index `i` once the scan started
in `st0` has read the bytes `input`. -/
def rule_active_after (st0 : cparse) (input : List Nat) (i : Nat) : Option Nat :=
  (parse_source_code input st0).bind
    (fun st => (st.syntax_list.get? i).map syntax_check.rule_active)

/-! ## The algorithm of section 4.2 of the specification -/

theorem evaluate_rule_cases {c line line_offset idx act : Nat} {p p1 : syntax_check}
    {jr jr1 : List tag_event}
    (h : evaluate_rule c line line_offset idx act p jr = some (p1, jr1)) :
    (act ≠ 0 ∧ p.rule_active = 0 ∧ p1 = { p with counter := 0 } ∧ jr1 = jr) ∨
    (act ≠ 0 ∧ p.rule_active ≠ 0 ∧ (∃ s2, p.syntax_check2 = some s2 ∧
        c_index s2 p.counter = some c) ∧ p.counter + 1 ≠ p.syntax_check2_len ∧
        p1 = { p with counter := p.counter + 1 } ∧ jr1 = jr) ∨
    (act ≠ 0 ∧ p.rule_active ≠ 0 ∧ (∃ s2, p.syntax_check2 = some s2 ∧
        c_index s2 p.counter = some c) ∧ p.counter + 1 = p.syntax_check2_len ∧
        p1 = { p with counter := 0, rule_active := 0 } ∧
        jr1 = jr ++ [⟨idx, false, ⟨line, (line_offset : Int) + 2,
          strdup p.close_string_if_found⟩⟩]) ∨
    (act ≠ 0 ∧ p.rule_active ≠ 0 ∧ (∃ s2 ch, p.syntax_check2 = some s2 ∧
        c_index s2 p.counter = some ch ∧ ch ≠ c) ∧
        p1 = { p with counter := 0 } ∧ jr1 = jr) ∨
    (act = 0 ∧ c_index p.syntax_check1 p.counter = some c ∧
        p.counter + 1 ≠ p.syntax_check1_len ∧
        p1 = { p with counter := p.counter + 1 } ∧ jr1 = jr) ∨
    (act = 0 ∧ c_index p.syntax_check1 p.counter = some c ∧
        p.counter + 1 = p.syntax_check1_len ∧ p.syntax_type = SYNTAX_TYPE_SINGLE_ENDED ∧
        p1 = { p with counter := 0 } ∧
        jr1 = jr ++ [⟨idx, true, ⟨line, open_offset line_offset p.syntax_check1_len,
            strdup p.open_string_if_found⟩⟩,
          ⟨idx, false, ⟨line, (line_offset : Int) + 2, strdup p.close_string_if_found⟩⟩]) ∨
    (act = 0 ∧ c_index p.syntax_check1 p.counter = some c ∧
        p.counter + 1 = p.syntax_check1_len ∧ p.syntax_type = SYNTAX_TYPE_DOUBLE_ENDED ∧
        p1 = { p with counter := 0, rule_active := 1 } ∧
        jr1 = jr ++ [⟨idx, true, ⟨line, open_offset line_offset p.syntax_check1_len,
            strdup p.open_string_if_found⟩⟩]) ∨
    (act = 0 ∧ (∃ ch, c_index p.syntax_check1 p.counter = some ch ∧ ch ≠ c) ∧
        p1 = { p with counter := 0 } ∧ jr1 = jr) := by
  unfold evaluate_rule at h
  by_cases hact : act = 0
  · simp only [hact, ne_eq, not_true_eq_false, if_false] at h
    cases hc : c_index p.syntax_check1 p.counter with
    | none => simp [hc] at h
    | some ch =>
      simp only [hc] at h
      by_cases hch : ch = c
      · subst hch
        by_cases hlen : p.counter + 1 = p.syntax_check1_len
        · cases hty : p.syntax_type with
          | SYNTAX_TYPE_SINGLE_ENDED =>
            simp [hlen, hty, add_tag] at h
            right; right; right; right; right; left
            simp [hact, hlen, h.1.symm, h.2.symm]
          | SYNTAX_TYPE_DOUBLE_ENDED =>
            simp [hlen, hty, add_tag] at h
            right; right; right; right; right; right; left
            simp [hact, hlen, h.1.symm, h.2.symm]
        · simp [hlen] at h
          right; right; right; right; left
          simp [hact, hlen, h.1.symm, h.2.symm]
      · right; right; right; right; right; right; right
        by_cases hk : p.counter = 0
        · simp [hch, hk] at h
          refine ⟨hact, ⟨ch, rfl, hch⟩, ?_, h.2.symm⟩
          rw [← h.1]; cases p; simp_all
        · simp [hch, hk] at h
          exact ⟨hact, ⟨ch, rfl, hch⟩, h.1.symm, h.2.symm⟩
  · simp only [hact, ne_eq, not_false_eq_true, if_true] at h
    by_cases hra : p.rule_active = 0
    · rw [if_neg (by simp [hra])] at h
      simp only [Option.some.injEq, Prod.mk.injEq] at h
      left; exact ⟨hact, hra, h.1.symm, h.2.symm⟩
    · simp only [hra, ne_eq, not_false_eq_true, if_true] at h
      cases hs : p.syntax_check2 with
      | none => simp [hs] at h
      | some s2 =>
        simp only [hs] at h
        cases hc : c_index s2 p.counter with
        | none => simp [hc] at h
        | some ch =>
          simp only [hc] at h
          by_cases hch : ch = c
          · subst hch
            by_cases hlen : p.counter + 1 = p.syntax_check2_len
            · simp [hlen, add_tag] at h
              right; right; left
              exact ⟨hact, hra, ⟨s2, rfl, hc⟩, hlen, h.1.symm, h.2.symm⟩
            · simp [hlen] at h
              right; left
              exact ⟨hact, hra, ⟨s2, rfl, hc⟩, hlen, h.1.symm, h.2.symm⟩
          · right; right; right; left
            by_cases hk : p.counter = 0
            · simp [hch, hk] at h
              refine ⟨hact, hra, ⟨s2, ch, rfl, hc, hch⟩, ?_, h.2.symm⟩
              rw [← h.1]; cases p; simp_all
            · simp [hch, hk] at h
              exact ⟨hact, hra, ⟨s2, ch, rfl, hc, hch⟩, h.1.symm, h.2.symm⟩

/-! ### Invariants of the rule loop and of the scan -/

/-- Induction over the rule loop of one byte. -/
theorem rules_loop_inv {c line line_offset : Nat}
    (I : List syntax_check → List syntax_check → List tag_event → Prop)
    (hstep : ∀ done p rest jr p1 jr1, I done (p :: rest) jr →
      evaluate_rule c line line_offset done.length (active_rule (done ++ p :: rest)) p jr
        = some (p1, jr1) → I (done ++ [p1]) rest jr1) :
    ∀ todo done jr rules1 jr1, I done todo jr →
      rules_loop c line line_offset done todo jr = some (rules1, jr1) → I rules1 [] jr1 := by
  intro todo
  induction todo with
  | nil =>
    intro done jr rules1 jr1 hI h
    simp only [rules_loop, Option.some.injEq, Prod.mk.injEq] at h
    rw [← h.1, ← h.2]; exact hI
  | cons p rest ih =>
    intro done jr rules1 jr1 hI h
    simp only [rules_loop] at h
    cases he : evaluate_rule c line line_offset done.length
        (active_rule (done ++ p :: rest)) p jr with
    | none => simp [he] at h
    | some r =>
      obtain ⟨p1, jr2⟩ := r
      simp only [he] at h
      exact ih _ _ _ _ (hstep _ _ _ _ _ _ hI he) h

/-- A property of the syntax list kept by every rule step holds at every point
of the rule loop. -/
theorem rules_points_forall {c line line_offset : Nat} (P : List syntax_check → Prop)
    (hstep : ∀ done p rest jr p1 jr1, P (done ++ p :: rest) →
      evaluate_rule c line line_offset done.length (active_rule (done ++ p :: rest)) p jr
        = some (p1, jr1) → P (done ++ p1 :: rest)) :
    ∀ todo done jr, P (done ++ todo) →
      ∀ l ∈ rules_points c line line_offset done todo jr, P l := by
  intro todo
  induction todo with
  | nil =>
    intro done jr hP l hl
    simp only [rules_points, List.mem_singleton] at hl
    subst hl; simpa using hP
  | cons p rest ih =>
    intro done jr hP l hl
    simp only [rules_points, List.mem_cons] at hl
    rcases hl with hl | hl
    · subst hl; exact hP
    · cases he : evaluate_rule c line line_offset done.length
          (active_rule (done ++ p :: rest)) p jr with
      | none => simp [he] at hl
      | some r =>
        obtain ⟨p1, jr2⟩ := r
        simp only [he] at hl
        refine ih (done ++ [p1]) jr2 ?_ l hl
        have := hstep _ _ _ _ _ _ hP he
        simpa using this

/-- The same property holds for the list the rule loop returns. -/
theorem rules_loop_forall {c line line_offset : Nat} (P : List syntax_check → Prop)
    (hstep : ∀ done p rest jr p1 jr1, P (done ++ p :: rest) →
      evaluate_rule c line line_offset done.length (active_rule (done ++ p :: rest)) p jr
        = some (p1, jr1) → P (done ++ p1 :: rest))
    {todo done : List syntax_check} {jr jr1 : List tag_event} {rules1 : List syntax_check}
    (hP : P (done ++ todo))
    (h : rules_loop c line line_offset done todo jr = some (rules1, jr1)) : P rules1 := by
  have := rules_loop_inv (fun d t _ => P (d ++ t))
    (fun done p rest jr p1 jr1 hI he => by
      have := hstep done p rest jr p1 jr1 hI he
      simpa using this) todo done jr rules1 jr1 hP h
  simpa using this

theorem evaluate_syntax_checks_one {c line line_offset : Nat} {st st1 : cparse}
    (h : evaluate_syntax_checks [c] line line_offset st = some st1) :
    rules_loop c line line_offset [] st.syntax_list st.journal
      = some (st1.syntax_list, st1.journal) := by
  simp only [evaluate_syntax_checks] at h
  cases hr : rules_loop c line line_offset [] st.syntax_list st.journal with
  | none => simp [hr] at h
  | some r =>
    obtain ⟨rules, jr⟩ := r
    simp only [hr, Option.some.injEq] at h
    subst h; rfl

/-- A property of the syntax list kept by every rule step holds after the
scan of any input. -/
theorem parse_loop_forall (P : List syntax_check → Prop)
    (hstep : ∀ c line line_offset done p rest jr p1 jr1, P (done ++ p :: rest) →
      evaluate_rule c line line_offset done.length (active_rule (done ++ p :: rest)) p jr
        = some (p1, jr1) → P (done ++ p1 :: rest)) :
    ∀ input line line_offset st st1, P st.syntax_list →
      parse_loop input line line_offset st = some st1 → P st1.syntax_list := by
  intro input
  induction input with
  | nil =>
    intro line lo st st1 hP h
    simp only [parse_loop, Option.some.injEq] at h
    subst h; exact hP
  | cons c input ih =>
    intro line lo st st1 hP h
    simp only [parse_loop] at h
    cases he : evaluate_syntax_checks [c] line lo st with
    | none => simp [he] at h
    | some st2 =>
      simp only [he] at h
      have h2 : P st2.syntax_list :=
        rules_loop_forall P (hstep c line lo) (by simpa using hP)
          (evaluate_syntax_checks_one he)
      split at h
      · exact ih _ _ _ _ h2 h
      · exact ih _ _ _ _ h2 h

/-- The property holds at every point of the scan. -/
theorem scan_points_forall (P : List syntax_check → Prop)
    (hstep : ∀ c line line_offset done p rest jr p1 jr1, P (done ++ p :: rest) →
      evaluate_rule c line line_offset done.length (active_rule (done ++ p :: rest)) p jr
        = some (p1, jr1) → P (done ++ p1 :: rest)) :
    ∀ input line line_offset st, P st.syntax_list →
      ∀ l ∈ scan_points input line line_offset st, P l := by
  intro input
  induction input with
  | nil =>
    intro line lo st hP l hl
    simp only [scan_points, List.mem_singleton] at hl
    subst hl; exact hP
  | cons c input ih =>
    intro line lo st hP l hl
    simp only [scan_points, List.mem_append] at hl
    rcases hl with hl | hl
    · exact rules_points_forall P (hstep c line lo) _ _ _ (by simpa using hP) l hl
    · cases he : evaluate_syntax_checks [c] line lo st with
      | none => simp [he] at hl
      | some st2 =>
        simp only [he] at hl
        have h2 : P st2.syntax_list :=
          rules_loop_forall P (hstep c line lo) (by simpa using hP)
            (evaluate_syntax_checks_one he)
        split at hl
        · exact ih _ _ _ h2 l hl
        · exact ih _ _ _ h2 l hl

/-! ### Mutual exclusion -/

theorem active_rule_eq_zero_iff (l : List syntax_check) :
    active_rule l = 0 ↔ ∀ p ∈ l, p.rule_active = 0 := by
  induction l with
  | nil => simp [active_rule]
  | cons p rest ih =>
    by_cases hp : p.rule_active = 0
    · simp [active_rule, hp, ih]
    · simp [active_rule, hp]

theorem count_active_eq_zero_iff (l : List syntax_check) :
    count_active l = 0 ↔ ∀ p ∈ l, p.rule_active = 0 := by
  simp [count_active, List.countP_eq_zero]

theorem count_active_append (a b : List syntax_check) :
    count_active (a ++ b) = count_active a + count_active b := by
  simp [count_active, List.countP_append]

theorem count_active_cons (p : syntax_check) (l : List syntax_check) :
    count_active (p :: l) = (if p.rule_active = 0 then 0 else 1) + count_active l := by
  by_cases hp : p.rule_active = 0
  · simp [count_active, List.countP_cons, hp]
  · simp [count_active, List.countP_cons, hp]; omega

theorem count_active_step {c line line_offset idx : Nat} {done rest : List syntax_check}
    {p p1 : syntax_check} {jr jr1 : List tag_event}
    (hc : count_active (done ++ p :: rest) ≤ 1)
    (h : evaluate_rule c line line_offset idx (active_rule (done ++ p :: rest)) p jr
      = some (p1, jr1)) :
    count_active (done ++ p1 :: rest) ≤ 1 := by
  rw [count_active_append, count_active_cons] at hc ⊢
  rcases evaluate_rule_cases h with
    ⟨_, h0, hp, _⟩ | ⟨_, _, _, _, hp, _⟩ | ⟨_, _, _, _, hp, _⟩ | ⟨_, _, _, hp, _⟩ |
    ⟨ha, _, _, hp, _⟩ | ⟨ha, _, _, _, hp, _⟩ | ⟨ha, _, _, _, hp, _⟩ | ⟨ha, _, hp, _⟩
  · subst hp; simpa using hc
  · subst hp; simpa using hc
  · subst hp; simp only [if_true]; split at hc <;> omega
  · subst hp; simpa using hc
  all_goals
    have hz := (active_rule_eq_zero_iff _).1 ha
    have hd : count_active done = 0 :=
      (count_active_eq_zero_iff _).2 (fun q hq => hz q (by simp [hq]))
    have hr : count_active rest = 0 :=
      (count_active_eq_zero_iff _).2 (fun q hq => hz q (by simp [hq]))
    rw [hd, hr]
    split <;> omega

/-- C1. Mutual exclusion: from a syntax list in which no rule is active, at
most one rule has `rule_active` set after the scan of any prefix of any
input, and at every point of the rule loop of every byte. -/
theorem active_rule_exclusive (rules : List syntax_check) (journal : List tag_event)
    (input : List Nat) (h : ∀ p ∈ rules, p.rule_active = 0) :
    (∀ n st, parse_source_code (input.take n) ⟨rules, journal⟩ = some st →
      count_active st.syntax_list ≤ 1) ∧
    (∀ l ∈ scan_points input 0 0 ⟨rules, journal⟩, count_active l ≤ 1) := by
  have h0 : count_active rules ≤ 1 := by
    rw [(count_active_eq_zero_iff rules).2 h]; omega
  constructor
  · intro n st hst
    exact parse_loop_forall (fun l => count_active l ≤ 1)
      (fun c line lo done p rest jr p1 jr1 hc he => count_active_step hc he)
      _ _ _ _ _ h0 hst
  · exact scan_points_forall (fun l => count_active l ≤ 1)
      (fun c line lo done p rest jr p1 jr1 hc he => count_active_step hc he)
      _ _ _ _ h0

theorem active_rule_exclusive_witness :
    (∀ p ∈ main_syntax_list, p.rule_active = 0) ∧
    ((∀ n st, parse_source_code ((bytes "a \"b\" /* c */").take n) ⟨main_syntax_list, []⟩
        = some st → count_active st.syntax_list ≤ 1) ∧
     (∀ l ∈ scan_points (bytes "a \"b\" /* c */") 0 0 ⟨main_syntax_list, []⟩,
        count_active l ≤ 1)) :=
  ⟨by decide, active_rule_exclusive main_syntax_list [] (bytes "a \"b\" /* c */") (by decide)⟩

/-! ### Fields the scan never writes -/

theorem evaluate_rule_reset {c line line_offset idx act : Nat} {p p1 : syntax_check}
    {jr jr1 : List tag_event}
    (h : evaluate_rule c line line_offset idx act p jr = some (p1, jr1)) :
    p1.reset = p.reset := by
  rcases evaluate_rule_cases h with
    ⟨_, _, hp, _⟩ | ⟨_, _, _, _, hp, _⟩ | ⟨_, _, _, _, hp, _⟩ | ⟨_, _, _, hp, _⟩ |
    ⟨_, _, _, hp, _⟩ | ⟨_, _, _, _, hp, _⟩ | ⟨_, _, _, _, hp, _⟩ | ⟨_, _, hp, _⟩ <;>
  · subst hp; rfl

theorem parse_loop_reset {input : List Nat} {line line_offset : Nat} {st st1 : cparse}
    (h : parse_loop input line line_offset st = some st1) :
    st1.syntax_list.map syntax_check.reset = st.syntax_list.map syntax_check.reset := by
  refine parse_loop_forall
    (fun l => l.map syntax_check.reset = st.syntax_list.map syntax_check.reset)
    ?_ _ _ _ _ _ rfl h
  intro c line lo done p rest jr p1 jr1 hP he
  simp only [List.map_append, List.map_cons] at hP ⊢
  rw [evaluate_rule_reset he]; exact hP

/-! ### Well-formed rules: the scan never faults -/

theorem c_index_lt {s : List Nat} {i : Nat} (h : i < s.length) :
    c_index s i = some (s.get ⟨i, h⟩) := by
  simp [c_index, h, List.getElem?_eq_getElem]

theorem c_index_some_lt {s : List Nat} {i c : Nat} (h : c_index s i = some c)
    (hi : i < s.length) : s.get? i = some c := by
  simpa [c_index, hi] using h

theorem evaluate_rule_wf {c line line_offset idx act : Nat} {p p1 : syntax_check}
    {jr jr1 : List tag_event} (hw : rule_wf p) (hact : act = 0 → p.rule_active = 0)
    (h : evaluate_rule c line line_offset idx act p jr = some (p1, jr1)) :
    rule_wf p1 := by
  obtain ⟨h1, h2, h3, h4, h5⟩ := hw
  rcases evaluate_rule_cases h with
    ⟨_, h0, hp, _⟩ | ⟨_, ha, ⟨s2, hs, hc⟩, hl, hp, _⟩ | ⟨_, ha, _, _, hp, _⟩ |
    ⟨_, ha, _, hp, _⟩ | ⟨hz, hc, hl, hp, _⟩ | ⟨hz, _, _, _, hp, _⟩ |
    ⟨_, _, _, hty, hp, _⟩ | ⟨hz, _, hp, _⟩
  · subst hp; exact ⟨h1, h2, fun _ => h2, h4, fun hh => absurd h0 hh⟩
  · subst hp
    refine ⟨h1, h2, fun hh => absurd hh ha, h4, fun _ => ⟨(h5 ha).1, ?_⟩⟩
    have := (h5 ha).2
    show p.counter + 1 < p.syntax_check2_len
    omega
  · subst hp; exact ⟨h1, h2, fun _ => h2, h4, fun hh => absurd rfl hh⟩
  · subst hp
    refine ⟨h1, h2, fun hh => absurd hh ha, h4, fun _ => ⟨(h5 ha).1, ?_⟩⟩
    have := (h5 ha).2
    show 0 < p.syntax_check2_len
    omega
  · subst hp
    have h0 := hact hz
    refine ⟨h1, h2, fun _ => ?_, h4, fun hh => absurd h0 hh⟩
    have := h3 h0
    show p.counter + 1 < p.syntax_check1.length
    omega
  · subst hp; exact ⟨h1, h2, fun _ => h2, h4, fun hh => absurd (hact hz) hh⟩
  · subst hp; exact ⟨h1, h2, fun hh => absurd hh (by simp), h4, fun _ => ⟨hty, (h4 hty).2.2⟩⟩
  · subst hp; exact ⟨h1, h2, fun _ => h2, h4, fun hh => absurd (hact hz) hh⟩

theorem evaluate_rule_total (c line line_offset idx act : Nat) {p : syntax_check}
    (jr : List tag_event) (hw : rule_wf p) (hact : act = 0 → p.rule_active = 0) :
    ∃ r, evaluate_rule c line line_offset idx act p jr = some r := by
  obtain ⟨h1, h2, h3, h4, h5⟩ := hw
  unfold evaluate_rule
  by_cases hz : act = 0
  · have h0 := hact hz
    rw [if_neg (by simp [hz]), c_index_lt (h3 h0)]
    simp only
    split_ifs <;> exact ⟨_, rfl⟩
  · rw [if_pos hz]
    by_cases h0 : p.rule_active = 0
    · rw [if_neg (by simp [h0])]; exact ⟨_, rfl⟩
    · rw [if_pos h0]
      obtain ⟨hty, hk⟩ := h5 h0
      obtain ⟨hs, hl, _⟩ := h4 hty
      cases hs2 : p.syntax_check2 with
      | none => simp [hs2] at hs
      | some s2 =>
        simp only [hs2, Option.getD_some] at hl ⊢
        rw [c_index_lt (by omega)]
        simp only
        split_ifs <;> exact ⟨_, rfl⟩

theorem active_rule_head {done rest : List syntax_check} {p : syntax_check}
    (h : active_rule (done ++ p :: rest) = 0) : p.rule_active = 0 :=
  (active_rule_eq_zero_iff _).1 h p (by simp)

theorem rules_loop_total (c line line_offset : Nat) :
    ∀ (todo done : List syntax_check) (jr : List tag_event),
      (∀ p ∈ todo, rule_wf p) → ∃ r, rules_loop c line line_offset done todo jr = some r := by
  intro todo
  induction todo with
  | nil => intro done jr _; exact ⟨_, rfl⟩
  | cons p rest ih =>
    intro done jr hw
    obtain ⟨⟨p1, jr1⟩, he⟩ := evaluate_rule_total c line line_offset done.length
      (active_rule (done ++ p :: rest)) jr (hw p (by simp)) active_rule_head
    simp only [rules_loop, he]
    exact ih _ _ (fun q hq => hw q (by simp [hq]))

theorem rule_wf_step {c line line_offset : Nat} {done rest : List syntax_check}
    {p p1 : syntax_check} {jr jr1 : List tag_event}
    (hw : ∀ q ∈ done ++ p :: rest, rule_wf q)
    (h : evaluate_rule c line line_offset done.length (active_rule (done ++ p :: rest)) p jr
      = some (p1, jr1)) :
    ∀ q ∈ done ++ p1 :: rest, rule_wf q := by
  intro q hq
  simp only [List.mem_append, List.mem_cons] at hq
  rcases hq with hq | hq | hq
  · exact hw q (by simp [hq])
  · subst hq; exact evaluate_rule_wf (hw p (by simp)) active_rule_head h
  · exact hw q (by simp [hq])

/-- From well-formed rules the scan of any input returns, with well-formed rules. -/
theorem parse_loop_total :
    ∀ (input : List Nat) (line line_offset : Nat) (st : cparse),
      (∀ p ∈ st.syntax_list, rule_wf p) →
      ∃ st1, parse_loop input line line_offset st = some st1 ∧
        ∀ p ∈ st1.syntax_list, rule_wf p := by
  intro input
  induction input with
  | nil => intro line lo st hw; exact ⟨st, rfl, hw⟩
  | cons c input ih =>
    intro line lo st hw
    obtain ⟨⟨rules, jr⟩, hr⟩ := rules_loop_total c line lo st.syntax_list [] st.journal hw
    have hw1 : ∀ p ∈ rules, rule_wf p :=
      rules_loop_forall (fun l => ∀ p ∈ l, rule_wf p)
        (fun done p rest jr p1 jr1 hP he => rule_wf_step hP he) (by simpa using hw) hr
    simp only [parse_loop, evaluate_syntax_checks, hr]
    split
    · exact ih _ _ _ hw1
    · exact ih _ _ _ hw1

theorem main_syntax_list_wf : ∀ p ∈ main_syntax_list, rule_wf p := by decide

/-- With the rules of `main` the scan of any input returns. -/
theorem parse_main_total (input : List Nat) :
    ∃ st, parse_source_code input main_state = some st :=
  (parse_loop_total input 0 0 main_state main_syntax_list_wf).imp (fun _ h => h.1)

/-! ### The scan, one more byte at a time -/

theorem parse_loop_append (a b : List Nat) :
    ∀ (line line_offset : Nat) (st : cparse),
      parse_loop (a ++ b) line line_offset st =
        (parse_loop a line line_offset st).bind (fun st1 =>
          parse_loop b (a.foldl advance (line, line_offset)).1
            (a.foldl advance (line, line_offset)).2 st1) := by
  induction a with
  | nil => intro line lo st; simp [parse_loop]
  | cons c a ih =>
    intro line lo st
    simp only [List.cons_append, parse_loop, List.foldl_cons]
    cases he : evaluate_syntax_checks [c] line lo st with
    | none => simp
    | some st2 =>
      simp only
      by_cases hc : c = 10
      · simp only [hc, if_true, advance]; exact ih _ _ _
      · simp only [hc, if_false, advance]; exact ih _ _ _

theorem parse_source_code_snoc (pre : List Nat) (c : Nat) (st : cparse) :
    parse_source_code (pre ++ [c]) st =
      (parse_source_code pre st).bind (fun st1 =>
        evaluate_syntax_checks [c] (scan_pos pre).1 (scan_pos pre).2 st1) := by
  unfold parse_source_code scan_pos
  rw [parse_loop_append]
  congr 1
  funext st1
  simp only [parse_loop]
  cases evaluate_syntax_checks [c] (List.foldl advance (0, 0) pre).1
      (List.foldl advance (0, 0) pre).2 st1 with
  | none => rfl
  | some st2 => by_cases hc : c = 10 <;> simp [hc]

theorem parse_source_code_append (a b : List Nat) (st : cparse) :
    parse_source_code (a ++ b) st =
      (parse_source_code a st).bind (fun st1 =>
        parse_loop b (scan_pos a).1 (scan_pos a).2 st1) := by
  unfold parse_source_code scan_pos
  exact parse_loop_append a b 0 0 st

/-- Induction over the scan, byte by byte from the left: `K pre st` relates
the bytes read so far to the state reached. -/
theorem parse_source_code_inv (st0 : cparse) (K : List Nat → cparse → Prop)
    (h0 : K [] st0)
    (hstep : ∀ pre c st st1, K pre st → parse_source_code pre st0 = some st →
      rules_loop c (scan_pos pre).1 (scan_pos pre).2 [] st.syntax_list st.journal
        = some (st1.syntax_list, st1.journal) → K (pre ++ [c]) st1) :
    ∀ input st, parse_source_code input st0 = some st → K input st := by
  intro input
  induction input using List.reverseRecOn with
  | nil =>
    intro st h
    simp only [parse_source_code, parse_loop, Option.some.injEq] at h
    subst h; exact h0
  | append_singleton pre c ih =>
    intro st h
    rw [parse_source_code_snoc] at h
    cases hp : parse_source_code pre st0 with
    | none => simp [hp] at h
    | some st2 =>
      simp only [hp, Option.some_bind] at h
      exact hstep pre c st2 st (ih st2 hp) hp (evaluate_syntax_checks_one h)

/-! ### What a rule step appends -/

theorem evaluate_rule_events {c line line_offset idx act : Nat} {p p1 : syntax_check}
    {jr jr1 : List tag_event}
    (h : evaluate_rule c line line_offset idx act p jr = some (p1, jr1)) :
    ∃ evs, jr1 = jr ++ evs ∧ ∀ e ∈ evs, e.rule = idx ∧ e.tag.line = (line : Int) ∧
      (e.opening = false → e.tag.offset = (line_offset : Int) + 2 ∧
        e.tag.string = strdup p.close_string_if_found) ∧
      (e.opening = true → e.tag.offset = open_offset line_offset p.syntax_check1_len ∧
        e.tag.string = strdup p.open_string_if_found ∧ act = 0 ∧
        c_index p.syntax_check1 p.counter = some c ∧
        p.counter + 1 = p.syntax_check1_len) := by
  rcases evaluate_rule_cases h with
    ⟨_, _, _, hj⟩ | ⟨_, _, _, _, _, hj⟩ | ⟨_, _, _, _, _, hj⟩ | ⟨_, _, _, _, hj⟩ |
    ⟨_, _, _, _, hj⟩ | ⟨ha, hc, hl, _, _, hj⟩ | ⟨ha, hc, hl, _, _, hj⟩ | ⟨_, _, _, hj⟩
  · exact ⟨[], by simp [hj], by simp⟩
  · exact ⟨[], by simp [hj], by simp⟩
  · exact ⟨_, hj, by simp⟩
  · exact ⟨[], by simp [hj], by simp⟩
  · exact ⟨[], by simp [hj], by simp⟩
  · exact ⟨_, hj, by simp [ha, hc, hl]⟩
  · exact ⟨_, hj, by simp [ha, hc, hl]⟩
  · exact ⟨[], by simp [hj], by simp⟩

/-- The rule loop only appends: rules to `done`, entries to the journal. -/
theorem rules_loop_shape {c line line_offset : Nat} :
    ∀ (todo done : List syntax_check) (jr : List tag_event)
      (rules1 : List syntax_check) (jr1 : List tag_event),
      rules_loop c line line_offset done todo jr = some (rules1, jr1) →
      ∃ d more, rules1 = done ++ d ∧ jr1 = jr ++ more := by
  intro todo
  induction todo with
  | nil =>
    intro done jr rules1 jr1 h
    simp only [rules_loop, Option.some.injEq, Prod.mk.injEq] at h
    exact ⟨[], [], by simp [h.1], by simp [h.2]⟩
  | cons p rest ih =>
    intro done jr rules1 jr1 h
    simp only [rules_loop] at h
    cases he : evaluate_rule c line line_offset done.length
        (active_rule (done ++ p :: rest)) p jr with
    | none => simp [he] at h
    | some x =>
      obtain ⟨p1, jr2⟩ := x
      simp only [he] at h
      obtain ⟨evs, hevs, _⟩ := evaluate_rule_events he
      obtain ⟨d, more, h1, h2⟩ := ih _ _ _ _ h
      exact ⟨p1 :: d, evs ++ more, by simp [h1], by simp [h2, hevs]⟩

/-- The scan only appends to the journal. -/
theorem parse_loop_journal :
    ∀ (input : List Nat) (line line_offset : Nat) (st st1 : cparse),
      parse_loop input line line_offset st = some st1 →
      ∃ more, st1.journal = st.journal ++ more := by
  intro input
  induction input with
  | nil =>
    intro line lo st st1 h
    simp only [parse_loop, Option.some.injEq] at h
    exact ⟨[], by rw [h]; simp⟩
  | cons c input ih =>
    intro line lo st st1 h
    simp only [parse_loop] at h
    cases he : evaluate_syntax_checks [c] line lo st with
    | none => simp [he] at h
    | some st2 =>
      simp only [he] at h
      obtain ⟨_, more1, _, h1⟩ := rules_loop_shape _ _ _ _ _ (evaluate_syntax_checks_one he)
      have h2 : ∃ more, st1.journal = st2.journal ++ more := by
        split at h
        · exact ih _ _ _ _ h
        · exact ih _ _ _ _ h
      obtain ⟨more2, h2⟩ := h2
      exact ⟨more1 ++ more2, by rw [h2, h1, List.append_assoc]⟩

theorem open_offset_le {line_offset len : Nat} (h1 : 1 ≤ len) (h2 : len ≤ 2147483648) :
    open_offset line_offset len ≤ (line_offset : Int) + 1 := by
  unfold open_offset to_int
  split <;> omega

theorem open_offset_eq {line_offset len : Nat} (hlo : line_offset + 2 < 2147483648)
    (hlen : len ≤ 2147483648) :
    open_offset line_offset len = (line_offset : Int) + 2 - (len : Int) := by
  unfold open_offset to_int
  split <;> omega

theorem scan_pos_snoc (pre : List Nat) (c : Nat) :
    scan_pos (pre ++ [c]) = advance (scan_pos pre) c := by
  simp [scan_pos, List.foldl_append]

/-! ### Order of the tag list -/

theorem close_ordered_step {c line line_offset idx act : Nat} {p p1 : syntax_check}
    {jr jr1 : List tag_event}
    (hlen : 1 ≤ p.syntax_check1_len ∧ p.syntax_check1_len ≤ 2147483648)
    (hI : List.Pairwise close_ordered jr ∧
      ∀ e ∈ jr, tag_before line ((line_offset : Int) + 2) e.tag)
    (h : evaluate_rule c line line_offset idx act p jr = some (p1, jr1)) :
    List.Pairwise close_ordered jr1 ∧
      ∀ e ∈ jr1, tag_before line ((line_offset : Int) + 2) e.tag := by
  obtain ⟨evs, hj, hev⟩ := evaluate_rule_events h
  have hoff := @open_offset_le line_offset p.syntax_check1_len hlen.1 hlen.2
  have hnew : ∀ e ∈ evs, e.tag.line = (line : Int) ∧
      e.tag.offset ≤ (line_offset : Int) + 2 ∧
      (e.opening = false → e.tag.offset = (line_offset : Int) + 2) := by
    intro e he
    obtain ⟨_, hl, hcl, hop⟩ := hev e he
    refine ⟨hl, ?_, fun hh => (hcl hh).1⟩
    cases ho : e.opening with
    | false => rw [(hcl ho).1]
    | true => rw [(hop ho).1]; omega
  subst hj
  refine ⟨List.pairwise_append.2 ⟨hI.1, ?_, ?_⟩, ?_⟩
  · apply List.pairwise_of_forall_mem_list
    intro a ha b hb
    obtain ⟨hal, hao, _⟩ := hnew a ha
    obtain ⟨hbl, _, hbc⟩ := hnew b hb
    refine ⟨by rw [hal, hbl], fun hh => Or.inr ⟨by rw [hal, hbl], ?_⟩⟩
    rw [hbc hh]; exact hao
  · intro a ha b hb
    obtain ⟨hbl, _, hbc⟩ := hnew b hb
    have hab := hI.2 a ha
    unfold tag_before at hab
    refine ⟨by rw [hbl]; omega, fun hh => ?_⟩
    unfold tag_le
    rw [hbl, hbc hh]
    omega
  · intro e he
    rcases List.mem_append.1 he with he | he
    · exact hI.2 e he
    · obtain ⟨hl, ho, _⟩ := hnew e he
      exact Or.inr ⟨hl, ho⟩

theorem main_syntax_list_len :
    ∀ p ∈ main_syntax_list, 1 ≤ p.syntax_check1_len ∧ p.syntax_check1_len ≤ 2147483648 := by
  decide

theorem syntax_check1_len_reset {p q : syntax_check} (h : p.reset = q.reset) :
    p.syntax_check1_len = q.syntax_check1_len := by
  have := congrArg syntax_check.syntax_check1_len h
  simpa [syntax_check.reset] using this

/-- A bound on the open-pattern lengths of the initial rules holds for the
rules of every state of the scan. -/
theorem parse_loop_len {input : List Nat} {line line_offset : Nat} {st st1 : cparse}
    (h : parse_loop input line line_offset st = some st1)
    (hlen : ∀ p ∈ st.syntax_list, 1 ≤ p.syntax_check1_len ∧ p.syntax_check1_len ≤ 2147483648) :
    ∀ p ∈ st1.syntax_list, 1 ≤ p.syntax_check1_len ∧ p.syntax_check1_len ≤ 2147483648 := by
  refine parse_loop_forall
    (fun l => ∀ p ∈ l, 1 ≤ p.syntax_check1_len ∧ p.syntax_check1_len ≤ 2147483648)
    ?_ _ _ _ _ _ hlen h
  intro c line lo done p rest jr p1 jr1 hP he q hq
  simp only [List.mem_append, List.mem_cons] at hq
  rcases hq with hq | hq | hq
  · exact hP q (by simp [hq])
  · subst hq
    rw [syntax_check1_len_reset (evaluate_rule_reset he)]
    exact hP p (by simp)
  · exact hP q (by simp [hq])

/-- With the rules of `main`, the journal of every scan is in the order
`close_ordered`. -/
theorem parse_main_close_ordered {input : List Nat} {st : cparse}
    (hst : parse_source_code input main_state = some st) :
    List.Pairwise close_ordered st.journal := by
  have key := parse_source_code_inv main_state
    (fun pre st => List.Pairwise close_ordered st.journal ∧
      ∀ e ∈ st.journal, tag_before (scan_pos pre).1 ((scan_pos pre).2 + 1) e.tag)
    (by simp [main_state]) ?_ input st hst
  · exact key.1
  · intro pre c st1 st2 hK hpre hloop
    have hlen := parse_loop_len hpre main_syntax_list_len
    have hI := rules_loop_inv
      (fun _ todo jr =>
        (∀ p ∈ todo, 1 ≤ p.syntax_check1_len ∧ p.syntax_check1_len ≤ 2147483648) ∧
        List.Pairwise close_ordered jr ∧
        ∀ e ∈ jr, tag_before (scan_pos pre).1 (((scan_pos pre).2 : Int) + 2) e.tag)
      (fun done p rest jr p1 jr1 hI he =>
        ⟨fun q hq => hI.1 q (by simp [hq]),
          close_ordered_step (hI.1 p (by simp)) hI.2 he⟩)
      _ _ _ _ _ ⟨hlen, hK.1, fun e he => by
        have := hK.2 e he
        unfold tag_before at this ⊢
        omega⟩ hloop
    refine ⟨hI.2.1, fun e he => ?_⟩
    have hb := hI.2.2 e he
    rw [scan_pos_snoc]
    unfold tag_before at hb ⊢
    unfold advance
    split
    · simp only; push_cast; omega
    · simp only; push_cast; omega

/-- C2, counterexample. On the input `double` the rule `do` appends its two
tags at offsets 1 and 3 before the rule `double` appends its open tag at
offset 1: the tag list is not non-decreasing in (line, offset). -/
theorem tags_ordered_counterexample :
    (parse_source_code (bytes "double") main_state).map cparse.code_tags =
      some [⟨0, 1, bytes "<font color=#c0c000>"⟩, ⟨0, 3, bytes "</font>"⟩,
            ⟨0, 1, bytes "<font color=#00ee00>"⟩, ⟨0, 7, bytes "</font>"⟩] ∧
    ¬ List.Chain' tag_le
      [⟨0, 1, bytes "<font color=#c0c000>"⟩, ⟨0, 3, bytes "</font>"⟩,
       ⟨0, 1, bytes "<font color=#00ee00>"⟩, ⟨0, 7, bytes "</font>"⟩] := by
  constructor
  · decide!
  · simp [List.chain'_cons, tag_le]

/-! ### The pointer walk of `find_tag` -/

/-- The walk of `find_tag` on any tag list: it returns a string exactly when
some tag at the queried position has only tags strictly before that position
in front of it, and then the string of that tag. -/
theorem find_tag_eq_some_iff (tags : List code_tag) (line offset : Int) (s : List Nat) :
    find_tag tags line offset = some s ↔
      ∃ pre t post, tags = pre ++ t :: post ∧ t.line = line ∧ t.offset = offset ∧
        t.string = s ∧ ∀ u ∈ pre, tag_lt_pos line offset u := by
  constructor
  · induction tags with
    | nil => intro h; simp [find_tag] at h
    | cons t rest ih =>
      intro h
      simp only [find_tag] at h
      split_ifs at h with h1 h2 h3 h4 h5 h6
      · obtain ⟨pre, u, post, hr, hu⟩ := ih h
        refine ⟨t :: pre, u, post, by simp [hr], hu.1, hu.2.1, hu.2.2.1, ?_⟩
        intro v hv
        rcases List.mem_cons.1 hv with hv | hv
        · subst hv; exact Or.inl h1
        · exact hu.2.2.2 v hv
      · simp only [Option.some.injEq] at h
        exact ⟨[], t, rest, rfl, h5.1, h5.2, h, by simp⟩
      · obtain ⟨pre, u, post, hr, hu⟩ := ih h
        refine ⟨t :: pre, u, post, by simp [hr], hu.1, hu.2.1, hu.2.2.1, ?_⟩
        intro v hv
        rcases List.mem_cons.1 hv with hv | hv
        · subst hv; exact Or.inr ⟨by omega, by omega⟩
        · exact hu.2.2.2 v hv
  · rintro ⟨pre, t, post, hr, hl, ho, hs, hpre⟩
    subst hr
    induction pre with
    | nil =>
      simp only [List.nil_append, find_tag]
      rw [if_neg (by omega), if_neg (by omega), if_neg (by omega), if_pos (by omega),
        if_pos ⟨hl, ho⟩, hs]
    | cons u pre ih =>
      have hu := hpre u (by simp)
      have ih1 := ih (fun v hv => hpre v (by simp [hv]))
      simp only [List.cons_append, find_tag]
      rcases hu with hu | ⟨hu1, hu2⟩
      · rw [if_pos hu]; exact ih1
      · rw [if_neg (by omega), if_neg (by omega), if_neg (by omega), if_neg (by omega),
          if_neg (by simp)]
        exact ih1

/-- In a list of tags at or before a position, followed by a tag at that
position, the first tag at the position has only tags strictly before the
position in front of it. -/
theorem exists_first_at (line offset : Int) (x : code_tag)
    (hx : x.line = line ∧ x.offset = offset) :
    ∀ l : List code_tag, (∀ u ∈ l, tag_before line offset u) →
      ∃ pre t post, l ++ [x] = pre ++ t :: post ∧ t.line = line ∧ t.offset = offset ∧
        ∀ u ∈ pre, tag_lt_pos line offset u := by
  intro l
  induction l with
  | nil => intro _; exact ⟨[], x, [], rfl, hx.1, hx.2, by simp⟩
  | cons a l ih =>
    intro hl
    by_cases ha : a.line = line ∧ a.offset = offset
    · exact ⟨[], a, l ++ [x], rfl, ha.1, ha.2, by simp⟩
    · obtain ⟨pre, t, post, h1, h2, h3, h4⟩ := ih (fun u hu => hl u (by simp [hu]))
      refine ⟨a :: pre, t, post, by simp [h1], h2, h3, ?_⟩
      intro u hu
      rcases List.mem_cons.1 hu with hu | hu
      · subst hu
        have := hl u (by simp)
        unfold tag_before at this
        unfold tag_lt_pos
        rcases this with h | ⟨h5, h6⟩
        · exact Or.inl h
        · refine Or.inr ⟨h5, ?_⟩
          by_contra hcon
          exact ha ⟨h5, by omega⟩
      · exact h4 u hu

/-- C3, counterexample. On the input `unsigned` the tag list holds the open
tag of the rule `signed` at (0, 3), behind the close tag of `unsigned` at
(0, 9); `find_tag` stops at that tag and returns NULL for the query (0, 3). -/
theorem find_tag_counterexample :
    (parse_source_code (bytes "unsigned") main_state).map cparse.code_tags =
      some [⟨0, 1, bytes "<font color=#00ee00>"⟩, ⟨0, 9, bytes "</font>"⟩,
            ⟨0, 3, bytes "<font color=#00ee00>"⟩, ⟨0, 9, bytes "</font>"⟩] ∧
    find_tag [⟨0, 1, bytes "<font color=#00ee00>"⟩, ⟨0, 9, bytes "</font>"⟩,
              ⟨0, 3, bytes "<font color=#00ee00>"⟩, ⟨0, 9, bytes "</font>"⟩] 0 3 = none ∧
    (⟨0, 3, bytes "<font color=#00ee00>"⟩ : code_tag) ∈
      [(⟨0, 1, bytes "<font color=#00ee00>"⟩ : code_tag), ⟨0, 9, bytes "</font>"⟩,
       ⟨0, 3, bytes "<font color=#00ee00>"⟩, ⟨0, 9, bytes "</font>"⟩] := by
  refine ⟨by decide!, by decide!, by simp⟩

/-! ### Induction over the whole scan, rule step by rule step -/

theorem scan_pos_le (pre : List Nat) : (scan_pos pre).2 ≤ pre.length := by
  induction pre using List.reverseRecOn with
  | nil => simp [scan_pos]
  | append_singleton pre c ih =>
    rw [scan_pos_snoc, List.length_append]
    unfold advance
    split <;> simp
    omega

/-- Induction over the scan of `input`: `K` holds between two bytes, `I`
inside the rule loop of the byte `c` that follows the bytes `pre`. -/
theorem scan_induction (st0 : cparse) (input : List Nat)
    (K : List Nat → List syntax_check → List tag_event → Prop)
    (I : List Nat → Nat → List syntax_check → List syntax_check → List tag_event → Prop)
    (h0 : K [] st0.syntax_list st0.journal)
    (hin : ∀ pre c rules jr, pre ++ [c] <+: input →
      rules.map syntax_check.reset = st0.syntax_list.map syntax_check.reset →
      K pre rules jr → I pre c [] rules jr)
    (hstep : ∀ pre c done p rest jr p1 jr1, pre ++ [c] <+: input →
      (done ++ p :: rest).map syntax_check.reset = st0.syntax_list.map syntax_check.reset →
      I pre c done (p :: rest) jr →
      evaluate_rule c (scan_pos pre).1 (scan_pos pre).2 done.length
        (active_rule (done ++ p :: rest)) p jr = some (p1, jr1) →
      I pre c (done ++ [p1]) rest jr1)
    (hout : ∀ pre c rules jr, pre ++ [c] <+: input → I pre c rules [] jr →
      K (pre ++ [c]) rules jr) :
    ∀ pre st, pre <+: input → parse_source_code pre st0 = some st →
      K pre st.syntax_list st.journal := by
  intro pre
  induction pre using List.reverseRecOn with
  | nil =>
    intro st _ h
    simp only [parse_source_code, parse_loop, Option.some.injEq] at h
    subst h; exact h0
  | append_singleton pre c ih =>
    intro st hpre h
    rw [parse_source_code_snoc] at h
    cases hp : parse_source_code pre st0 with
    | none => simp [hp] at h
    | some st2 =>
      simp only [hp, Option.some_bind] at h
      have hK := ih st2 ((List.prefix_append pre [c]).trans hpre) hp
      have hres : st2.syntax_list.map syntax_check.reset
          = st0.syntax_list.map syntax_check.reset := parse_loop_reset hp
      have hI := rules_loop_inv
        (fun done todo jr => I pre c done todo jr ∧
          (done ++ todo).map syntax_check.reset = st0.syntax_list.map syntax_check.reset)
        (fun done p rest jr p1 jr1 hI he =>
          ⟨hstep pre c done p rest jr p1 jr1 hpre hI.2 hI.1 he, by
            have h2 := hI.2
            simp only [List.map_append, List.map_cons, List.map_nil,
              List.append_assoc, List.singleton_append] at h2 ⊢
            rw [evaluate_rule_reset he]; exact h2⟩)
        _ _ _ _ _ ⟨hin pre c _ _ hpre hres hK, by simpa using hres⟩
        (evaluate_syntax_checks_one h)
      exact hout pre c _ _ hpre hI.1

theorem get?_of_map_reset {l l0 : List syntax_check} {i : Nat} {p p0 : syntax_check}
    (h : l.map syntax_check.reset = l0.map syntax_check.reset)
    (hp : l.get? i = some p) (hp0 : l0.get? i = some p0) : p.reset = p0.reset := by
  have h1 : (l.map syntax_check.reset).get? i = some p.reset := by
    simp [List.getElem?_map] at hp ⊢; exact ⟨p, hp, rfl⟩
  have h2 : (l0.map syntax_check.reset).get? i = some p0.reset := by
    simp [List.getElem?_map] at hp0 ⊢; exact ⟨p0, hp0, rfl⟩
  rw [h, h2] at h1
  exact (Option.some.inj h1).symm

theorem get?_zipper (done rest : List syntax_check) (p : syntax_check) :
    (done ++ p :: rest).get? done.length = some p := by
  rw [List.get?_eq_getElem?, List.getElem?_append_right (Nat.le_refl _)]
  simp

/-- A property `G e post` of every entry `e` of the journal and the entries
`post` behind it, which stays true when more entries are appended, is kept
by appending entries that have it among themselves. -/
theorem journal_append_inv (G : tag_event → List tag_event → Prop)
    (hmono : ∀ e post more, G e post → G e (post ++ more))
    {jr evs : List tag_event}
    (hjr : ∀ pre e post, jr = pre ++ e :: post → G e post)
    (hevs : ∀ pre e post, evs = pre ++ e :: post → G e post) :
    ∀ pre e post, jr ++ evs = pre ++ e :: post → G e post := by
  intro pre e post h
  rcases List.append_eq_append_iff.1 h with ⟨a, _, hb⟩ | ⟨a, ha, hb⟩
  · exact hevs a e post hb
  · cases a with
    | nil => exact hevs [] e post (by simpa using hb.symm)
    | cons x a =>
      simp only [List.cons_append, List.cons.injEq] at hb
      rw [hb.2]
      exact hmono e a evs (hjr pre e a (by rw [ha, hb.1]))

theorem reset_fields {p q : syntax_check} (h : p.reset = q.reset) :
    p.syntax_check1 = q.syntax_check1 ∧ p.syntax_check2 = q.syntax_check2 ∧
    p.syntax_check1_len = q.syntax_check1_len ∧ p.syntax_check2_len = q.syntax_check2_len ∧
    p.syntax_type = q.syntax_type ∧ p.open_string_if_found = q.open_string_if_found ∧
    p.close_string_if_found = q.close_string_if_found := by
  cases p; cases q
  simp only [syntax_check.reset, syntax_check.mk.injEq] at h
  simp [h]

/-! ### Single-ended rules -/

/-- C4. Single-ended span: in the journal of the scan of any input with any
syntax list, every tag appended with the open string of a
SYNTAX_TYPE_SINGLE_ENDED rule is directly followed by the tag appended with
that rule's close string, on the same line; the open tag is at
`line_offset + 2 - syntax_check1_len`, the close tag at `line_offset + 2`,
which is the open offset plus the length of the pattern. -/
theorem single_ended_span (rules : List syntax_check) (input : List Nat) (st : cparse)
    (hlen : ∀ p ∈ rules, p.syntax_check1_len < 2147483648)
    (hsize : input.length + 2 ≤ 2147483648)
    (hst : parse_source_code input ⟨rules, []⟩ = some st) :
    ∀ pre e post p, st.journal = pre ++ e :: post → e.opening = true →
      rules.get? e.rule = some p → p.syntax_type = SYNTAX_TYPE_SINGLE_ENDED →
      ∃ (line_offset : Nat) (post1 : List tag_event),
        e.tag.offset = (line_offset : Int) + 2 - (p.syntax_check1_len : Int) ∧
        e.tag.string = strdup p.open_string_if_found ∧
        post = ⟨e.rule, false, ⟨e.tag.line, (line_offset : Int) + 2,
          strdup p.close_string_if_found⟩⟩ :: post1 ∧
        (line_offset : Int) + 2 = e.tag.offset + (p.syntax_check1_len : Int) := by
  let G : tag_event → List tag_event → Prop := fun e post =>
    ∀ p, e.opening = true →
      rules.get? e.rule = some p → p.syntax_type = SYNTAX_TYPE_SINGLE_ENDED →
      ∃ (line_offset : Nat) (post1 : List tag_event),
        e.tag.offset = (line_offset : Int) + 2 - (p.syntax_check1_len : Int) ∧
        e.tag.string = strdup p.open_string_if_found ∧
        post = ⟨e.rule, false, ⟨e.tag.line, (line_offset : Int) + 2,
          strdup p.close_string_if_found⟩⟩ :: post1 ∧
        (line_offset : Int) + 2 = e.tag.offset + (p.syntax_check1_len : Int)
  have hmono : ∀ e post more, G e post → G e (post ++ more) := by
    intro e post more hG p hop hget hty
    obtain ⟨lo, post1, h1, h2, h3, h4⟩ := hG p hop hget hty
    exact ⟨lo, post1 ++ more, h1, h2, by rw [h3]; rfl, h4⟩
  have key := scan_induction ⟨rules, []⟩ input
    (fun _ _ jr => ∀ pre e post, jr = pre ++ e :: post → G e post)
    (fun _ _ _ _ jr => ∀ pre e post, jr = pre ++ e :: post → G e post)
    (by intro pre e post h; simp at h)
    (fun _ _ _ _ _ _ hK => hK) ?_ (fun _ _ _ _ _ hI => hI) input st
    (List.prefix_refl _) hst
  · intro pre e post p hj hop hget hty
    exact key pre e post hj p hop hget hty
  · intro pre c done q rest jr q1 jr1 hpre hres hI he
    have hlo : (scan_pos pre).2 + 2 < 2147483648 := by
      have h1 := scan_pos_le pre
      have h2 := hpre.length_le
      simp only [List.length_append, List.length_singleton] at h2
      omega
    have hq : ∀ p, rules.get? done.length = some p → q.reset = p.reset := fun p hget =>
      get?_of_map_reset hres (get?_zipper done rest q) hget
    rcases evaluate_rule_cases he with
      ⟨_, _, _, hjr⟩ | ⟨_, _, _, _, _, hjr⟩ | ⟨_, _, _, _, _, hjr⟩ | ⟨_, _, _, _, hjr⟩ |
      ⟨_, _, _, _, hjr⟩ | ⟨_, _, hl, _, _, hjr⟩ | ⟨_, _, hl, hdb, _, hjr⟩ | ⟨_, _, _, hjr⟩
    · subst hjr; exact hI
    · subst hjr; exact hI
    · subst hjr
      refine journal_append_inv G hmono hI ?_
      intro pre1 e post h p hop
      have he : e ∈ [(⟨done.length, false, ⟨(scan_pos pre).1, ((scan_pos pre).2 : Int) + 2,
          strdup q.close_string_if_found⟩⟩ : tag_event)] := by rw [h]; simp
      simp only [List.mem_singleton] at he
      subst he; simp at hop
    · subst hjr; exact hI
    · subst hjr; exact hI
    · subst hjr
      refine journal_append_inv G hmono hI ?_
      intro pre1 e post h p hop hget hty
      cases pre1 with
      | nil =>
        simp only [List.nil_append, List.cons.injEq] at h
        obtain ⟨h1, h2⟩ := h
        subst h1
        obtain ⟨-, -, f3, -, -, f6, f7⟩ := reset_fields (hq p hget)
        have hp := hlen p (List.get?_mem hget)
        have hoff := @open_offset_eq (scan_pos pre).2 p.syntax_check1_len hlo (by omega)
        refine ⟨(scan_pos pre).2, [], ?_, ?_, ?_, ?_⟩
        · simp only [f3]; exact hoff
        · simp only [f6]
        · rw [← h2]; simp only [f7]
        · simp only [f3]; rw [hoff]; omega
      | cons x pre1 =>
        simp only [List.cons_append, List.cons.injEq] at h
        have he : e ∈ [(⟨done.length, false, ⟨(scan_pos pre).1,
            ((scan_pos pre).2 : Int) + 2, strdup q.close_string_if_found⟩⟩ : tag_event)] := by
          rw [h.2]; simp
        simp only [List.mem_singleton] at he
        subst he; simp at hop
    · subst hjr
      refine journal_append_inv G hmono hI ?_
      intro pre1 e post h p hop hget hty
      have he : e ∈ [(⟨done.length, true, ⟨(scan_pos pre).1,
          open_offset (scan_pos pre).2 q.syntax_check1_len,
          strdup q.open_string_if_found⟩⟩ : tag_event)] := by rw [h]; simp
      simp only [List.mem_singleton] at he
      subst he
      obtain ⟨-, -, -, -, f5, -, -⟩ := reset_fields (hq p hget)
      rw [f5, hty] at hdb; cases hdb
    · subst hjr; exact hI

/-- C4 at the input `int x;` with the rules of `main`. -/
theorem single_ended_span_witness :
    (∀ p ∈ main_syntax_list, p.syntax_check1_len < 2147483648) ∧
    (bytes "int x;\n").length + 2 ≤ 2147483648 ∧
    ∃ st, parse_source_code (bytes "int x;\n") ⟨main_syntax_list, []⟩ = some st ∧
      ∀ pre e post p, st.journal = pre ++ e :: post → e.opening = true →
        main_syntax_list.get? e.rule = some p →
        p.syntax_type = SYNTAX_TYPE_SINGLE_ENDED →
        ∃ (line_offset : Nat) (post1 : List tag_event),
          e.tag.offset = (line_offset : Int) + 2 - (p.syntax_check1_len : Int) ∧
          e.tag.string = strdup p.open_string_if_found ∧
          post = ⟨e.rule, false, ⟨e.tag.line, (line_offset : Int) + 2,
            strdup p.close_string_if_found⟩⟩ :: post1 ∧
          (line_offset : Int) + 2 = e.tag.offset + (p.syntax_check1_len : Int) := by
  refine ⟨by decide, by decide, ?_⟩
  obtain ⟨st, hst⟩ := parse_main_total (bytes "int x;\n")
  exact ⟨st, hst, single_ended_span main_syntax_list (bytes "int x;\n") st
    (by decide) (by decide) hst⟩

/-! ### Scenarios -/

theorem c_str_echo (c : Nat) : c_str [c, 0] = if c = 0 then [] else [c] := by
  by_cases h : c = 0 <;> simp [c_str, h]

theorem int_x_scan :
    (parse_source_code (bytes "int x;\n") main_state).map
        (fun st => (st.code_tags, active_rule st.syntax_list)) =
      some ([⟨0, 1, bytes "<font color=#00ee00>"⟩, ⟨0, 4, bytes "</font>"⟩], 0) := by
  decide!

theorem int_x_print (file : List Nat) (st : cparse)
    (htags : st.code_tags = [⟨0, 1, bytes "<font color=#00ee00>"⟩, ⟨0, 4, bytes "</font>"⟩])
    (hact : active_rule st.syntax_list = 0) :
    print_loop st file (bytes "int x;\n") 0 0 true =
      line_anchor file 0 ++ bytes "<font color=#00ee00>int</font> x;\n" := by
  have hb : bytes "int x;\n" = [105, 110, 116, 32, 120, 59, 10] := by decide
  have h1 : c_str (bytes "<font color=#00ee00>") = bytes "<font color=#00ee00>" := by decide
  have h2 : c_str (bytes "</font>") = bytes "</font>" := by decide
  have h3 : bytes "<font color=#00ee00>int</font> x;\n" =
      bytes "<font color=#00ee00>" ++ [105, 110, 116] ++ bytes "</font>" ++
        [32, 120, 59, 10] := by decide
  rw [hb, h3]
  simp only [print_loop, htags, hact]
  simp [find_tag, h1, h2, c_str_echo]

/-- C5. Scenario `int x;` and a line feed: with the rules of `main` the scan
produces exactly the tags (0, 1, `<font color=#00ee00>`) and (0, 4,
`</font>`), and for every file name the output of the two passes contains
`<font color=#00ee00>int</font> x;` directly followed by the line feed. -/
theorem scenario_int_x :
    (parse_source_code (bytes "int x;\n") main_state).map cparse.code_tags =
      some [⟨0, 1, bytes "<font color=#00ee00>"⟩, ⟨0, 4, bytes "</font>"⟩] ∧
    ∀ file : List Nat, ∃ out, render main_state file (bytes "int x;\n") = some out ∧
      bytes "<font color=#00ee00>int</font> x;\n" <:+: out := by
  have h := int_x_scan
  obtain ⟨st, hst⟩ := parse_main_total (bytes "int x;\n")
  rw [hst] at h ⊢
  simp only [Option.map_some', Option.some.injEq, Prod.mk.injEq] at h
  refine ⟨by simp [h.1], fun file => ⟨print_source_code st file (bytes "int x;\n"),
    by simp only [render, hst, Option.map_some'], ?_⟩⟩
  rw [print_source_code, int_x_print file st h.1 h.2]
  exact ⟨html_header file ++ line_anchor file 0, html_footer, by simp⟩

theorem string_comment_scan :
    (parse_source_code (bytes "\"a/*b*/c\"") main_state).map
        (fun st => (st.code_tags, active_rule st.syntax_list)) =
      some ([⟨0, 1, bytes "<font color=red>"⟩, ⟨0, 10, bytes "</font>"⟩], 0) := by
  decide!

theorem string_comment_print (file : List Nat) (st : cparse)
    (htags : st.code_tags = [⟨0, 1, bytes "<font color=red>"⟩, ⟨0, 10, bytes "</font>"⟩])
    (hact : active_rule st.syntax_list = 0) :
    print_loop st file (bytes "\"a/*b*/c\"") 0 0 true =
      line_anchor file 0 ++ bytes "<font color=red>\"a/*b*/c\"" := by
  have hb : bytes "\"a/*b*/c\"" = [34, 97, 47, 42, 98, 42, 47, 99, 34] := by decide
  have h1 : c_str (bytes "<font color=red>") = bytes "<font color=red>" := by decide
  have h3 : bytes "<font color=red>\"a/*b*/c\"" =
      bytes "<font color=red>" ++ [34, 97, 47, 42, 98, 42, 47, 99, 34] := by decide
  rw [hb, h3]
  simp only [print_loop, htags, hact]
  simp [find_tag, h1, c_str_echo]

/-- With one more byte on the line the renderer reaches the close tag: on
`"a/*b*/c";` the span is closed in front of the `;`. -/
theorem string_comment_followed :
    (render main_state (bytes "f.c") (bytes "\"a/*b*/c\";")).map
      (fun out => decide (bytes "<font color=red>\"a/*b*/c\"</font>;" <:+: out)) = some true := by
  decide!

/-- C6, the code at the claim's input. On the nine bytes `"a/*b*/c"` the scan
appends the open tag at (0, 1) and the close tag at (0, 10), and no comment
tag. The renderer queries the offsets 1 to 9 only, so for every file name
the output is the header, the line anchor, `<font color=red>"a/*b*/c"` and
the footer: the span is opened and never closed. -/
theorem scenario_string_comment :
    (parse_source_code (bytes "\"a/*b*/c\"") main_state).map cparse.code_tags =
      some [⟨0, 1, bytes "<font color=red>"⟩, ⟨0, 10, bytes "</font>"⟩] ∧
    (∀ file : List Nat, render main_state file (bytes "\"a/*b*/c\"") =
      some (html_header file ++ (line_anchor file 0 ++ bytes "<font color=red>\"a/*b*/c\"")
        ++ html_footer)) ∧
    (render main_state (bytes "f.c") (bytes "\"a/*b*/c\"")).map
      (fun out => decide (bytes "<font color=red>\"a/*b*/c\"</font>" <:+: out)) = some false := by
  have h := string_comment_scan
  obtain ⟨st, hst⟩ := parse_main_total (bytes "\"a/*b*/c\"")
  rw [hst] at h
  simp only [Option.map_some', Option.some.injEq, Prod.mk.injEq] at h
  refine ⟨by rw [hst]; simp [h.1], fun file => ?_, by decide!⟩
  simp only [render, hst, Option.map_some', print_source_code,
    string_comment_print file st h.1 h.2]

/-! ### The rule loop while a region is open -/

theorem active_rule_append_ne_zero (a b : List syntax_check) :
    active_rule (a ++ b) ≠ 0 ↔ active_rule a ≠ 0 ∨ active_rule b ≠ 0 := by
  rw [Ne, Ne, Ne, active_rule_eq_zero_iff, active_rule_eq_zero_iff, active_rule_eq_zero_iff]
  simp only [List.mem_append]
  constructor
  · intro h
    by_contra hn
    push_neg at hn
    exact h (fun p hp => hp.elim (hn.1 p) (hn.2 p))
  · rintro (h | h) hn
    · exact h (fun p hp => hn p (Or.inl hp))
    · exact h (fun p hp => hn p (Or.inr hp))

theorem active_rule_cons_ne_zero {p : syntax_check} (rest : List syntax_check)
    (h : p.rule_active ≠ 0) : active_rule (p :: rest) ≠ 0 := by
  simp [active_rule, h]

theorem evaluate_rule_idle {c line line_offset idx act : Nat} {p : syntax_check}
    (jr : List tag_event) (hact : act ≠ 0) (hp : idle p) :
    evaluate_rule c line line_offset idx act p jr = some (p, jr) := by
  obtain ⟨h0, hk⟩ := hp
  unfold evaluate_rule
  rw [if_pos hact, if_neg (by simp [h0])]
  cases p
  simp_all

theorem rules_loop_cons_of_eq {c line line_offset : Nat} {done rest : List syntax_check}
    {p p1 : syntax_check} {jr jr1 : List tag_event}
    (h : evaluate_rule c line line_offset done.length (active_rule (done ++ p :: rest)) p jr
      = some (p1, jr1)) :
    rules_loop c line line_offset done (p :: rest) jr =
      rules_loop c line line_offset (done ++ [p1]) rest jr1 := by
  simp only [rules_loop, h]

/-- Behind an active rule, rules at rest stay as they are. -/
theorem rules_loop_frozen (c line line_offset : Nat) :
    ∀ (todo done : List syntax_check) (jr : List tag_event),
      active_rule done ≠ 0 → (∀ p ∈ todo, idle p) →
      rules_loop c line line_offset done todo jr = some (done ++ todo, jr) := by
  intro todo
  induction todo with
  | nil => intro done jr _ _; simp [rules_loop]
  | cons p rest ih =>
    intro done jr hd hidle
    have hact : active_rule (done ++ p :: rest) ≠ 0 :=
      (active_rule_append_ne_zero _ _).2 (Or.inl hd)
    rw [rules_loop_cons_of_eq (evaluate_rule_idle jr hact (hidle p (by simp))),
      ih (done ++ [p]) jr ((active_rule_append_ne_zero _ _).2 (Or.inl hd))
      (fun q hq => hidle q (by simp [hq]))]
    simp

/-- In front of an active rule, rules at rest stay as they are. -/
theorem rules_loop_frozen_before (c line line_offset : Nat) (r : syntax_check)
    (post : List syntax_check) (hr : r.rule_active ≠ 0) :
    ∀ (pre done : List syntax_check) (jr : List tag_event),
      (∀ p ∈ pre, idle p) →
      rules_loop c line line_offset done (pre ++ r :: post) jr =
        rules_loop c line line_offset (done ++ pre) (r :: post) jr := by
  intro pre
  induction pre with
  | nil => intro done jr _; simp
  | cons p pre ih =>
    intro done jr hidle
    have hact : active_rule (done ++ p :: (pre ++ r :: post)) ≠ 0 := by
      refine (active_rule_append_ne_zero _ _).2 (Or.inr ?_)
      rw [show p :: (pre ++ r :: post) = (p :: pre) ++ r :: post by simp]
      exact (active_rule_append_ne_zero _ _).2 (Or.inr (active_rule_cons_ne_zero _ hr))
    rw [List.cons_append, rules_loop_cons_of_eq (evaluate_rule_idle jr hact (hidle p (by simp))),
      ih (done ++ [p]) jr (fun q hq => hidle q (by simp [hq]))]
    simp

/-- One byte inside a region that does not end at this byte: only the counter
of the active rule moves, and no tag is appended. -/
theorem rules_loop_region (c line line_offset : Nat) (pre post : List syntax_check)
    (r : syntax_check) (s2 : List Nat) (ch : Nat) (jr : List tag_event)
    (hpre : ∀ p ∈ pre, idle p) (hpost : ∀ p ∈ post, idle p)
    (hr : r.rule_active ≠ 0) (hs : r.syntax_check2 = some s2)
    (hc : c_index s2 r.counter = some ch)
    (hno : ¬ (ch = c ∧ r.counter + 1 = r.syntax_check2_len)) :
    rules_loop c line line_offset [] (pre ++ r :: post) jr =
      some (pre ++ { r with counter := if ch = c then r.counter + 1 else 0 } :: post, jr) := by
  rw [rules_loop_frozen_before c line line_offset r post hr pre [] jr hpre]
  have hact : active_rule ([] ++ pre ++ r :: post) ≠ 0 :=
    (active_rule_append_ne_zero _ _).2 (Or.inr (active_rule_cons_ne_zero _ hr))
  have hev : evaluate_rule c line line_offset ([] ++ pre).length
      (active_rule ([] ++ pre ++ r :: post)) r jr =
      some ({ r with counter := if ch = c then r.counter + 1 else 0 }, jr) := by
    unfold evaluate_rule
    rw [if_pos hact, if_pos hr]
    simp only [hs, hc]
    by_cases h1 : ch = c
    · have h2 : ¬ r.counter + 1 = r.syntax_check2_len := fun h => hno ⟨h1, h⟩
      simp [h1, h2]
    · by_cases h3 : r.counter = 0
      · simp only [h1, if_false, h3, ne_eq, not_true_eq_false]
        cases r; simp_all
      · simp [h1, h3]
  rw [rules_loop_cons_of_eq hev, rules_loop_frozen c line line_offset post _ jr ?_ hpost]
  · simp
  · exact (active_rule_append_ne_zero _ _).2 (Or.inr (active_rule_cons_ne_zero _ (by simpa using hr)))

/-! ### Unterminated block comment -/

theorem main_region_block_comment (k : Nat) :
    main_region (bytes "/*") k =
      main_syntax_list.take 31 ++ block_comment_rule k :: main_syntax_list.drop 32 := by
  have h0 : main_region (bytes "/*") 0 =
      main_syntax_list.take 31 ++ block_comment_rule 0 :: main_syntax_list.drop 32 := by
    decide!
  have hk : main_region (bytes "/*") k =
      (main_region (bytes "/*") 0).map (fun p =>
        if p.rule_active = 0 then p else { p with counter := k }) := by
    unfold main_region
    rw [List.map_map]
    apply List.map_congr_left
    intro p hp
    have hp0 : p.rule_active = 0 := by
      revert p; decide
    by_cases hs : p.syntax_check1 = bytes "/*"
    · simp [hs]
    · simp [hs, hp0]
  rw [hk, h0, List.map_append, List.map_cons]
  have h1 : (main_syntax_list.take 31).map (fun p =>
      if p.rule_active = 0 then p else { p with counter := k }) = main_syntax_list.take 31 := by
    conv_rhs => rw [← List.map_id (main_syntax_list.take 31)]
    apply List.map_congr_left
    intro p hp
    have hp0 : p.rule_active = 0 := by
      revert p; decide
    simp [hp0]
  have h2 : (main_syntax_list.drop 32).map (fun p =>
      if p.rule_active = 0 then p else { p with counter := k }) = main_syntax_list.drop 32 := by
    conv_rhs => rw [← List.map_id (main_syntax_list.drop 32)]
    apply List.map_congr_left
    intro p hp
    have hp0 : p.rule_active = 0 := by
      revert p; decide
    simp [hp0]
  rw [h1, h2]
  rfl

/-- One byte inside a block comment that does not end at this byte. -/
theorem rules_loop_block_comment (c line line_offset k : Nat) (jr : List tag_event)
    (hk : k = 0 ∨ k = 1) (hno : ¬ (k = 1 ∧ c = 47)) :
    rules_loop c line line_offset [] (main_region (bytes "/*") k) jr =
      some (main_region (bytes "/*") (if k = 0 ∧ c = 42 then 1 else 0), jr) := by
  have hpre : ∀ p ∈ main_syntax_list.take 31, idle p := by decide
  have hpost : ∀ p ∈ main_syntax_list.drop 32, idle p := by decide
  have hs2 : bytes "*/" = [42, 47] := by decide
  rw [main_region_block_comment, main_region_block_comment]
  rcases hk with hk | hk
  · subst hk
    rw [rules_loop_region c line line_offset _ _ (block_comment_rule 0) (bytes "*/") 42 jr
      hpre hpost (by decide) rfl (by decide) (fun h => absurd h.2 (by decide))]
    by_cases hc : c = 42
    · simp [hc, block_comment_rule]
    · have hc2 : ¬ (42 = c) := fun h => hc h.symm
      simp [hc, hc2, block_comment_rule]
  · subst hk
    have hc : ¬ (47 = c) := fun h => hno ⟨rfl, h.symm⟩
    rw [rules_loop_region c line line_offset _ _ (block_comment_rule 1) (bytes "*/") 47 jr
      hpre hpost (by decide) rfl (by decide) (fun h => hc h.1)]
    simp [hc, block_comment_rule]

theorem parse_loop_block_comment :
    ∀ (rest : List Nat) (k line line_offset : Nat) (jr : List tag_event),
      (k = 0 ∨ k = 1) → (k = 1 → rest.head? ≠ some 47) → ¬ ([42, 47] <:+: rest) →
      ∃ k1, (k1 = 0 ∨ k1 = 1) ∧
        parse_loop rest line line_offset ⟨main_region (bytes "/*") k, jr⟩ =
          some ⟨main_region (bytes "/*") k1, jr⟩ := by
  intro rest
  induction rest with
  | nil => intro k line lo jr hk _ _; exact ⟨k, hk, rfl⟩
  | cons c rest ih =>
    intro k line lo jr hk hhead hinf
    have hno : ¬ (k = 1 ∧ c = 47) := fun h => hhead h.1 (by simp [h.2])
    have hloop := rules_loop_block_comment c line lo k jr hk hno
    have hrest : ¬ ([42, 47] <:+: rest) := fun h => hinf (h.trans (List.suffix_cons c rest).isInfix)
    have hk1 : (if k = 0 ∧ c = 42 then 1 else 0) = 0 ∨ (if k = 0 ∧ c = 42 then 1 else 0) = 1 := by
      split <;> simp
    have hhead1 : (if k = 0 ∧ c = 42 then 1 else 0) = 1 → rest.head? ≠ some 47 := by
      intro h1 h47
      split at h1
      · rename_i hkc
        apply hinf
        cases rest with
        | nil => simp at h47
        | cons d rest =>
          simp only [List.head?_cons, Option.some.injEq] at h47
          rw [hkc.2, h47]
          exact (List.prefix_append [42, 47] rest).isInfix
      · simp at h1
    simp only [parse_loop, evaluate_syntax_checks, hloop]
    split
    · exact ih _ _ _ jr hk1 hhead1 hrest
    · exact ih _ _ _ jr hk1 hhead1 hrest

theorem block_comment_opened :
    parse_loop (bytes "/*") 0 0 main_state =
      some ⟨main_region (bytes "/*") 0,
        [⟨31, true, ⟨0, 1, bytes "<font color=#0000ff>"⟩⟩]⟩ := by
  decide!

/-- C7. Unterminated block comment: with the rules of `main`, on every input
that begins with `/*` and has no `*/` behind these two bytes, the scan
returns with the tag list holding the single tag (0, 1,
`<font color=#0000ff>`), and with the block-comment rule, and no other rule,
active. -/
theorem unterminated_block_comment (rest : List Nat) (h : ¬ (bytes "*/" <:+: rest)) :
    ∃ st, parse_source_code (bytes "/*" ++ rest) main_state = some st ∧
      st.code_tags = [⟨0, 1, bytes "<font color=#0000ff>"⟩] ∧
      (∃ k, st.syntax_list = main_region (bytes "/*") k) ∧
      (∀ p ∈ st.syntax_list, p.rule_active ≠ 0 ↔ p.syntax_check1 = bytes "/*") := by
  have hs2 : bytes "*/" = [42, 47] := by decide
  rw [hs2] at h
  obtain ⟨k, hk, hp⟩ := parse_loop_block_comment rest 0
    (List.foldl advance (0, 0) (bytes "/*")).1 (List.foldl advance (0, 0) (bytes "/*")).2
    [⟨31, true, ⟨0, 1, bytes "<font color=#0000ff>"⟩⟩] (Or.inl rfl) (by simp) h
  refine ⟨⟨main_region (bytes "/*") k, [⟨31, true, ⟨0, 1, bytes "<font color=#0000ff>"⟩⟩]⟩,
    ?_, ?_, ⟨k, rfl⟩, ?_⟩
  · unfold parse_source_code
    rw [parse_loop_append, block_comment_opened, Option.some_bind, hp]
  · simp [cparse.code_tags]
  · rcases hk with hk | hk <;> subst hk <;> decide!

/-- C7 at the input of the scenario. -/
theorem unterminated_block_comment_witness :
    ¬ (bytes "*/" <:+: bytes " unterminated comment") ∧
    ∃ st, parse_source_code (bytes "/*" ++ bytes " unterminated comment") main_state
        = some st ∧
      st.code_tags = [⟨0, 1, bytes "<font color=#0000ff>"⟩] ∧
      (∃ k, st.syntax_list = main_region (bytes "/*") k) ∧
      (∀ p ∈ st.syntax_list, p.rule_active ≠ 0 ↔ p.syntax_check1 = bytes "/*") :=
  ⟨by decide!, unterminated_block_comment (bytes " unterminated comment") (by decide!)⟩

/-! ### The NUL byte in the renderer -/

/-- C8, the code at a failing input. With no rule registered, the renderer
writes the file `a`, NUL, `b` as header, line anchor, `ab`, footer: the NUL
byte is printed through `%s` as an empty string and is missing from the
output. -/
theorem empty_catalog_nul (file : List Nat) :
    render cparse.init file [97, 0, 98] =
      some (html_header file ++ (line_anchor file 0 ++ [97, 98]) ++ html_footer) := by
  simp [render, parse_source_code, parse_loop, evaluate_syntax_checks, rules_loop,
    cparse.init, print_source_code, print_loop, cparse.code_tags, find_tag, active_rule,
    c_str_echo]

/-! ### Column of an open tag -/

theorem add_syntax_check_fresh (s1 : List Nat) (s2 : Option (List Nat)) (ty : syntax_type)
    (o cl : List Nat) (l : List syntax_check) (h : ∀ p ∈ l, fresh_rule p) :
    ∀ p ∈ add_syntax_check s1 s2 ty o cl l, fresh_rule p := by
  intro p hp
  simp only [add_syntax_check, List.mem_append, List.mem_singleton] at hp
  rcases hp with hp | hp
  · exact h p hp
  · subst hp; exact ⟨rfl, rfl, rfl⟩

theorem foldl_advance_no_lf (s : List Nat) (h : 10 ∉ s) :
    ∀ pos : Nat × Nat, s.foldl advance pos = (pos.1, pos.2 + s.length) := by
  induction s with
  | nil => intro pos; simp
  | cons c s ih =>
    intro pos
    have hc : c ≠ 10 := fun hc => h (by simp [hc])
    rw [List.foldl_cons, ih (fun hs => h (by simp [hs]))]
    simp [advance, hc]
    omega

theorem scan_pos_append_no_lf (a s : List Nat) (h : 10 ∉ s) :
    scan_pos (a ++ s) = ((scan_pos a).1, (scan_pos a).2 + s.length) := by
  unfold scan_pos
  rw [List.foldl_append, foldl_advance_no_lf s h]

theorem take_succ_of_c_index {s : List Nat} {k c : Nat} (hk : k < s.length)
    (hc : c_index s k = some c) : s.take (k + 1) = s.take k ++ [c] := by
  have := c_index_some_lt hc hk
  rw [List.get?_eq_getElem?] at this
  rw [List.take_succ, this]
  rfl

theorem mem_of_c_index {s : List Nat} {k c : Nat} (hk : k < s.length)
    (hc : c_index s k = some c) : c ∈ s :=
  List.get?_mem (c_index_some_lt hc hk)

theorem reset_mem_of_map {l l0 : List syntax_check} {p : syntax_check}
    (h : l.map syntax_check.reset = l0.map syntax_check.reset) (hp : p ∈ l) :
    ∃ p0 ∈ l0, p.reset = p0.reset := by
  have : p.reset ∈ l0.map syntax_check.reset := by
    rw [← h]; exact List.mem_map_of_mem _ hp
  obtain ⟨p0, hp0, he⟩ := List.mem_map.1 this
  exact ⟨p0, hp0, he.symm⟩

theorem open_progress_step {c line line_offset idx : Nat} {done rest : List syntax_check}
    {q q1 : syntax_check} {jr jr1 : List tag_event} {pre : List Nat}
    (hne : 0 < q.syntax_check1.length) (hlen : q.syntax_check1_len = q.syntax_check1.length)
    (hq : open_progress q pre)
    (he : evaluate_rule c line line_offset idx (active_rule (done ++ q :: rest)) q jr
      = some (q1, jr1)) :
    open_progress q1 (pre ++ [c]) := by
  have hzero : ∀ r : syntax_check, r.counter = 0 → r.syntax_check1 = q.syntax_check1 →
      open_progress r (pre ++ [c]) := by
    intro r hr hs _
    rw [hr, hs]
    exact ⟨hne, by simp⟩
  rcases evaluate_rule_cases he with
    ⟨_, _, hp, _⟩ | ⟨_, ha, _, _, hp, _⟩ | ⟨_, _, _, _, hp, _⟩ | ⟨_, ha, _, hp, _⟩ |
    ⟨hz, hc, hl, hp, _⟩ | ⟨_, _, _, _, hp, _⟩ | ⟨_, _, _, _, hp, _⟩ | ⟨_, _, hp, _⟩
  · subst hp; exact hzero _ rfl rfl
  · subst hp; intro h; exact absurd h ha
  · subst hp; exact hzero _ rfl rfl
  · subst hp; intro h; exact absurd h ha
  · subst hp
    intro _
    obtain ⟨hk, hsuf⟩ := hq (active_rule_head hz)
    have hc2 := c_index_some_lt hc hk
    refine ⟨?_, ?_⟩
    · show q.counter + 1 < q.syntax_check1.length
      omega
    · show q.syntax_check1.take (q.counter + 1) <:+ pre ++ [c]
      rw [take_succ_of_c_index hk hc]
      obtain ⟨t, ht⟩ := hsuf
      exact ⟨t, by rw [← ht]; simp⟩
  · subst hp; exact hzero _ rfl rfl
  · subst hp; intro h; simp at h
  · subst hp; exact hzero _ rfl rfl

theorem open_tag_placed_mono {rules : List syntax_check} {s : List Nat} (c : Nat)
    {e : tag_event} (h : open_tag_placed rules s e) : open_tag_placed rules (s ++ [c]) e := by
  intro hop p hget
  obtain ⟨before, lo, h1, h2⟩ := h hop p hget
  exact ⟨before, lo, h1.trans (List.prefix_append s [c]), h2⟩

theorem open_tag_placed_step {c idx : Nat} {done rest rules : List syntax_check}
    {q q1 : syntax_check} {jr jr1 : List tag_event} {pre : List Nat}
    (hlen : q.syntax_check1_len = q.syntax_check1.length) (hlf : 10 ∉ q.syntax_check1)
    (hsize : pre.length + 3 ≤ 2147483648)
    (hq : open_progress q pre)
    (hidx : ∀ p, rules.get? idx = some p → q.reset = p.reset)
    (hjr : ∀ e ∈ jr, open_tag_placed rules (pre ++ [c]) e)
    (he : evaluate_rule c (scan_pos pre).1 (scan_pos pre).2 idx
      (active_rule (done ++ q :: rest)) q jr = some (q1, jr1)) :
    ∀ e ∈ jr1, open_tag_placed rules (pre ++ [c]) e := by
  obtain ⟨evs, hj, hev⟩ := evaluate_rule_events he
  subst hj
  intro e hmem
  rcases List.mem_append.1 hmem with hmem | hmem
  · exact hjr e hmem
  · intro hop p hget
    obtain ⟨hrule, hline, -, hopen⟩ := hev e hmem
    obtain ⟨hoff, -, hz, hc, hfull⟩ := hopen hop
    obtain ⟨hk, hsuf⟩ := hq (active_rule_head hz)
    rw [hrule] at hget
    obtain ⟨f1, -, f3, -⟩ := reset_fields (hidx p hget)
    -- the occurrence
    have hall : q.syntax_check1 = q.syntax_check1.take q.counter ++ [c] := by
      rw [← take_succ_of_c_index hk hc, List.take_of_length_le (by omega)]
    obtain ⟨before, hb⟩ := hsuf
    have hocc : before ++ q.syntax_check1 = pre ++ [c] := by
      rw [hall, ← List.append_assoc, hb]
    -- the positions
    have hc10 : c ≠ 10 := fun h => hlf (h ▸ mem_of_c_index hk hc)
    have hpos1 : scan_pos (pre ++ [c]) = ((scan_pos pre).1, (scan_pos pre).2 + 1) := by
      rw [scan_pos_snoc]; simp [advance, hc10]
    have hpos2 := scan_pos_append_no_lf before q.syntax_check1 hlf
    rw [hocc, hpos1] at hpos2
    simp only [Prod.mk.injEq] at hpos2
    have hlo := scan_pos_le pre
    have hoff2 := @open_offset_eq (scan_pos pre).2 q.syntax_check1_len (by omega) (by omega)
    refine ⟨before, (scan_pos pre).2, ?_, ?_, ?_, ?_, ?_⟩
    · rw [← f1, hocc]
    · rw [← f3]; omega
    · rw [hline, hpos2.1]
    · rw [hoff, hoff2, ← f3]; omega
    · rw [hoff, hoff2]; omega

/-- C9. Column of an open tag: for rules as `add_syntax_check` leaves them,
with open patterns that are not empty and hold no line feed, and for every
input within the range of the `int` counters, every tag the scan appends
with an open string belongs to an occurrence of the open pattern in the
input; its offset is `line_offset + 2 - syntax_check1_len` without a borrow
(`syntax_check1_len <= line_offset + 1`), equal to the line offset of the
first byte of the occurrence plus one, hence at least 1, and on the line of
that byte; an occurrence at the very first byte of the file gives the tag
(line 0, offset 1). -/
theorem open_tag_column (rules : List syntax_check) (input : List Nat) (st : cparse)
    (hrules : ∀ p ∈ rules, fresh_rule p ∧ p.syntax_check1 ≠ [] ∧ 10 ∉ p.syntax_check1)
    (hsize : input.length + 2 ≤ 2147483648)
    (hst : parse_source_code input ⟨rules, []⟩ = some st) :
    ∀ e ∈ st.journal, e.opening = true → ∀ p, rules.get? e.rule = some p →
      ∃ (before : List Nat) (line_offset : Nat),
        before ++ p.syntax_check1 <+: input ∧
        (scan_pos before).2 + p.syntax_check1_len = line_offset + 1 ∧
        p.syntax_check1_len ≤ line_offset + 1 ∧
        e.tag.line = ((scan_pos before).1 : Int) ∧
        e.tag.offset = ((line_offset + 2 - p.syntax_check1_len : Nat) : Int) ∧
        e.tag.offset = ((scan_pos before).2 : Int) + 1 ∧
        1 ≤ e.tag.offset ∧
        (before = [] → e.tag.line = 0 ∧ e.tag.offset = 1) := by
  have hstatic : ∀ {l : List syntax_check} {q : syntax_check},
      l.map syntax_check.reset = rules.map syntax_check.reset → q ∈ l →
      q.syntax_check1_len = q.syntax_check1.length ∧ 0 < q.syntax_check1.length ∧
        10 ∉ q.syntax_check1 := by
    intro l q hres hq
    obtain ⟨p0, hp0, hr⟩ := reset_mem_of_map hres hq
    obtain ⟨f1, -, f3, -⟩ := reset_fields hr
    obtain ⟨⟨-, -, g3⟩, g4, g5⟩ := hrules p0 hp0
    rw [f1, f3]
    exact ⟨g3, List.length_pos.2 g4, g5⟩
  have key := scan_induction ⟨rules, []⟩ input
    (fun pre l jr => (∀ p ∈ l, open_progress p pre) ∧ ∀ e ∈ jr, open_tag_placed rules pre e)
    (fun pre c done todo jr => (∀ p ∈ done, open_progress p (pre ++ [c])) ∧
      (∀ p ∈ todo, open_progress p pre) ∧ ∀ e ∈ jr, open_tag_placed rules (pre ++ [c]) e)
    ⟨fun p hp _ => by
      obtain ⟨⟨-, g2, -⟩, g4, -⟩ := hrules p hp
      rw [g2]
      exact ⟨List.length_pos.2 g4, by simp⟩, by simp⟩
    (fun pre c l jr _ _ hK =>
      ⟨by simp, hK.1, fun e he => open_tag_placed_mono c (hK.2 e he)⟩)
    ?_
    (fun pre c l jr _ hI => ⟨hI.1, hI.2.2⟩)
    input st (List.prefix_refl _) hst
  · intro e he hop p hget
    obtain ⟨before, lo, h1, h2, h3, h4, h5⟩ := key.2 e he hop p hget
    refine ⟨before, lo, h1, h2, by omega, h3, h4, h5, by omega, fun hb => ?_⟩
    subst hb
    simp only [scan_pos, List.foldl_nil] at h3 h5
    exact ⟨by simpa using h3, by simpa using h5⟩
  · intro pre c done q rest jr q1 jr1 hpre hres hI he
    obtain ⟨s1, s2, s3⟩ := hstatic hres (by simp : q ∈ done ++ q :: rest)
    have hsz : pre.length + 3 ≤ 2147483648 := by
      have := hpre.length_le
      simp only [List.length_append, List.length_singleton] at this
      omega
    refine ⟨?_, fun p hp => hI.2.1 p (by simp [hp]), ?_⟩
    · intro p hp
      rcases List.mem_append.1 hp with hp | hp
      · exact hI.1 p hp
      · rw [List.mem_singleton.1 hp]
        exact open_progress_step s2 s1 (hI.2.1 q (by simp)) he
    · exact open_tag_placed_step s1 s3 hsz (hI.2.1 q (by simp))
        (fun p hget => get?_of_map_reset hres (get?_zipper done rest q) hget) hI.2.2 he

/-- C9 at the input `int x;` with the rules of `main`. -/
theorem open_tag_column_witness :
    (∀ p ∈ main_syntax_list, fresh_rule p ∧ p.syntax_check1 ≠ [] ∧ 10 ∉ p.syntax_check1) ∧
    (bytes "int x;\n").length + 2 ≤ 2147483648 ∧
    ∃ st, parse_source_code (bytes "int x;\n") ⟨main_syntax_list, []⟩ = some st ∧
      ∀ e ∈ st.journal, e.opening = true → ∀ p, main_syntax_list.get? e.rule = some p →
        ∃ (before : List Nat) (line_offset : Nat),
          before ++ p.syntax_check1 <+: bytes "int x;\n" ∧
          (scan_pos before).2 + p.syntax_check1_len = line_offset + 1 ∧
          p.syntax_check1_len ≤ line_offset + 1 ∧
          e.tag.line = ((scan_pos before).1 : Int) ∧
          e.tag.offset = ((line_offset + 2 - p.syntax_check1_len : Nat) : Int) ∧
          e.tag.offset = ((scan_pos before).2 : Int) + 1 ∧
          1 ≤ e.tag.offset ∧
          (before = [] → e.tag.line = 0 ∧ e.tag.offset = 1) := by
  refine ⟨by decide, by decide, ?_⟩
  obtain ⟨st, hst⟩ := parse_main_total (bytes "int x;\n")
  exact ⟨st, hst, open_tag_column main_syntax_list (bytes "int x;\n") st
    (by decide) (by decide) hst⟩

/-! ### Matches of a single-ended rule -/

theorem occurrences_cons (pat : List Nat) (c : Nat) (rest : List Nat) :
    occurrences pat (c :: rest) =
      (if pat <+: c :: rest then 1 else 0) + occurrences pat rest := by
  unfold occurrences
  rw [List.tails_cons, List.countP_cons]
  simp only [List.isPrefixOf_iff_prefix, decide_eq_true_eq]
  omega

theorem drop_eq_cons_of_get? {pat : List Nat} {k c : Nat} (h : pat.get? k = some c) :
    pat.drop k = c :: pat.drop (k + 1) := by
  rw [List.get?_eq_getElem?] at h
  obtain ⟨hk, hc⟩ := List.getElem?_eq_some_iff.1 h
  rw [List.drop_eq_getElem_cons hk, hc]

theorem restart_step_full {pat : List Nat} {k c : Nat} (n : Nat)
    (h : pat.get? k = some c) (hfull : k + 1 = pat.length) :
    restart_step pat (k, n) c = (0, n + 1) := by
  unfold restart_step; dsimp only; rw [if_pos h, if_pos hfull]

theorem restart_step_next {pat : List Nat} {k c : Nat} (n : Nat)
    (h : pat.get? k = some c) (hfull : k + 1 ≠ pat.length) :
    restart_step pat (k, n) c = (k + 1, n) := by
  unfold restart_step; dsimp only; rw [if_pos h, if_neg hfull]

theorem restart_step_miss {pat : List Nat} {k c : Nat} (n : Nat)
    (h : pat.get? k ≠ some c) :
    restart_step pat (k, n) c = (0, n) := by
  unfold restart_step; dsimp only; rw [if_neg h]

/-- The matcher of one rule taken alone, started with `k` bytes of the pattern
already counted, finds at most the occurrences in the bytes to come, and one
more if these bytes continue the pattern. -/
theorem restart_foldl_le (pat : List Nat) :
    ∀ (input : List Nat) (k n : Nat),
      (input.foldl (restart_step pat) (k, n)).2 ≤
        n + occurrences pat input + (if 0 < k ∧ pat.drop k <+: input then 1 else 0) := by
  intro input
  induction input with
  | nil => intro k n; simp only [List.foldl_nil]; omega
  | cons c rest ih =>
    intro k n
    rw [List.foldl_cons, occurrences_cons]
    by_cases hget : pat.get? k = some c
    · have hdrop := drop_eq_cons_of_get? hget
      by_cases hfull : k + 1 = pat.length
      · rw [restart_step_full n hget hfull]
        have h1 := ih 0 (n + 1)
        simp only [Nat.lt_irrefl, false_and, if_false] at h1
        have hd1 : pat.drop (k + 1) = [] := by
          rw [hfull]; exact List.drop_length pat
        have hpre : pat.drop k <+: c :: rest := by
          rw [hdrop, hd1]; exact List.prefix_append [c] rest
        by_cases hk : 0 < k
        · rw [if_pos (⟨hk, hpre⟩ : 0 < k ∧ pat.drop k <+: c :: rest)]; omega
        · have hk0 : k = 0 := by omega
          subst hk0
          rw [List.drop_zero] at hpre
          rw [if_pos hpre]; omega
      · rw [restart_step_next n hget hfull]
        have h1 := ih (k + 1) n
        have hiff : pat.drop k <+: c :: rest ↔ pat.drop (k + 1) <+: rest := by
          rw [hdrop]; exact List.prefix_cons_inj c
        by_cases hp : pat.drop (k + 1) <+: rest
        · rw [if_pos (⟨Nat.succ_pos k, hp⟩ : 0 < k + 1 ∧ pat.drop (k + 1) <+: rest)] at h1
          by_cases hk : 0 < k
          · rw [if_pos (⟨hk, hiff.2 hp⟩ : 0 < k ∧ pat.drop k <+: c :: rest)]; omega
          · have hk0 : k = 0 := by omega
            subst hk0
            rw [List.drop_zero] at hiff
            rw [if_pos (hiff.2 hp)]; omega
        · rw [if_neg (fun h => hp h.2)] at h1
          omega
    · rw [restart_step_miss n hget]
      have h1 := ih 0 n
      simp only [Nat.lt_irrefl, false_and, if_false] at h1
      omega

theorem restart_count_le (pat input : List Nat) :
    restart_count pat input ≤ occurrences pat input := by
  have := restart_foldl_le pat input 0 0
  simpa [restart_count, restart_state] using this

theorem restart_state_snoc (pat pre : List Nat) (c : Nat) :
    restart_state pat (pre ++ [c]) = restart_step pat (restart_state pat pre) c := by
  simp [restart_state, List.foldl_append]

theorem open_count_append (i : Nat) (a b : List tag_event) :
    open_count i (a ++ b) = open_count i a + open_count i b := by
  simp [open_count, List.countP_append]

theorem open_count_other {c line line_offset idx act i : Nat} {p p1 : syntax_check}
    {jr jr1 : List tag_event} (hi : i ≠ idx)
    (h : evaluate_rule c line line_offset idx act p jr = some (p1, jr1)) :
    open_count i jr1 = open_count i jr := by
  obtain ⟨evs, hj, hev⟩ := evaluate_rule_events h
  subst hj
  rw [open_count_append]
  have : open_count i evs = 0 := by
    unfold open_count
    rw [List.countP_eq_zero]
    intro e he
    have := (hev e he).1
    simp only [decide_eq_true_eq, not_and]
    intro h1; omega
  omega

theorem alone_step {c line line_offset idx : Nat} {q q1 : syntax_check}
    {jr jr1 : List tag_event} {pre : List Nat}
    (hlen : q.syntax_check1_len = q.syntax_check1.length)
    (hhead : q.syntax_type = SYNTAX_TYPE_DOUBLE_ENDED → q.syntax_check1.head? ≠ some c)
    (hq : alone q pre)
    (he : evaluate_rule c line line_offset idx 0 q jr = some (q1, jr1)) :
    alone q1 (pre ++ [c]) ∧
    (q.syntax_type = SYNTAX_TYPE_SINGLE_ENDED →
      open_count idx jr = (restart_state q.syntax_check1 pre).2 →
      open_count idx jr1 = (restart_state q.syntax_check1 (pre ++ [c])).2) := by
  obtain ⟨h0, hk, hdb, hsg⟩ := hq
  have hne : 0 < q.syntax_check1.length := by omega
  have hzero : ∀ r : syntax_check, r.counter = 0 → r.rule_active = 0 →
      r.syntax_check1 = q.syntax_check1 →
      (q.syntax_type = SYNTAX_TYPE_SINGLE_ENDED →
        (restart_state q.syntax_check1 (pre ++ [c])).1 = 0) → r.syntax_type = q.syntax_type →
      alone r (pre ++ [c]) := by
    intro r hr ha hs hst hty
    refine ⟨ha, by rw [hr, hs]; exact hne, fun _ => hr, fun h => ?_⟩
    rw [hr, hs, hst (hty ▸ h)]
  have hnohead : q.syntax_type = SYNTAX_TYPE_DOUBLE_ENDED →
      c_index q.syntax_check1 q.counter ≠ some c := by
    intro hty hc
    rw [hdb hty] at hc
    have := c_index_some_lt hc hne
    apply hhead hty
    rw [List.head?_eq_getElem?, ← List.get?_eq_getElem?]
    exact this
  have hstate : restart_state q.syntax_check1 pre =
      ((restart_state q.syntax_check1 pre).1, (restart_state q.syntax_check1 pre).2) := rfl
  rcases evaluate_rule_cases he with
    ⟨ha, _⟩ | ⟨ha, _⟩ | ⟨ha, _⟩ | ⟨ha, _⟩ |
    ⟨_, hc, hl, hp, hj⟩ | ⟨_, hc, hl, hty, hp, hj⟩ | ⟨_, hc, hl, hty, hp, hj⟩ |
    ⟨_, ⟨ch, hc, hne2⟩, hp, hj⟩
  · exact absurd rfl ha
  · exact absurd rfl ha
  · exact absurd rfl ha
  · exact absurd rfl ha
  · -- one more byte of the pattern
    cases hty : q.syntax_type with
    | SYNTAX_TYPE_DOUBLE_ENDED => exact absurd hc (hnohead hty)
    | SYNTAX_TYPE_SINGLE_ENDED =>
      have hget := c_index_some_lt hc hk
      rw [hsg hty] at hget
      have hfull : (restart_state q.syntax_check1 pre).1 + 1 ≠ q.syntax_check1.length := by
        rw [← hsg hty, ← hlen]; exact hl
      have hnew : restart_state q.syntax_check1 (pre ++ [c]) =
          ((restart_state q.syntax_check1 pre).1 + 1, (restart_state q.syntax_check1 pre).2) := by
        rw [restart_state_snoc, hstate, restart_step_next _ hget hfull]
      subst hp hj
      refine ⟨?_, fun _ hcount => ?_⟩
      · unfold alone
        dsimp only
        refine ⟨h0, by omega, fun h => ?_, fun _ => ?_⟩
        · rw [hty] at h; cases h
        · rw [hnew, hsg hty]
      · rw [hnew]; exact hcount
  · -- the pattern of a single-ended rule is complete
    have hget := c_index_some_lt hc hk
    rw [hsg hty] at hget
    have hfull : (restart_state q.syntax_check1 pre).1 + 1 = q.syntax_check1.length := by
      rw [← hsg hty, ← hlen]; exact hl
    have hnew : restart_state q.syntax_check1 (pre ++ [c]) =
        (0, (restart_state q.syntax_check1 pre).2 + 1) := by
      rw [restart_state_snoc, hstate, restart_step_full _ hget hfull]
    subst hp hj
    refine ⟨hzero _ rfl h0 rfl (fun _ => by rw [hnew]) rfl, fun _ hcount => ?_⟩
    rw [open_count_append, hcount, hnew]
    simp [open_count]
  · exact absurd hc (hnohead hty)
  · -- a byte that is not the next byte of the pattern
    have hget : q.syntax_check1.get? q.counter ≠ some c := by
      rw [c_index_some_lt hc hk]
      intro h; exact hne2 (Option.some.inj h)
    have hnew : q.syntax_type = SYNTAX_TYPE_SINGLE_ENDED →
        restart_state q.syntax_check1 (pre ++ [c]) =
          (0, (restart_state q.syntax_check1 pre).2) := by
      intro hty
      rw [hsg hty] at hget
      rw [restart_state_snoc, hstate, restart_step_miss _ hget]
    subst hp hj
    refine ⟨hzero _ rfl h0 rfl (fun h => by rw [hnew h]) rfl, fun hty hcount => ?_⟩
    rw [hnew hty]; exact hcount

theorem mem_of_snoc_prefix {pre input : List Nat} {c : Nat} (h : pre ++ [c] <+: input) :
    c ∈ input := by
  obtain ⟨t, ht⟩ := h
  rw [← ht]; simp

/-- While no double-ended rule can begin a match (the first byte of its open
pattern is not in the input), every single-ended rule appends as many open
tags as the matcher of that rule taken alone finds matches. -/
theorem match_count_alone (rules : List syntax_check) (input : List Nat) (st : cparse)
    (hrules : ∀ p ∈ rules, fresh_rule p ∧ p.syntax_check1 ≠ [])
    (hdouble : ∀ p ∈ rules, p.syntax_type = SYNTAX_TYPE_DOUBLE_ENDED →
      ∀ c ∈ input, p.syntax_check1.head? ≠ some c)
    (hst : parse_source_code input ⟨rules, []⟩ = some st) :
    ∀ i p, rules.get? i = some p → p.syntax_type = SYNTAX_TYPE_SINGLE_ENDED →
      open_count i st.journal = restart_count p.syntax_check1 input := by
  have key := scan_induction ⟨rules, []⟩ input
    (fun pre l jr => l.length = rules.length ∧ (∀ p ∈ l, alone p pre) ∧
      ∀ i p0, rules.get? i = some p0 → p0.syntax_type = SYNTAX_TYPE_SINGLE_ENDED →
        open_count i jr = (restart_state p0.syntax_check1 pre).2)
    (fun pre c done todo jr => (done ++ todo).length = rules.length ∧
      (∀ p ∈ done, alone p (pre ++ [c])) ∧ (∀ p ∈ todo, alone p pre) ∧
      ∀ i p0, rules.get? i = some p0 → p0.syntax_type = SYNTAX_TYPE_SINGLE_ENDED →
        open_count i jr =
          (restart_state p0.syntax_check1 (if i < done.length then pre ++ [c] else pre)).2)
    ?_ ?_ ?_ ?_ input st (List.prefix_refl _) hst
  · intro i p hget hty
    exact key.2.2 i p hget hty
  · refine ⟨rfl, fun p hp => ?_, fun i p0 _ _ => by simp [open_count, restart_state]⟩
    obtain ⟨⟨g1, g2, -⟩, g4⟩ := hrules p hp
    refine ⟨g1, by rw [g2]; exact List.length_pos.2 g4, fun _ => g2, fun _ => ?_⟩
    rw [g2]; simp [restart_state]
  · intro pre c l jr _ _ hK
    exact ⟨by simpa using hK.1, by simp, hK.2.1, fun i p0 hget hty => by
      simpa using hK.2.2 i p0 hget hty⟩
  · intro pre c done q rest jr q1 jr1 hpre hres hI he
    obtain ⟨hlen, hdone, htodo, hcount⟩ := hI
    have hcin := mem_of_snoc_prefix hpre
    have hqa := htodo q (by simp)
    have hact : active_rule (done ++ q :: rest) = 0 := by
      rw [active_rule_eq_zero_iff]
      intro p hp
      rcases List.mem_append.1 hp with hp | hp
      · exact (hdone p hp).1
      · exact (htodo p hp).1
    rw [hact] at he
    obtain ⟨p0, hp0, hr0⟩ := reset_mem_of_map hres (by simp : q ∈ done ++ q :: rest)
    obtain ⟨f1, -, f3, -, f5, -⟩ := reset_fields hr0
    have hqlen : q.syntax_check1_len = q.syntax_check1.length := by
      rw [f1, f3]; exact (hrules p0 hp0).1.2.2
    have hqhead : q.syntax_type = SYNTAX_TYPE_DOUBLE_ENDED → q.syntax_check1.head? ≠ some c := by
      intro hty
      rw [f1]
      exact hdouble p0 hp0 (f5 ▸ hty) c hcin
    obtain ⟨hq1, hcnt⟩ := alone_step hqlen hqhead hqa he
    refine ⟨by simpa using hlen, fun p hp => ?_, fun p hp => htodo p (by simp [hp]), ?_⟩
    · rcases List.mem_append.1 hp with hp | hp
      · exact hdone p hp
      · rw [List.mem_singleton.1 hp]; exact hq1
    · intro i p1 hget hty
      have hold := hcount i p1 hget hty
      rw [List.length_append, List.length_singleton]
      by_cases hi : i = done.length
      · subst hi
        rw [if_neg (Nat.lt_irrefl _)] at hold
        rw [if_pos (Nat.lt_succ_self _)]
        obtain ⟨e1, -, -, -, e5, -⟩ :=
          reset_fields (get?_of_map_reset hres (get?_zipper done rest q) hget)
        rw [← e1] at hold ⊢
        exact hcnt (e5 ▸ hty) hold
      · rw [open_count_other hi he, hold]
        by_cases hlt : i < done.length
        · rw [if_pos hlt, if_pos (by omega)]
        · rw [if_neg hlt, if_neg (by omega)]
  · intro pre c l jr _ hI
    obtain ⟨hlen, hdone, -, hcount⟩ := hI
    refine ⟨by simpa using hlen, hdone, fun i p0 hget hty => ?_⟩
    have hi : i < l.length := by
      have := List.get?_eq_some.1 hget
      obtain ⟨h, -⟩ := this
      simp only [List.append_nil] at hlen
      omega
    have := hcount i p0 hget hty
    rwa [if_pos hi] at this

theorem main_syntax_list_double_head :
    ∀ p ∈ main_syntax_list, p.syntax_type = SYNTAX_TYPE_DOUBLE_ENDED →
      p.syntax_check1.head? = some 47 ∨ p.syntax_check1.head? = some 34 ∨
        p.syntax_check1.head? = some 39 := by
  decide

/-- C10, as amended. With the rules of `main` and an input without the bytes
`/`, `"` and `'`, for every SYNTAX_TYPE_SINGLE_ENDED rule the number of tags
appended with its open string equals the number of matches that the matcher
of that rule, taken alone and restarting on the byte after a mismatch, finds
in the input; this number is at most the number of occurrences of the
pattern in the input. -/
theorem single_ended_match_count (input : List Nat)
    (hin : ∀ c ∈ input, c ≠ 47 ∧ c ≠ 34 ∧ c ≠ 39) :
    ∃ st, parse_source_code input main_state = some st ∧
      ∀ i p, main_syntax_list.get? i = some p →
        p.syntax_type = SYNTAX_TYPE_SINGLE_ENDED →
        open_count i st.journal = restart_count p.syntax_check1 input ∧
        restart_count p.syntax_check1 input ≤ occurrences p.syntax_check1 input := by
  obtain ⟨st, hst⟩ := parse_main_total input
  refine ⟨st, hst, fun i p hget hty => ⟨?_, restart_count_le _ _⟩⟩
  refine match_count_alone main_syntax_list input st (by decide) ?_ hst i p hget hty
  intro q hq hty c hc hhead
  obtain ⟨h1, h2, h3⟩ := hin c hc
  rcases main_syntax_list_double_head q hq hty with h | h | h <;>
  · rw [h] at hhead
    have := Option.some.inj hhead
    omega

/-- C10 at an input with one match and one missed occurrence of `int`. -/
theorem single_ended_match_count_witness :
    (∀ c ∈ bytes "int iint", c ≠ 47 ∧ c ≠ 34 ∧ c ≠ 39) ∧
    ∃ st, parse_source_code (bytes "int iint") main_state = some st ∧
      ∀ i p, main_syntax_list.get? i = some p →
        p.syntax_type = SYNTAX_TYPE_SINGLE_ENDED →
        open_count i st.journal = restart_count p.syntax_check1 (bytes "int iint") ∧
        restart_count p.syntax_check1 (bytes "int iint") ≤
          occurrences p.syntax_check1 (bytes "int iint") :=
  ⟨by decide, single_ended_match_count (bytes "int iint") (by decide)⟩

/-- C10, counterexample. The input `iint` has none of the bytes `/`, `"`, `'`
and holds one occurrence of `int`, the pattern of the single-ended rule at
position 21; the scan appends no open tag for that rule: the second `i` is
the byte at which the match begun at the first `i` fails, and it is not
looked at again. -/
theorem match_count_counterexample :
    (∀ c ∈ bytes "iint", c ≠ 47 ∧ c ≠ 34 ∧ c ≠ 39) ∧
    (main_syntax_list.get? 21).map (fun p => (p.syntax_check1, p.syntax_type)) =
      some (bytes "int", SYNTAX_TYPE_SINGLE_ENDED) ∧
    (parse_source_code (bytes "iint") main_state).map (fun st => open_count 21 st.journal) =
      some 0 ∧
    occurrences (bytes "int") (bytes "iint") = 1 := by
  refine ⟨by decide, by decide!, by decide!, by decide!⟩

/-! ### Lookup on an ordered tag list -/

theorem tag_le_trans {a b c : code_tag} (h1 : tag_le a b) (h2 : tag_le b c) : tag_le a c := by
  unfold tag_le at *
  omega

theorem pairwise_of_chain_tag_le {tags : List code_tag} (h : List.Chain' tag_le tags) :
    List.Pairwise tag_le tags := by
  haveI : IsTrans code_tag tag_le := ⟨fun _ _ _ => tag_le_trans⟩
  exact List.chain'_iff_pairwise.1 h

/-- C13. Lookup on an ordered store: on every tag list that is non-decreasing
in (line, offset) and for every query, `find_tag` returns what the
first-match lookup returns: the markup of the first tag whose position
equals the query, and NULL if no tag has that position. -/
theorem find_tag_sorted (tags : List code_tag) (line offset : Int)
    (h : List.Chain' tag_le tags) :
    find_tag tags line offset = lookup_first tags line offset ∧
    (lookup_first tags line offset = none ↔
      ∀ t ∈ tags, ¬ (t.line = line ∧ t.offset = offset)) := by
  have hp := pairwise_of_chain_tag_le h
  have hnone : lookup_first tags line offset = none ↔
      ∀ t ∈ tags, ¬ (t.line = line ∧ t.offset = offset) := by
    simp [lookup_first, List.find?_eq_none]
  refine ⟨?_, hnone⟩
  cases hl : lookup_first tags line offset with
  | none =>
    have hno := hnone.1 hl
    cases hf : find_tag tags line offset with
    | none => rfl
    | some s =>
      obtain ⟨pre, t, post, ht, h1, h2, -⟩ := (find_tag_eq_some_iff _ _ _ _).1 hf
      exact absurd ⟨h1, h2⟩ (hno t (by rw [ht]; simp))
  | some s =>
    unfold lookup_first at hl
    obtain ⟨t, hfind, hs⟩ := Option.map_eq_some'.1 hl
    obtain ⟨hpos, pre, post, ht, hpre⟩ := List.find?_eq_some.1 hfind
    simp only [decide_eq_true_eq] at hpos
    refine (find_tag_eq_some_iff _ _ _ _).2 ⟨pre, t, post, ht, hpos.1, hpos.2, hs, ?_⟩
    intro u hu
    have hnot := hpre u hu
    simp only [Bool.not_eq_true', decide_eq_false_iff_not] at hnot
    rw [ht, List.pairwise_append] at hp
    have hle := hp.2.2 u hu t (by simp)
    unfold tag_le at hle
    unfold tag_lt_pos
    rw [← hpos.1, ← hpos.2]
    rcases hle with hle | ⟨h5, h6⟩
    · exact Or.inl hle
    · refine Or.inr ⟨h5, ?_⟩
      by_contra hcon
      exact hnot ⟨by rw [h5, hpos.1], by rw [← hpos.2]; omega⟩

/-- C13 at an ordered list with two tags at the same position. -/
theorem find_tag_sorted_witness :
    List.Chain' tag_le [⟨0, 1, [97]⟩, ⟨0, 4, [98]⟩, ⟨0, 4, [99]⟩, ⟨2, 1, [100]⟩] ∧
    (find_tag [⟨0, 1, [97]⟩, ⟨0, 4, [98]⟩, ⟨0, 4, [99]⟩, ⟨2, 1, [100]⟩] 0 4 =
      lookup_first [⟨0, 1, [97]⟩, ⟨0, 4, [98]⟩, ⟨0, 4, [99]⟩, ⟨2, 1, [100]⟩] 0 4 ∧
     (lookup_first [⟨0, 1, [97]⟩, ⟨0, 4, [98]⟩, ⟨0, 4, [99]⟩, ⟨2, 1, [100]⟩] 0 4 = none ↔
      ∀ t ∈ [(⟨0, 1, [97]⟩ : code_tag), ⟨0, 4, [98]⟩, ⟨0, 4, [99]⟩, ⟨2, 1, [100]⟩],
        ¬ (t.line = 0 ∧ t.offset = 4))) :=
  ⟨by simp [List.chain'_cons, tag_le],
    find_tag_sorted [⟨0, 1, [97]⟩, ⟨0, 4, [98]⟩, ⟨0, 4, [99]⟩, ⟨2, 1, [100]⟩] 0 4
      (by simp [List.chain'_cons, tag_le])⟩

/-! ### Cursor bounds -/

theorem rule_wf_of_fresh {p : syntax_check}
    (h : fresh_rule p ∧ p.syntax_check1 ≠ [] ∧
      (p.syntax_type = SYNTAX_TYPE_DOUBLE_ENDED →
        ∃ s2, p.syntax_check2 = some s2 ∧ s2 ≠ [] ∧ p.syntax_check2_len = s2.length)) :
    rule_wf p := by
  obtain ⟨⟨h1, h2, h3⟩, h4, h5⟩ := h
  have hpos := List.length_pos.2 h4
  refine ⟨h3, hpos, fun _ => by rw [h2]; exact hpos, fun hty => ?_, fun hh => absurd h1 hh⟩
  obtain ⟨s2, hs, hne, hl⟩ := h5 hty
  refine ⟨by simp [hs], by simp [hs, hl], ?_⟩
  rw [hl]; exact List.length_pos.2 hne

theorem cursor_of_rule_wf {p : syntax_check} (h : rule_wf p) :
    (p.rule_active = 0 →
      p.counter < p.syntax_check1_len ∧ p.syntax_check1_len = p.syntax_check1.length ∧
      ∃ b ∈ p.syntax_check1, c_index p.syntax_check1 p.counter = some b) ∧
    (p.rule_active ≠ 0 →
      ∃ s2, p.syntax_check2 = some s2 ∧ p.counter < p.syntax_check2_len ∧
        p.syntax_check2_len = s2.length ∧ ∃ b ∈ s2, c_index s2 p.counter = some b) := by
  obtain ⟨h1, h2, h3, h4, h5⟩ := h
  constructor
  · intro h0
    have hk := h3 h0
    exact ⟨by omega, h1, _, List.get_mem _ _ _, c_index_lt hk⟩
  · intro h0
    obtain ⟨hty, hk⟩ := h5 h0
    obtain ⟨hs, hl, -⟩ := h4 hty
    cases hs2 : p.syntax_check2 with
    | none => simp [hs2] at hs
    | some s2 =>
      simp only [hs2, Option.getD_some] at hl
      have hk2 : p.counter < s2.length := by omega
      exact ⟨s2, rfl, hk, hl, _, List.get_mem _ _ _, c_index_lt hk2⟩

/-- C18. Cursor bounds: for rules as `add_syntax_check` leaves them, with
non-empty open patterns and, for every SYNTAX_TYPE_DOUBLE_ENDED rule, a
close pattern that is neither NULL nor empty, the scan of every prefix of
every input returns, and after every byte, and at every point of the rule
loop of every byte, every rule that is not active has
`counter < syntax_check1_len` and every active rule has a close pattern and
`counter < syntax_check2_len`; the lengths are those of the patterns, so the
read `syntax_check1[counter]` or `syntax_check2[counter]` yields a byte of
the pattern. -/
theorem cursor_bounds (rules : List syntax_check) (input : List Nat)
    (hrules : ∀ p ∈ rules, fresh_rule p ∧ p.syntax_check1 ≠ [] ∧
      (p.syntax_type = SYNTAX_TYPE_DOUBLE_ENDED →
        ∃ s2, p.syntax_check2 = some s2 ∧ s2 ≠ [] ∧ p.syntax_check2_len = s2.length)) :
    (∀ n, ∃ st, parse_source_code (input.take n) ⟨rules, []⟩ = some st ∧
      ∀ p ∈ st.syntax_list,
        (p.rule_active = 0 →
          p.counter < p.syntax_check1_len ∧ p.syntax_check1_len = p.syntax_check1.length ∧
          ∃ b ∈ p.syntax_check1, c_index p.syntax_check1 p.counter = some b) ∧
        (p.rule_active ≠ 0 →
          ∃ s2, p.syntax_check2 = some s2 ∧ p.counter < p.syntax_check2_len ∧
            p.syntax_check2_len = s2.length ∧ ∃ b ∈ s2, c_index s2 p.counter = some b)) ∧
    (∀ l ∈ scan_points input 0 0 ⟨rules, []⟩, ∀ p ∈ l,
        (p.rule_active = 0 →
          p.counter < p.syntax_check1_len ∧ p.syntax_check1_len = p.syntax_check1.length ∧
          ∃ b ∈ p.syntax_check1, c_index p.syntax_check1 p.counter = some b) ∧
        (p.rule_active ≠ 0 →
          ∃ s2, p.syntax_check2 = some s2 ∧ p.counter < p.syntax_check2_len ∧
            p.syntax_check2_len = s2.length ∧ ∃ b ∈ s2, c_index s2 p.counter = some b)) := by
  have hwf : ∀ p ∈ rules, rule_wf p := fun p hp => rule_wf_of_fresh (hrules p hp)
  constructor
  · intro n
    obtain ⟨st, hst, hw⟩ := parse_loop_total (input.take n) 0 0 ⟨rules, []⟩ hwf
    exact ⟨st, hst, fun p hp => cursor_of_rule_wf (hw p hp)⟩
  · intro l hl p hp
    have := scan_points_forall (fun l => ∀ p ∈ l, rule_wf p)
      (fun c line lo done p rest jr p1 jr1 hP he => rule_wf_step hP he)
      input 0 0 ⟨rules, []⟩ hwf l hl
    exact cursor_of_rule_wf (this p hp)

/-- C18 at the rules of `main`. -/
theorem cursor_bounds_witness :
    (∀ p ∈ main_syntax_list, fresh_rule p ∧ p.syntax_check1 ≠ [] ∧
      (p.syntax_type = SYNTAX_TYPE_DOUBLE_ENDED →
        ∃ s2, p.syntax_check2 = some s2 ∧ s2 ≠ [] ∧ p.syntax_check2_len = s2.length)) ∧
    ((∀ n, ∃ st, parse_source_code ((bytes "a /* b */").take n) ⟨main_syntax_list, []⟩
          = some st ∧
      ∀ p ∈ st.syntax_list,
        (p.rule_active = 0 →
          p.counter < p.syntax_check1_len ∧ p.syntax_check1_len = p.syntax_check1.length ∧
          ∃ b ∈ p.syntax_check1, c_index p.syntax_check1 p.counter = some b) ∧
        (p.rule_active ≠ 0 →
          ∃ s2, p.syntax_check2 = some s2 ∧ p.counter < p.syntax_check2_len ∧
            p.syntax_check2_len = s2.length ∧ ∃ b ∈ s2, c_index s2 p.counter = some b)) ∧
    (∀ l ∈ scan_points (bytes "a /* b */") 0 0 ⟨main_syntax_list, []⟩, ∀ p ∈ l,
        (p.rule_active = 0 →
          p.counter < p.syntax_check1_len ∧ p.syntax_check1_len = p.syntax_check1.length ∧
          ∃ b ∈ p.syntax_check1, c_index p.syntax_check1 p.counter = some b) ∧
        (p.rule_active ≠ 0 →
          ∃ s2, p.syntax_check2 = some s2 ∧ p.counter < p.syntax_check2_len ∧
            p.syntax_check2_len = s2.length ∧ ∃ b ∈ s2, c_index s2 p.counter = some b))) := by
  have hmain : ∀ p ∈ main_syntax_list, fresh_rule p ∧ p.syntax_check1 ≠ [] ∧
      (p.syntax_type = SYNTAX_TYPE_DOUBLE_ENDED →
        ∃ s2, p.syntax_check2 = some s2 ∧ s2 ≠ [] ∧ p.syntax_check2_len = s2.length) := by
    intro p hp
    have h1 : fresh_rule p ∧ p.syntax_check1 ≠ [] := by revert p; decide
    have h2 : p.syntax_type = SYNTAX_TYPE_DOUBLE_ENDED →
        p.syntax_check2.isSome = true ∧ p.syntax_check2.getD [] ≠ [] ∧
          p.syntax_check2_len = (p.syntax_check2.getD []).length := by revert p; decide
    refine ⟨h1.1, h1.2, fun hty => ?_⟩
    obtain ⟨g1, g2, g3⟩ := h2 hty
    cases hs : p.syntax_check2 with
    | none => simp [hs] at g1
    | some s2 =>
      simp only [hs, Option.getD_some] at g2 g3
      exact ⟨s2, rfl, g2, g3⟩
  exact ⟨hmain, cursor_bounds main_syntax_list (bytes "a /* b */") hmain⟩

/-! ### Balance of the tag list -/

theorem open_total_append (a b : List tag_event) :
    open_total (a ++ b) = open_total a + open_total b := by
  simp [open_total, List.countP_append]

theorem close_total_append (a b : List tag_event) :
    close_total (a ++ b) = close_total a + close_total b := by
  simp [close_total, List.countP_append]

theorem balance_step {c line line_offset idx : Nat} {done rest : List syntax_check}
    {p p1 : syntax_check} {jr jr1 : List tag_event}
    (hb : open_total jr = close_total jr + count_active (done ++ p :: rest))
    (h : evaluate_rule c line line_offset idx (active_rule (done ++ p :: rest)) p jr
      = some (p1, jr1)) :
    open_total jr1 = close_total jr1 + count_active (done ++ p1 :: rest) := by
  rw [count_active_append, count_active_cons] at hb ⊢
  rcases evaluate_rule_cases h with
    ⟨_, h0, hp, hj⟩ | ⟨_, ha, _, _, hp, hj⟩ | ⟨_, ha, _, _, hp, hj⟩ | ⟨_, ha, _, hp, hj⟩ |
    ⟨hz, _, _, hp, hj⟩ | ⟨hz, _, _, _, hp, hj⟩ | ⟨hz, _, _, _, hp, hj⟩ | ⟨hz, _, hp, hj⟩
  · subst hp hj; simpa using hb
  · subst hp hj; simpa using hb
  · subst hp hj
    simp only [if_neg ha] at hb
    simp only [open_total, close_total] at hb ⊢
    simp [List.countP_append]
    omega
  · subst hp hj; simpa using hb
  · subst hp hj; simpa using hb
  · subst hp hj
    have h0 := active_rule_head hz
    simp only [if_pos h0] at hb ⊢
    simp only [open_total, close_total] at hb ⊢
    simp [List.countP_append]
    omega
  · subst hp hj
    have h0 := active_rule_head hz
    simp only [if_pos h0] at hb
    simp only [open_total, close_total] at hb ⊢
    simp [List.countP_append]
    omega
  · subst hp hj; simpa using hb

/-- C19. Balance of the tag list: from a syntax list in which no rule is
active and an empty tag list, after the scan of every prefix of every input
the number of tags appended with an open string minus the number appended
with a close string is the number of rules with `rule_active` set, which is
0 or 1; the tag list is balanced exactly when no rule is active. -/
theorem tag_balance (rules : List syntax_check) (input : List Nat)
    (h : ∀ p ∈ rules, p.rule_active = 0) :
    ∀ n st, parse_source_code (input.take n) ⟨rules, []⟩ = some st →
      open_total st.journal = close_total st.journal + count_active st.syntax_list ∧
      count_active st.syntax_list ≤ 1 ∧
      (open_total st.journal = close_total st.journal ↔ active_rule st.syntax_list = 0) := by
  intro n st hst
  have h0 : count_active rules = 0 := (count_active_eq_zero_iff rules).2 h
  have hbal := parse_source_code_inv ⟨rules, []⟩
    (fun _ s => open_total s.journal = close_total s.journal + count_active s.syntax_list)
    (by simp [open_total, close_total, h0]) ?_ (input.take n) st hst
  · have hone : count_active st.syntax_list ≤ 1 :=
      parse_loop_forall (fun l => count_active l ≤ 1)
        (fun c line lo done p rest jr p1 jr1 hc he => count_active_step hc he)
        _ _ _ _ _ (by show count_active rules ≤ 1; omega) hst
    refine ⟨hbal, hone, ?_⟩
    rw [active_rule_eq_zero_iff, ← count_active_eq_zero_iff]
    omega
  · intro pre c s s1 hK _ hloop
    have := rules_loop_inv
      (fun done todo jr => open_total jr = close_total jr + count_active (done ++ todo))
      (fun done p rest jr p1 jr1 hI he => by
        have := balance_step hI he
        simpa using this)
      _ _ _ _ _ (by simpa using hK) hloop
    simpa using this

/-- C19 at an input that leaves a block comment open. -/
theorem tag_balance_witness :
    (∀ p ∈ main_syntax_list, p.rule_active = 0) ∧
    ∀ n st, parse_source_code ((bytes "int x; /* y").take n) ⟨main_syntax_list, []⟩ = some st →
      open_total st.journal = close_total st.journal + count_active st.syntax_list ∧
      count_active st.syntax_list ≤ 1 ∧
      (open_total st.journal = close_total st.journal ↔ active_rule st.syntax_list = 0) :=
  ⟨by decide, tag_balance main_syntax_list (bytes "int x; /* y") (by decide)⟩

/-! ### Positions in the two passes -/

theorem scan_pos_eq (pre : List Nat) : scan_pos pre = (lines_read pre, bytes_on_line pre) := by
  induction pre using List.reverseRecOn with
  | nil => simp [scan_pos, lines_read, bytes_on_line]
  | append_singleton pre c ih =>
    rw [scan_pos_snoc, ih]
    unfold advance lines_read bytes_on_line
    by_cases hc : c = 10
    · subst hc
      simp [List.count_append]
    · have hc2 : (10 == c) = false := by
        simp only [beq_eq_false_iff_ne, ne_eq]
        exact fun h => hc h.symm
      simp [hc, List.count_append, List.count_cons, hc2, List.takeWhile_cons]

/-! ### The tag list inside the range of `int` -/

theorem scan_pos_line_le (pre : List Nat) : (scan_pos pre).1 ≤ pre.length := by
  rw [scan_pos_eq]
  exact List.count_le_length 10 pre

/-- The positions of the tags are those of the `int` variables: after the
bytes `pre` every tag is on a line from 0 to the number of bytes read, and
a tag appended with a close string is at an offset from 2 to that number
plus 1. -/
theorem journal_in_range (st0 : cparse) (input : List Nat) (h0 : st0.journal = []) :
    ∀ pre st, pre <+: input → parse_source_code pre st0 = some st →
      ∀ e ∈ st.journal, 0 ≤ e.tag.line ∧ e.tag.line ≤ (pre.length : Int) ∧
        (e.opening = false → 2 ≤ e.tag.offset ∧ e.tag.offset ≤ (pre.length : Int) + 1) := by
  refine scan_induction st0 input
    (fun pre _ jr => ∀ e ∈ jr, 0 ≤ e.tag.line ∧ e.tag.line ≤ (pre.length : Int) ∧
      (e.opening = false → 2 ≤ e.tag.offset ∧ e.tag.offset ≤ (pre.length : Int) + 1))
    (fun pre c _ _ jr => ∀ e ∈ jr, 0 ≤ e.tag.line ∧ e.tag.line ≤ ((pre ++ [c]).length : Int) ∧
      (e.opening = false →
        2 ≤ e.tag.offset ∧ e.tag.offset ≤ ((pre ++ [c]).length : Int) + 1))
    ?_ ?_ ?_ ?_
  · intro e he; rw [h0] at he; simp at he
  · intro pre c rules jr _ _ hK e he
    obtain ⟨h1, h2, h3⟩ := hK e he
    simp only [List.length_append, List.length_singleton, Nat.cast_add, Nat.cast_one]
    exact ⟨h1, by omega, fun hh => ⟨(h3 hh).1, by have := (h3 hh).2; omega⟩⟩
  · intro pre c done p rest jr p1 jr1 _ _ hI he e hmem
    obtain ⟨evs, hj, hev⟩ := evaluate_rule_events he
    rw [hj] at hmem
    rcases List.mem_append.1 hmem with hmem | hmem
    · exact hI e hmem
    · obtain ⟨_, hl, hcl, _⟩ := hev e hmem
      have h1 := scan_pos_line_le pre
      have h2 := scan_pos_le pre
      simp only [List.length_append, List.length_singleton, Nat.cast_add, Nat.cast_one]
      refine ⟨by rw [hl]; omega, by rw [hl]; omega, fun hh => ?_⟩
      rw [(hcl hh).1]
      omega
  · intro pre c rules jr _ hI
    exact hI

/-- C2, as amended. With the rules of `main` and every input inside the
range of `int` (`input.length + 2 ≤ 2^31`) the scan returns; in the tag list
it has built the lines never decrease, and every tag appended with a close
string is at or after, in (line, offset) order, every tag appended before
it; the lines and the offsets of the close tags are below `2^31`, the
values the `int` fields hold. -/
theorem close_tags_ordered (input : List Nat) (hsize : input.length + 2 ≤ 2147483648) :
    ∃ st, parse_source_code input main_state = some st ∧
      List.Pairwise
        (fun a b : tag_event =>
          a.tag.line ≤ b.tag.line ∧ (b.opening = false → tag_le a.tag b.tag))
        st.journal ∧
      ∀ e ∈ st.journal, 0 ≤ e.tag.line ∧ e.tag.line < 2147483648 ∧
        (e.opening = false → e.tag.offset < 2147483648) := by
  obtain ⟨st, hst⟩ := parse_main_total input
  refine ⟨st, hst, parse_main_close_ordered hst, fun e he => ?_⟩
  obtain ⟨h1, h2, h3⟩ := journal_in_range main_state input rfl input st
    (List.prefix_refl input) hst e he
  exact ⟨h1, by omega, fun hh => by have := (h3 hh).2; omega⟩

/-- C2 at the input `double`. -/
theorem close_tags_ordered_witness :
    (bytes "double").length + 2 ≤ 2147483648 ∧
    ∃ st, parse_source_code (bytes "double") main_state = some st ∧
      List.Pairwise
        (fun a b : tag_event =>
          a.tag.line ≤ b.tag.line ∧ (b.opening = false → tag_le a.tag b.tag))
        st.journal ∧
      ∀ e ∈ st.journal, 0 ≤ e.tag.line ∧ e.tag.line < 2147483648 ∧
        (e.opening = false → e.tag.offset < 2147483648) :=
  ⟨by decide, close_tags_ordered (bytes "double") (by decide)⟩

/-- C3, as amended. With the rules of `main` and every input inside the
range of `int` (`input.length + 2 ≤ 2^31`) the scan returns, and on the tag
list it has built `find_tag` returns a string for a query (line, offset) if
and only if the list contains a tag with exactly that position in front of
which every tag lies strictly before the position; the string returned is
the markup of that tag. Every tag appended with a close string has its line
and offset below `2^31`, and at its position `find_tag` does return a
string. -/
theorem find_tag_on_scan (input : List Nat) (hsize : input.length + 2 ≤ 2147483648) :
    ∃ st, parse_source_code input main_state = some st ∧
      (∀ (line offset : Int) (s : List Nat),
        find_tag st.code_tags line offset = some s ↔
          ∃ pre t post, st.code_tags = pre ++ t :: post ∧ t.line = line ∧
            t.offset = offset ∧ t.string = s ∧ ∀ u ∈ pre, tag_lt_pos line offset u) ∧
      (∀ e ∈ st.journal, e.opening = false →
        e.tag.line < 2147483648 ∧ e.tag.offset < 2147483648 ∧
        ∃ s, find_tag st.code_tags e.tag.line e.tag.offset = some s) := by
  obtain ⟨st, hst⟩ := parse_main_total input
  refine ⟨st, hst, fun line offset s => find_tag_eq_some_iff _ _ _ _, ?_⟩
  intro e he hcl
  obtain ⟨_, hr2, hr3⟩ := journal_in_range main_state input rfl input st
    (List.prefix_refl input) hst e he
  refine ⟨by omega, by have := (hr3 hcl).2; omega, ?_⟩
  obtain ⟨A, B, hAB⟩ := List.append_of_mem he
  have hord := parse_main_close_ordered hst
  rw [hAB, List.pairwise_append] at hord
  have hA : ∀ u ∈ A.map tag_event.tag, tag_before e.tag.line e.tag.offset u := by
    intro u hu
    obtain ⟨a, ha, rfl⟩ := List.mem_map.1 hu
    exact (hord.2.2 a ha e (by simp)).2 hcl
  obtain ⟨pre, t, post, h1, h2, h3, h4⟩ :=
    exists_first_at e.tag.line e.tag.offset e.tag ⟨rfl, rfl⟩ _ hA
  refine ⟨t.string, (find_tag_eq_some_iff _ _ _ _).2
    ⟨pre, t, post ++ B.map tag_event.tag, ?_, h2, h3, rfl, h4⟩⟩
  rw [cparse.code_tags, hAB, List.map_append, List.map_cons,
    show A.map tag_event.tag ++ e.tag :: B.map tag_event.tag
      = (A.map tag_event.tag ++ [e.tag]) ++ B.map tag_event.tag by simp, h1]
  simp

/-- C3 at the input `unsigned`. -/
theorem find_tag_on_scan_witness :
    (bytes "unsigned").length + 2 ≤ 2147483648 ∧
    ∃ st, parse_source_code (bytes "unsigned") main_state = some st ∧
      (∀ (line offset : Int) (s : List Nat),
        find_tag st.code_tags line offset = some s ↔
          ∃ pre t post, st.code_tags = pre ++ t :: post ∧ t.line = line ∧
            t.offset = offset ∧ t.string = s ∧ ∀ u ∈ pre, tag_lt_pos line offset u) ∧
      (∀ e ∈ st.journal, e.opening = false →
        e.tag.line < 2147483648 ∧ e.tag.offset < 2147483648 ∧
        ∃ s, find_tag st.code_tags e.tag.line e.tag.offset = some s) :=
  ⟨by decide, find_tag_on_scan (bytes "unsigned") (by decide)⟩

/-! ### The renderer, byte by byte -/

theorem foldl_new_line (pre : List Nat) (c : Nat) (nl : Bool) :
    (pre ++ [c]).foldl (fun _ d => decide (d = 10)) nl = decide (c = 10) := by
  simp [List.foldl_append]

theorem foldl_new_line_eq (pre : List Nat) :
    pre.foldl (fun _ d => decide (d = 10)) true = at_line_start pre := by
  induction pre using List.reverseRecOn with
  | nil => simp [at_line_start]
  | append_singleton pre c _ =>
    rw [foldl_new_line]
    simp [at_line_start]

theorem print_loop_cons (st : cparse) (file : List Nat) (c : Nat) (rest : List Nat)
    (line line_offset : Nat) (nl : Bool) :
    print_loop st file (c :: rest) line line_offset nl =
      (if nl then
          (if active_rule st.syntax_list ≠ 0 then bytes "</font>" else []) ++
            line_anchor file line
        else []) ++
      (match find_tag st.code_tags line ((line_offset + 1 : Nat) : Int) with
        | some s => c_str s
        | none => []) ++
      c_str [c, 0] ++
      print_loop st file rest (advance (line, line_offset) c).1
        (advance (line, line_offset) c).2 (decide (c = 10)) := by
  by_cases hc : c = 10
  · simp [print_loop, advance, hc]
  · simp [print_loop, advance, hc]

theorem print_loop_append (st : cparse) (file : List Nat) (a b : List Nat) :
    ∀ (line line_offset : Nat) (nl : Bool),
      print_loop st file (a ++ b) line line_offset nl =
        print_loop st file a line line_offset nl ++
          print_loop st file b (a.foldl advance (line, line_offset)).1
            (a.foldl advance (line, line_offset)).2
            (a.foldl (fun _ d => decide (d = 10)) nl) := by
  induction a with
  | nil => intro line lo nl; simp [print_loop]
  | cons c a ih =>
    intro line lo nl
    rw [List.cons_append, print_loop_cons, print_loop_cons, ih]
    simp [List.append_assoc]

/-- What `print_source_code` writes for the byte `c` that follows the bytes
`pre`: the line start if `new_line` is set, the markup `find_tag` returns
for the line and the incremented line offset, and the byte. -/
theorem print_loop_split (st : cparse) (file pre : List Nat) (c : Nat) (rest : List Nat) :
    print_loop st file (pre ++ c :: rest) 0 0 true =
      print_loop st file pre 0 0 true ++
      ((if at_line_start pre then
          (if active_rule st.syntax_list ≠ 0 then bytes "</font>" else []) ++
            line_anchor file (lines_read pre)
        else []) ++
       (match find_tag st.code_tags (lines_read pre) ((bytes_on_line pre + 1 : Nat) : Int) with
        | some s => c_str s
        | none => []) ++
       c_str [c, 0]) ++
      print_loop st file rest (advance (lines_read pre, bytes_on_line pre) c).1
        (advance (lines_read pre, bytes_on_line pre) c).2 (decide (c = 10)) := by
  have hpos : pre.foldl advance (0, 0) = (lines_read pre, bytes_on_line pre) := scan_pos_eq pre
  rw [print_loop_append, print_loop_cons, hpos, foldl_new_line_eq]
  simp [List.append_assoc]

/-- C15. Position alignment of the two passes: for rules that are well formed
and an input inside the range of `int`, and for the byte `c` behind the bytes
`pre` of the input, the scan reaches that byte, and `parse_source_code` calls
`evaluate_syntax_checks` for it with `line` the number of line feeds in `pre`
and `line_offset` the number of bytes behind the last of them (both below
`2^31`): the call returns, its result is the state after `pre ++ [c]`, and
the scan of the whole input returns from there; `print_source_code` calls
`find_tag` for that byte with the same line and with that line offset plus
one. -/
theorem position_alignment (st0 st : cparse) (file input pre : List Nat) (c : Nat)
    (rest : List Nat) (hwf : ∀ p ∈ st0.syntax_list, rule_wf p)
    (hsize : input.length + 2 ≤ 2147483648) (hin : input = pre ++ c :: rest) :
    lines_read pre < 2147483648 ∧ bytes_on_line pre + 1 < 2147483648 ∧
    (∃ s0 s1 s2, parse_source_code pre st0 = some s0 ∧
      evaluate_syntax_checks [c] (lines_read pre) (bytes_on_line pre) s0 = some s1 ∧
      parse_source_code (pre ++ [c]) st0 = some s1 ∧
      parse_loop rest (advance (lines_read pre, bytes_on_line pre) c).1
        (advance (lines_read pre, bytes_on_line pre) c).2 s1 = some s2 ∧
      parse_source_code input st0 = some s2) ∧
    ∃ start, print_loop st file input 0 0 true =
      print_loop st file pre 0 0 true ++
      (start ++
       (match find_tag st.code_tags (lines_read pre) ((bytes_on_line pre + 1 : Nat) : Int) with
        | some s => c_str s
        | none => []) ++
       c_str [c, 0]) ++
      print_loop st file rest (advance (lines_read pre, bytes_on_line pre) c).1
        (advance (lines_read pre, bytes_on_line pre) c).2 (decide (c = 10)) := by
  have hl1 := scan_pos_line_le pre
  have hl2 := scan_pos_le pre
  rw [scan_pos_eq] at hl1 hl2
  dsimp only at hl1 hl2
  have hlen : pre.length + 1 ≤ input.length := by rw [hin]; simp
  refine ⟨by omega, by omega, ?_, ?_⟩
  · obtain ⟨s0, h0, hw0⟩ := parse_loop_total pre 0 0 st0 hwf
    obtain ⟨⟨rules1, jr1⟩, hr⟩ := rules_loop_total c (lines_read pre) (bytes_on_line pre)
      s0.syntax_list [] s0.journal hw0
    have hw1 : ∀ p ∈ rules1, rule_wf p :=
      rules_loop_forall (fun l => ∀ p ∈ l, rule_wf p)
        (fun done p rest jr p1 jr1 hP he => rule_wf_step hP he) (by simpa using hw0) hr
    have he : evaluate_syntax_checks [c] (lines_read pre) (bytes_on_line pre) s0 =
        some ⟨rules1, jr1⟩ := by
      simp only [evaluate_syntax_checks, hr]
    obtain ⟨s2, h2, _⟩ := parse_loop_total rest
      (advance (lines_read pre, bytes_on_line pre) c).1
      (advance (lines_read pre, bytes_on_line pre) c).2 ⟨rules1, jr1⟩ hw1
    have hp0 : parse_source_code pre st0 = some s0 := h0
    have hp1 : parse_source_code (pre ++ [c]) st0 = some ⟨rules1, jr1⟩ := by
      rw [parse_source_code_snoc, hp0, Option.some_bind, scan_pos_eq]
      exact he
    refine ⟨s0, ⟨rules1, jr1⟩, s2, hp0, he, hp1, h2, ?_⟩
    rw [hin, show pre ++ c :: rest = (pre ++ [c]) ++ rest by simp,
      parse_source_code_append, hp1, Option.some_bind, scan_pos_snoc, scan_pos_eq]
    exact h2
  · rw [hin]
    exact ⟨_, print_loop_split st file pre c rest⟩

/-- C15 at the first byte of the second line of an input. -/
theorem position_alignment_witness :
    (∀ p ∈ main_state.syntax_list, rule_wf p) ∧
    (bytes "a\nbc").length + 2 ≤ 2147483648 ∧
    bytes "a\nbc" = bytes "a\n" ++ 98 :: bytes "c" ∧
    lines_read (bytes "a\n") < 2147483648 ∧ bytes_on_line (bytes "a\n") + 1 < 2147483648 ∧
    (∃ s0 s1 s2, parse_source_code (bytes "a\n") main_state = some s0 ∧
      evaluate_syntax_checks [98] (lines_read (bytes "a\n")) (bytes_on_line (bytes "a\n")) s0
        = some s1 ∧
      parse_source_code (bytes "a\n" ++ [98]) main_state = some s1 ∧
      parse_loop (bytes "c") (advance (lines_read (bytes "a\n"), bytes_on_line (bytes "a\n")) 98).1
        (advance (lines_read (bytes "a\n"), bytes_on_line (bytes "a\n")) 98).2 s1 = some s2 ∧
      parse_source_code (bytes "a\nbc") main_state = some s2) ∧
    ∃ start, print_loop main_state (bytes "f.c") (bytes "a\nbc") 0 0 true =
      print_loop main_state (bytes "f.c") (bytes "a\n") 0 0 true ++
      (start ++
       (match find_tag main_state.code_tags (lines_read (bytes "a\n"))
          ((bytes_on_line (bytes "a\n") + 1 : Nat) : Int) with
        | some s => c_str s
        | none => []) ++
       c_str [98, 0]) ++
      print_loop main_state (bytes "f.c") (bytes "c")
        (advance (lines_read (bytes "a\n"), bytes_on_line (bytes "a\n")) 98).1
        (advance (lines_read (bytes "a\n"), bytes_on_line (bytes "a\n")) 98).2
        (decide (98 = 10)) :=
  ⟨main_syntax_list_wf, by decide, by decide,
    position_alignment main_state main_state (bytes "f.c") (bytes "a\nbc") (bytes "a\n") 98
      (bytes "c") main_syntax_list_wf (by decide) (by decide)⟩

theorem any_rule_active_iff (l : List syntax_check) :
    (∃ p ∈ l, p.rule_active ≠ 0) ↔ active_rule l ≠ 0 := by
  rw [Ne, active_rule_eq_zero_iff]
  push_neg
  rfl

/-- C16. Line-start closing markup: with `st` the state in which
`parse_source_code` has left the program after the whole input (inside the
range of `int`), the renderer writes, in front of the first byte of every
line, the text `</font>` if some rule of `st` has `rule_active` set and
nothing otherwise, then the line-number anchor; in front of the other bytes
it writes neither. The condition is the same for every line: it is read
from the rules as the scan of the whole input has left them. -/
theorem line_start_markup (st0 : cparse) (file input out : List Nat)
    (hsize : input.length + 2 ≤ 2147483648)
    (h : render st0 file input = some out) :
    ∃ st, parse_source_code input st0 = some st ∧
      out = html_header file ++ print_loop st file input 0 0 true ++ html_footer ∧
      ∀ pre c rest, input = pre ++ c :: rest →
        lines_read pre < 2147483648 ∧
        print_loop st file input 0 0 true =
          print_loop st file pre 0 0 true ++
          ((if pre = [] ∨ pre.getLast? = some 10 then
              (if ∃ p ∈ st.syntax_list, p.rule_active ≠ 0 then bytes "</font>" else []) ++
                line_anchor file (lines_read pre)
            else []) ++
           (match find_tag st.code_tags (lines_read pre)
              ((bytes_on_line pre + 1 : Nat) : Int) with
            | some s => c_str s
            | none => []) ++
           c_str [c, 0]) ++
          print_loop st file rest (advance (lines_read pre, bytes_on_line pre) c).1
            (advance (lines_read pre, bytes_on_line pre) c).2 (decide (c = 10)) := by
  unfold render at h
  cases hp : parse_source_code input st0 with
  | none => simp [hp] at h
  | some st =>
    simp only [hp, Option.map_some', Option.some.injEq] at h
    refine ⟨st, rfl, by rw [← h]; rfl, ?_⟩
    intro pre c rest hin
    have hl := scan_pos_line_le pre
    rw [scan_pos_eq] at hl
    have hlen : pre.length ≤ input.length := by rw [hin]; simp
    refine ⟨by dsimp only at hl; omega, ?_⟩
    have hsplit := print_loop_split st file pre c rest
    rw [← hin] at hsplit
    simp only [at_line_start, decide_eq_true_eq] at hsplit
    have hite : (if active_rule st.syntax_list ≠ 0 then bytes "</font>" else []) =
        (if ∃ p ∈ st.syntax_list, p.rule_active ≠ 0 then bytes "</font>" else []) := by
      by_cases hz : active_rule st.syntax_list ≠ 0
      · rw [if_pos hz, if_pos ((any_rule_active_iff _).2 hz)]
      · rw [if_neg hz, if_neg (fun hh => hz ((any_rule_active_iff _).1 hh))]
    rw [hite] at hsplit
    exact hsplit

/-- C16 at an input of two lines that leaves a block comment open. -/
theorem line_start_markup_witness :
    (bytes "/* a\nb").length + 2 ≤ 2147483648 ∧
    ∃ out, render main_state (bytes "f.c") (bytes "/* a\nb") = some out ∧
    ∃ st, parse_source_code (bytes "/* a\nb") main_state = some st ∧
      out = html_header (bytes "f.c") ++ print_loop st (bytes "f.c") (bytes "/* a\nb") 0 0 true
        ++ html_footer ∧
      ∀ pre c rest, bytes "/* a\nb" = pre ++ c :: rest →
        lines_read pre < 2147483648 ∧
        print_loop st (bytes "f.c") (bytes "/* a\nb") 0 0 true =
          print_loop st (bytes "f.c") pre 0 0 true ++
          ((if pre = [] ∨ pre.getLast? = some 10 then
              (if ∃ p ∈ st.syntax_list, p.rule_active ≠ 0 then bytes "</font>" else []) ++
                line_anchor (bytes "f.c") (lines_read pre)
            else []) ++
           (match find_tag st.code_tags (lines_read pre)
              ((bytes_on_line pre + 1 : Nat) : Int) with
            | some s => c_str s
            | none => []) ++
           c_str [c, 0]) ++
          print_loop st (bytes "f.c") rest (advance (lines_read pre, bytes_on_line pre) c).1
            (advance (lines_read pre, bytes_on_line pre) c).2 (decide (c = 10)) := by
  obtain ⟨st, hst⟩ := parse_main_total (bytes "/* a\nb")
  have hr : render main_state (bytes "f.c") (bytes "/* a\nb") =
      some (print_source_code st (bytes "f.c") (bytes "/* a\nb")) := by
    simp [render, hst]
  exact ⟨by decide, _, hr,
    line_start_markup main_state (bytes "f.c") (bytes "/* a\nb") _ (by decide) hr⟩

/-! ### Close tags at the end of a line -/

theorem lines_read_append (p t : List Nat) :
    lines_read (p ++ t) = lines_read p + t.count 10 := by
  simp [lines_read, List.count_append]

theorem bytes_on_line_append (p t : List Nat) (h : 10 ∉ t) :
    bytes_on_line (p ++ t) = bytes_on_line p + t.length := by
  have h1 := scan_pos_append_no_lf p t h
  rw [scan_pos_eq, scan_pos_eq] at h1
  exact (Prod.mk.inj h1).2

/-- The positions the renderer queries on the line of a byte that ends its
line, or the input, are at most the number of bytes of that line. -/
theorem query_on_line_le {input pre p : List Nat} {c d : Nat}
    (hpre : pre ++ [c] <+: input) (hend : c = 10 ∨ pre ++ [c] = input)
    (hq : p ++ [d] <+: input) (hline : lines_read p = lines_read pre) :
    bytes_on_line p + 1 ≤ bytes_on_line pre + 1 := by
  have hp : p <+: input := (List.prefix_append p [d]).trans hq
  by_cases hlen : p.length ≤ pre.length
  · have hpp : p <+: pre :=
      List.prefix_of_prefix_length_le hp ((List.prefix_append pre [c]).trans hpre) hlen
    obtain ⟨t, ht⟩ := hpp
    rw [← ht, lines_read_append] at hline
    have hcount : t.count 10 = 0 := by omega
    have hno : 10 ∉ t := List.count_eq_zero.1 hcount
    rw [← ht, bytes_on_line_append p t hno]
    omega
  · have hpp : pre ++ [c] <+: p :=
      List.prefix_of_prefix_length_le hpre hp (by simp; omega)
    obtain ⟨t, ht⟩ := hpp
    rcases hend with hc | hfull
    · rw [← ht, lines_read_append, lines_read_append, hc] at hline
      simp at hline
      omega
    · have h1 := hq.length_le
      rw [← hfull] at h1
      have h2 : (pre ++ [c]).length ≤ p.length := by rw [← ht]; simp
      simp only [List.length_append, List.length_singleton] at h1 h2
      omega

theorem getLast?_of_c_index {s : List Nat} {k c : Nat} (hc : c_index s k = some c)
    (hk : k + 1 = s.length) : s.getLast? = some c := by
  have := c_index_some_lt hc (by omega)
  rw [List.getLast?_eq_getElem?, ← List.get?_eq_getElem?]
  have hk2 : s.length - 1 = k := by omega
  rw [hk2]; exact this

/-- A tag appended with a close string while the byte `c` behind the bytes
`pre` is processed is on the line of `c` at `line_offset + 2`, that is the number of bytes of the line up to and
including `c`, plus one; the close tag of a double-ended rule is appended
at the last byte of its close pattern (a line feed for a close pattern
ending in a line feed). If `c` is a line feed or the last byte of the input,
the renderer queries `find_tag` on that line only with offsets from 1 to
the number of bytes of the line, so no query of the renderer has the
position of the tag, and what `find_tag` returns for a query is never the
tag at that position. -/
theorem close_tag_at_line_end (rules : List syntax_check) (input pre : List Nat) (c : Nat)
    (st0 st1 : cparse) (hpre : pre ++ [c] <+: input)
    (h0 : parse_source_code pre ⟨rules, []⟩ = some st0)
    (h1 : parse_source_code (pre ++ [c]) ⟨rules, []⟩ = some st1) :
    ∃ evs, st1.journal = st0.journal ++ evs ∧ ∀ e ∈ evs, e.opening = false →
      e.tag.line = (lines_read pre : Int) ∧
      e.tag.offset = ((bytes_on_line pre + 1 + 1 : Nat) : Int) ∧
      (∀ q s2, rules.get? e.rule = some q → q.syntax_type = SYNTAX_TYPE_DOUBLE_ENDED →
        q.syntax_check2 = some s2 → q.syntax_check2_len = s2.length →
        s2.getLast? = some c) ∧
      (c = 10 ∨ pre ++ [c] = input →
        (∀ p d, p ++ [d] <+: input → lines_read p = lines_read pre →
          1 ≤ bytes_on_line p + 1 ∧ bytes_on_line p + 1 ≤ bytes_on_line pre + 1) ∧
        (∀ p d, p ++ [d] <+: input →
          ¬ ((lines_read p : Int) = e.tag.line ∧
             ((bytes_on_line p + 1 : Nat) : Int) = e.tag.offset)) ∧
        (∀ (tags : List code_tag) p d s, p ++ [d] <+: input →
          find_tag tags (lines_read p) ((bytes_on_line p + 1 : Nat) : Int) = some s →
          ∃ a t b, tags = a ++ t :: b ∧ t.string = s ∧
            ¬ (t.line = e.tag.line ∧ t.offset = e.tag.offset))) := by
  rw [parse_source_code_snoc, h0, Option.some_bind] at h1
  have hloop := evaluate_syntax_checks_one h1
  rw [scan_pos_eq] at hloop
  have hres : st0.syntax_list.map syntax_check.reset = rules.map syntax_check.reset :=
    parse_loop_reset h0
  have hI := rules_loop_inv
    (fun done todo jr =>
      (done ++ todo).map syntax_check.reset = rules.map syntax_check.reset ∧
      ∃ evs, jr = st0.journal ++ evs ∧ ∀ e ∈ evs, e.opening = false →
        e.tag.line = (lines_read pre : Int) ∧
        e.tag.offset = ((bytes_on_line pre + 1 + 1 : Nat) : Int) ∧
        (∀ q s2, rules.get? e.rule = some q → q.syntax_type = SYNTAX_TYPE_DOUBLE_ENDED →
          q.syntax_check2 = some s2 → q.syntax_check2_len = s2.length →
          s2.getLast? = some c))
    ?_ _ _ _ _ _ ⟨by simpa using hres, [], by simp, by simp⟩ hloop
  · obtain ⟨-, evs, hj, hev⟩ := hI
    refine ⟨evs, hj, fun e he hcl => ?_⟩
    obtain ⟨hl, ho, hd⟩ := hev e he hcl
    refine ⟨hl, ho, hd, fun hend => ⟨fun p d hq hline => ?_, fun p d hq => ?_, ?_⟩⟩
    · exact ⟨by omega, query_on_line_le hpre hend hq hline⟩
    · rintro ⟨g1, g2⟩
      rw [hl] at g1
      rw [ho] at g2
      have := query_on_line_le hpre hend hq (by exact_mod_cast g1)
      omega
    · intro tags p d s hq hf
      obtain ⟨a, t, b, ht, t1, t2, t3, -⟩ := (find_tag_eq_some_iff _ _ _ _).1 hf
      refine ⟨a, t, b, ht, t3, ?_⟩
      rintro ⟨g1, g2⟩
      rw [hl] at g1
      rw [ho] at g2
      have := query_on_line_le hpre hend hq (by rw [t1] at g1; exact_mod_cast g1)
      omega
  · intro done p rest jr p1 jr1 hI he
    obtain ⟨hr, evs, hj, hev⟩ := hI
    refine ⟨?_, ?_⟩
    · simp only [List.map_append, List.map_cons, List.map_nil, List.append_assoc,
        List.singleton_append] at hr ⊢
      rw [evaluate_rule_reset he]; exact hr
    · have hq : ∀ q, rules.get? done.length = some q → p.reset = q.reset := fun q hget =>
        get?_of_map_reset hr (get?_zipper done rest p) hget
      have hclose : ∀ e : tag_event, e = ⟨done.length, false, ⟨(lines_read pre : Nat),
          ((bytes_on_line pre : Nat) : Int) + 2, strdup p.close_string_if_found⟩⟩ →
          e.tag.line = (lines_read pre : Int) ∧
          e.tag.offset = ((bytes_on_line pre + 1 + 1 : Nat) : Int) := by
        intro e he; subst he; exact ⟨rfl, by push_cast; ring⟩
      rcases evaluate_rule_cases he with
        ⟨_, _, _, hjr⟩ | ⟨_, _, _, _, _, hjr⟩ | ⟨_, _, ⟨s2, hs, hc⟩, hl, _, hjr⟩ |
        ⟨_, _, _, _, hjr⟩ | ⟨_, _, _, _, hjr⟩ | ⟨_, _, _, hty, _, hjr⟩ |
        ⟨_, _, _, _, _, hjr⟩ | ⟨_, _, _, hjr⟩
      · exact ⟨evs, by rw [hjr, hj], hev⟩
      · exact ⟨evs, by rw [hjr, hj], hev⟩
      · refine ⟨evs ++ [_], by rw [hjr, hj, List.append_assoc], ?_⟩
        intro e hmem hcl
        rcases List.mem_append.1 hmem with hmem | hmem
        · exact hev e hmem hcl
        · have heq := List.mem_singleton.1 hmem
          obtain ⟨g1, g2⟩ := hclose e heq
          refine ⟨g1, g2, ?_⟩
          intro q t2 hget _ hq2 hlen2
          subst heq
          obtain ⟨-, f2, -, f4, -⟩ := reset_fields (hq q hget)
          rw [f2, hq2] at hs
          cases hs
          rw [f4, hlen2] at hl
          exact getLast?_of_c_index hc hl
      · exact ⟨evs, by rw [hjr, hj], hev⟩
      · exact ⟨evs, by rw [hjr, hj], hev⟩
      · refine ⟨evs ++ [_, _], by rw [hjr, hj, List.append_assoc], ?_⟩
        intro e hmem hcl
        rcases List.mem_append.1 hmem with hmem | hmem
        · exact hev e hmem hcl
        · simp only [List.mem_cons, List.mem_singleton, List.not_mem_nil, or_false] at hmem
          rcases hmem with heq | heq
          · subst heq; simp at hcl
          · obtain ⟨g1, g2⟩ := hclose e heq
            refine ⟨g1, g2, ?_⟩
            intro q t2 hget hqty _ _
            subst heq
            obtain ⟨-, -, -, -, f5, -⟩ := reset_fields (hq q hget)
            rw [← f5, hty] at hqty
            cases hqty
      · refine ⟨evs ++ [_], by rw [hjr, hj, List.append_assoc], ?_⟩
        intro e hmem hcl
        rcases List.mem_append.1 hmem with hmem | hmem
        · exact hev e hmem hcl
        · have heq := List.mem_singleton.1 hmem
          subst heq; simp at hcl
      · exact ⟨evs, by rw [hjr, hj], hev⟩

/-- C17. Close tags at the end of a line: for an input inside the range of
`int`, a tag appended with a close string while the byte `c` behind the bytes
`pre` is processed is in the tag list the renderer reads, on the line of `c`
at `line_offset + 2` (below `2^31`), that is the number of bytes of the line
up to and including `c`, plus one; the close tag of a double-ended rule is
appended at the last byte of its close pattern (a line feed for a close
pattern ending in a line feed). If `c` is a line feed or the last byte of
the input: for every byte `d` of the input, behind the bytes `p`, what
`print_source_code` writes for `d` holds the result of the one `find_tag`
call made for it, with the line of `d` and the number of bytes of that line
up to and including `d`; on the line of the tag that offset goes from 1 to
the number of bytes of the line, so no call has the position of the tag, and
what a call returns is never the string of a tag at that position. -/
theorem end_of_line_close_tag (rules : List syntax_check) (file input pre : List Nat)
    (c : Nat) (st0 st1 stf : cparse) (hsize : input.length + 2 ≤ 2147483648)
    (hpre : pre ++ [c] <+: input)
    (h0 : parse_source_code pre ⟨rules, []⟩ = some st0)
    (h1 : parse_source_code (pre ++ [c]) ⟨rules, []⟩ = some st1)
    (hf : parse_source_code input ⟨rules, []⟩ = some stf) :
    ∃ evs, st1.journal = st0.journal ++ evs ∧ ∀ e ∈ evs, e.opening = false →
      e ∈ stf.journal ∧
      e.tag.line = (lines_read pre : Int) ∧
      e.tag.offset = ((bytes_on_line pre + 1 + 1 : Nat) : Int) ∧
      lines_read pre < 2147483648 ∧ bytes_on_line pre + 1 + 1 < 2147483648 ∧
      (∀ q s2, rules.get? e.rule = some q → q.syntax_type = SYNTAX_TYPE_DOUBLE_ENDED →
        q.syntax_check2 = some s2 → q.syntax_check2_len = s2.length →
        s2.getLast? = some c) ∧
      (c = 10 ∨ pre ++ [c] = input →
        ∀ p d r, input = p ++ d :: r →
          print_loop stf file input 0 0 true =
            print_loop stf file p 0 0 true ++
            ((if at_line_start p then
                (if active_rule stf.syntax_list ≠ 0 then bytes "</font>" else []) ++
                  line_anchor file (lines_read p)
              else []) ++
             (match find_tag stf.code_tags (lines_read p)
                ((bytes_on_line p + 1 : Nat) : Int) with
              | some s => c_str s
              | none => []) ++
             c_str [d, 0]) ++
            print_loop stf file r (advance (lines_read p, bytes_on_line p) d).1
              (advance (lines_read p, bytes_on_line p) d).2 (decide (d = 10)) ∧
          (lines_read p = lines_read pre →
            1 ≤ bytes_on_line p + 1 ∧ bytes_on_line p + 1 ≤ bytes_on_line pre + 1) ∧
          ¬ ((lines_read p : Int) = e.tag.line ∧
             ((bytes_on_line p + 1 : Nat) : Int) = e.tag.offset) ∧
          (∀ s, find_tag stf.code_tags (lines_read p)
              ((bytes_on_line p + 1 : Nat) : Int) = some s →
            ∃ a t b, stf.code_tags = a ++ t :: b ∧ t.string = s ∧
              ¬ (t.line = e.tag.line ∧ t.offset = e.tag.offset))) := by
  obtain ⟨evs, hj, hev⟩ := close_tag_at_line_end rules input pre c st0 st1 hpre h0 h1
  refine ⟨evs, hj, fun e he hcl => ?_⟩
  obtain ⟨hline, hoff, hlast, hend⟩ := hev e he hcl
  obtain ⟨t, ht⟩ := hpre
  have hmem : e ∈ stf.journal := by
    rw [← ht, parse_source_code_append, h1, Option.some_bind] at hf
    obtain ⟨more, hm⟩ := parse_loop_journal _ _ _ _ _ hf
    rw [hm, hj]
    simp [he]
  have hl1 := scan_pos_line_le pre
  have hl2 := scan_pos_le pre
  rw [scan_pos_eq] at hl1 hl2
  dsimp only at hl1 hl2
  have hlen : pre.length + 1 ≤ input.length := by rw [← ht]; simp
  refine ⟨hmem, hline, hoff, by omega, by omega, hlast, fun hc p d r hin => ?_⟩
  obtain ⟨hq1, hq2, hq3⟩ := hend hc
  have hpd : p ++ [d] <+: input := ⟨r, by rw [hin]; simp⟩
  refine ⟨?_, hq1 p d hpd, hq2 p d hpd, fun s hs => hq3 stf.code_tags p d s hpd hs⟩
  rw [hin]
  exact print_loop_split stf file p d r

/-- C17 at a line comment closed by its line feed. -/
theorem end_of_line_close_tag_witness :
    (bytes "// a\nb").length + 2 ≤ 2147483648 ∧
    bytes "// a" ++ [10] <+: bytes "// a\nb" ∧
    ∃ st0 st1 stf, parse_source_code (bytes "// a") ⟨main_syntax_list, []⟩ = some st0 ∧
      parse_source_code (bytes "// a" ++ [10]) ⟨main_syntax_list, []⟩ = some st1 ∧
      parse_source_code (bytes "// a\nb") ⟨main_syntax_list, []⟩ = some stf ∧
      ∃ evs, st1.journal = st0.journal ++ evs ∧ ∀ e ∈ evs, e.opening = false →
        e ∈ stf.journal ∧
        e.tag.line = (lines_read (bytes "// a") : Int) ∧
        e.tag.offset = ((bytes_on_line (bytes "// a") + 1 + 1 : Nat) : Int) ∧
        lines_read (bytes "// a") < 2147483648 ∧
        bytes_on_line (bytes "// a") + 1 + 1 < 2147483648 ∧
        (∀ q s2, main_syntax_list.get? e.rule = some q →
          q.syntax_type = SYNTAX_TYPE_DOUBLE_ENDED →
          q.syntax_check2 = some s2 → q.syntax_check2_len = s2.length →
          s2.getLast? = some 10) ∧
        (10 = 10 ∨ bytes "// a" ++ [10] = bytes "// a\nb" →
          ∀ p d r, bytes "// a\nb" = p ++ d :: r →
            print_loop stf (bytes "f.c") (bytes "// a\nb") 0 0 true =
              print_loop stf (bytes "f.c") p 0 0 true ++
              ((if at_line_start p then
                  (if active_rule stf.syntax_list ≠ 0 then bytes "</font>" else []) ++
                    line_anchor (bytes "f.c") (lines_read p)
                else []) ++
               (match find_tag stf.code_tags (lines_read p)
                  ((bytes_on_line p + 1 : Nat) : Int) with
                | some s => c_str s
                | none => []) ++
               c_str [d, 0]) ++
              print_loop stf (bytes "f.c") r (advance (lines_read p, bytes_on_line p) d).1
                (advance (lines_read p, bytes_on_line p) d).2 (decide (d = 10)) ∧
            (lines_read p = lines_read (bytes "// a") →
              1 ≤ bytes_on_line p + 1 ∧
              bytes_on_line p + 1 ≤ bytes_on_line (bytes "// a") + 1) ∧
            ¬ ((lines_read p : Int) = e.tag.line ∧
               ((bytes_on_line p + 1 : Nat) : Int) = e.tag.offset) ∧
            (∀ s, find_tag stf.code_tags (lines_read p)
                ((bytes_on_line p + 1 : Nat) : Int) = some s →
              ∃ a t b, stf.code_tags = a ++ t :: b ∧ t.string = s ∧
                ¬ (t.line = e.tag.line ∧ t.offset = e.tag.offset))) := by
  have hp : bytes "// a" ++ [10] <+: bytes "// a\nb" := by decide!
  obtain ⟨st0, hst0⟩ := parse_main_total (bytes "// a")
  obtain ⟨st1, hst1⟩ := parse_main_total (bytes "// a" ++ [10])
  obtain ⟨stf, hstf⟩ := parse_main_total (bytes "// a\nb")
  exact ⟨by decide, hp, st0, st1, stf, hst0, hst1, hstf,
    end_of_line_close_tag main_syntax_list (bytes "f.c") (bytes "// a\nb") (bytes "// a") 10
      st0 st1 stf (by decide) hp hst0 hst1 hstf⟩

/-! ### An open region blocks every other rule -/

theorem active_at_zipper_self (done rest : List syntax_check) (q : syntax_check) :
    active_at (done ++ q :: rest) done.length ↔ q.rule_active ≠ 0 := by
  unfold active_at
  rw [get?_zipper]
  constructor
  · rintro ⟨r, hr, ha⟩
    rw [Option.some.inj hr]; exact ha
  · intro h; exact ⟨q, rfl, h⟩

theorem get?_zipper_ne (done rest : List syntax_check) (q q1 : syntax_check) {i : Nat}
    (hi : i ≠ done.length) :
    (done ++ q1 :: rest).get? i = (done ++ q :: rest).get? i := by
  simp only [List.get?_eq_getElem?]
  by_cases hlt : i < done.length
  · rw [List.getElem?_append_left hlt, List.getElem?_append_left hlt]
  · have hge : done.length ≤ i := by omega
    rw [List.getElem?_append_right hge, List.getElem?_append_right hge]
    have : i - done.length = (i - done.length - 1) + 1 := by omega
    rw [this, List.getElem?_cons_succ, List.getElem?_cons_succ]

theorem active_at_zipper_ne (done rest : List syntax_check) (q q1 : syntax_check) {i : Nat}
    (hi : i ≠ done.length) :
    active_at (done ++ q1 :: rest) i ↔ active_at (done ++ q :: rest) i := by
  unfold active_at
  rw [get?_zipper_ne done rest q q1 hi]

theorem not_active_at_of_active_rule {l : List syntax_check} (h : active_rule l = 0) (i : Nat) :
    ¬ active_at l i := by
  rintro ⟨r, hr, ha⟩
  exact ha ((active_rule_eq_zero_iff l).1 h r (List.get?_mem hr))

/-- The journal and the active rule: behind an open tag of a double-ended
rule comes the close tag of that rule; a rule is active exactly while the
last entry of the journal is its open tag. -/
theorem region_blocks_step {c line line_offset : Nat} {rules done rest : List syntax_check}
    {p p1 : syntax_check} {jr jr1 : List tag_event}
    (hres : (done ++ p :: rest).map syntax_check.reset = rules.map syntax_check.reset)
    (hT : List.Chain' (region_blocks rules) jr ∧
      (∀ i, active_at (done ++ p :: rest) i →
        ∃ e, jr.getLast? = some e ∧ e.opening = true ∧ e.rule = i) ∧
      (∀ e, jr.getLast? = some e → e.opening = true → active_at (done ++ p :: rest) e.rule))
    (he : evaluate_rule c line line_offset done.length
      (active_rule (done ++ p :: rest)) p jr = some (p1, jr1)) :
    List.Chain' (region_blocks rules) jr1 ∧
      (∀ i, active_at (done ++ p1 :: rest) i →
        ∃ e, jr1.getLast? = some e ∧ e.opening = true ∧ e.rule = i) ∧
      (∀ e, jr1.getLast? = some e → e.opening = true →
        active_at (done ++ p1 :: rest) e.rule) := by
  obtain ⟨h1, h2, h3⟩ := hT
  have hq : ∀ q, rules.get? done.length = some q → p.reset = q.reset := fun q hget =>
    get?_of_map_reset hres (get?_zipper done rest p) hget
  -- a step that appends nothing and leaves `rule_active` as it is
  have hsame : jr1 = jr → p1.rule_active = p.rule_active →
      List.Chain' (region_blocks rules) jr1 ∧
      (∀ i, active_at (done ++ p1 :: rest) i →
        ∃ e, jr1.getLast? = some e ∧ e.opening = true ∧ e.rule = i) ∧
      (∀ e, jr1.getLast? = some e → e.opening = true →
        active_at (done ++ p1 :: rest) e.rule) := by
    intro hj ha
    have hiff : ∀ i, active_at (done ++ p1 :: rest) i ↔ active_at (done ++ p :: rest) i := by
      intro i
      by_cases hi : i = done.length
      · subst hi
        rw [active_at_zipper_self, active_at_zipper_self, ha]
      · exact active_at_zipper_ne done rest p p1 hi
    subst hj
    exact ⟨h1, fun i hi => h2 i ((hiff i).1 hi), fun e hl ho => (hiff _).2 (h3 e hl ho)⟩
  -- a step taken while no rule is active
  have hquiet : active_rule (done ++ p :: rest) = 0 →
      ∀ e, jr.getLast? = some e → e.opening = false := by
    intro hz e hl
    cases ho : e.opening with
    | false => rfl
    | true => exact absurd (h3 e hl ho) (not_active_at_of_active_rule hz _)
  rcases evaluate_rule_cases he with
    ⟨_, h0, hp, hj⟩ | ⟨_, _, _, _, hp, hj⟩ | ⟨_, ha, _, _, hp, hj⟩ | ⟨_, _, _, hp, hj⟩ |
    ⟨_, _, _, hp, hj⟩ | ⟨hz, _, _, hty, hp, hj⟩ | ⟨hz, _, _, hty, hp, hj⟩ | ⟨_, _, hp, hj⟩
  · exact hsame hj (by rw [hp])
  · exact hsame hj (by rw [hp])
  · -- the active rule closes its region
    obtain ⟨e0, hl0, ho0, hr0⟩ := h2 done.length ((active_at_zipper_self done rest p).2 ha)
    subst hj
    refine ⟨List.chain'_append.2 ⟨h1, by simp, ?_⟩, ?_, ?_⟩
    · intro x hx y hy
      rw [Option.mem_def] at hx hy
      simp only [List.head?_cons, Option.some.injEq] at hy
      subst hy
      rw [hl0] at hx
      have := Option.some.inj hx
      subst this
      intro _ q hget _
      rw [hr0] at hget
      obtain ⟨-, -, -, -, -, -, f7⟩ := reset_fields (hq q hget)
      exact ⟨hr0.symm, rfl, by rw [f7]⟩
    · intro i hi
      exfalso
      by_cases hidx : i = done.length
      · subst hidx
        rw [active_at_zipper_self, hp] at hi
        exact hi rfl
      · have hold := (active_at_zipper_ne done rest p p1 hidx).1 hi
        obtain ⟨e1, hl1, -, hr1⟩ := h2 i hold
        rw [hl0] at hl1
        have := Option.some.inj hl1
        subst this
        exact hidx (hr1.symm.trans hr0)
    · intro e hl ho
      rw [List.getLast?_append] at hl
      simp at hl
      subst hl
      simp at ho
  · exact hsame hj (by rw [hp])
  · exact hsame hj (by rw [hp])
  · -- a single-ended rule appends its two tags
    have hlast := hquiet hz
    subst hj
    refine ⟨List.chain'_append.2 ⟨h1, ?_, ?_⟩, ?_, ?_⟩
    · rw [List.chain'_cons]
      refine ⟨?_, by simp⟩
      intro _ q hget hqty
      obtain ⟨-, -, -, -, f5, -⟩ := reset_fields (hq q hget)
      rw [← f5, hty] at hqty
      cases hqty
    · intro x hx y _ hxo
      rw [Option.mem_def] at hx
      rw [hlast x hx] at hxo
      cases hxo
    · intro i hi
      exfalso
      by_cases hidx : i = done.length
      · subst hidx
        rw [active_at_zipper_self, hp] at hi
        have h0 : p.rule_active = 0 := active_rule_head hz
        exact hi h0
      · exact not_active_at_of_active_rule hz i
          ((active_at_zipper_ne done rest p p1 hidx).1 hi)
    · intro e hl ho
      rw [List.getLast?_append] at hl
      simp at hl
      subst hl
      simp at ho
  · -- a double-ended rule opens its region
    have hlast := hquiet hz
    subst hj
    refine ⟨List.chain'_append.2 ⟨h1, by simp, ?_⟩, ?_, ?_⟩
    · intro x hx y _ hxo
      rw [Option.mem_def] at hx
      rw [hlast x hx] at hxo
      cases hxo
    · intro i hi
      by_cases hidx : i = done.length
      · subst hidx
        refine ⟨⟨done.length, true, ⟨(line : Int),
          open_offset line_offset p.syntax_check1_len,
          strdup p.open_string_if_found⟩⟩, ?_, rfl, rfl⟩
        simp
      · exact absurd ((active_at_zipper_ne done rest p p1 hidx).1 hi)
          (not_active_at_of_active_rule hz i)
    · intro e hl _
      rw [List.getLast?_append] at hl
      simp at hl
      subst hl
      show active_at (done ++ p1 :: rest) done.length
      rw [active_at_zipper_self, hp]
      simp
  · exact hsame hj (by rw [hp])

/-- C14. An open region blocks every other rule: from a syntax list in which
no rule is active, in the journal of the scan of every input the entry
directly behind a tag appended with the open string of a
SYNTAX_TYPE_DOUBLE_ENDED rule, if there is one, is the tag appended with the
close string of that same rule: no tag of another rule and no second open
tag of the rule comes between. -/
theorem open_region_blocks (rules : List syntax_check) (input : List Nat) (st : cparse)
    (hrules : ∀ p ∈ rules, p.rule_active = 0)
    (hst : parse_source_code input ⟨rules, []⟩ = some st) :
    List.Chain'
      (fun e x : tag_event => e.opening = true → ∀ p, rules.get? e.rule = some p →
        p.syntax_type = SYNTAX_TYPE_DOUBLE_ENDED →
        x.rule = e.rule ∧ x.opening = false ∧
          x.tag.string = strdup p.close_string_if_found)
      st.journal := by
  have key := scan_induction ⟨rules, []⟩ input
    (fun _ l jr => List.Chain' (region_blocks rules) jr ∧
      (∀ i, active_at l i → ∃ e, jr.getLast? = some e ∧ e.opening = true ∧ e.rule = i) ∧
      (∀ e, jr.getLast? = some e → e.opening = true → active_at l e.rule))
    (fun _ _ done todo jr => List.Chain' (region_blocks rules) jr ∧
      (∀ i, active_at (done ++ todo) i →
        ∃ e, jr.getLast? = some e ∧ e.opening = true ∧ e.rule = i) ∧
      (∀ e, jr.getLast? = some e → e.opening = true → active_at (done ++ todo) e.rule))
    ?_ (fun _ _ _ _ _ _ hK => by simpa using hK) ?_
    (fun _ _ _ _ _ hI => by simpa using hI) input st (List.prefix_refl _) hst
  · exact key.1
  · refine ⟨by simp, fun i hi => ?_, fun e hl => by simp at hl⟩
    obtain ⟨r, hr, ha⟩ := hi
    exact absurd (hrules r (List.get?_mem hr)) ha
  · intro pre c done p rest jr p1 jr1 _ hres hI he
    have := region_blocks_step hres hI he
    simpa using this

/-- C14 at an input with a string that holds comment text. -/
theorem open_region_blocks_witness :
    (∀ p ∈ main_syntax_list, p.rule_active = 0) ∧
    ∃ st, parse_source_code (bytes "\"a/*b\" int") ⟨main_syntax_list, []⟩ = some st ∧
      List.Chain'
        (fun e x : tag_event => e.opening = true → ∀ p, main_syntax_list.get? e.rule = some p →
          p.syntax_type = SYNTAX_TYPE_DOUBLE_ENDED →
          x.rule = e.rule ∧ x.opening = false ∧
            x.tag.string = strdup p.close_string_if_found)
        st.journal := by
  obtain ⟨st, hst⟩ := parse_main_total (bytes "\"a/*b\" int")
  exact ⟨by decide, st, hst,
    open_region_blocks main_syntax_list (bytes "\"a/*b\" int") st (by decide) hst⟩

/-! ### The close pattern of an open region -/

theorem evaluate_rule_hold {c line line_offset idx act : Nat} {p : syntax_check}
    (jr : List tag_event) (hact : act ≠ 0) (hp : p.rule_active = 0) :
    evaluate_rule c line line_offset idx act p jr = some (p.hold, jr) := by
  unfold evaluate_rule
  rw [if_pos hact, if_neg (by simp [hp])]
  rfl

/-- Behind an active rule, the rules that are not active get their counter
cleared and nothing else happens. -/
theorem rules_loop_hold (c line line_offset : Nat) :
    ∀ (todo done : List syntax_check) (jr : List tag_event),
      active_rule done ≠ 0 → (∀ p ∈ todo, p.rule_active = 0) →
      rules_loop c line line_offset done todo jr =
        some (done ++ todo.map syntax_check.hold, jr) := by
  intro todo
  induction todo with
  | nil => intro done jr _ _; simp [rules_loop]
  | cons p rest ih =>
    intro done jr hd h0
    have hact : active_rule (done ++ p :: rest) ≠ 0 :=
      (active_rule_append_ne_zero _ _).2 (Or.inl hd)
    rw [rules_loop_cons_of_eq (evaluate_rule_hold jr hact (h0 p (by simp))),
      ih (done ++ [p.hold]) jr ((active_rule_append_ne_zero _ _).2 (Or.inl hd))
      (fun q hq => h0 q (by simp [hq]))]
    simp

/-- In front of an active rule, the rules that are not active get their
counter cleared and nothing else happens. -/
theorem rules_loop_hold_before (c line line_offset : Nat) (r : syntax_check)
    (post : List syntax_check) (hr : r.rule_active ≠ 0) :
    ∀ (pre done : List syntax_check) (jr : List tag_event),
      (∀ p ∈ pre, p.rule_active = 0) →
      rules_loop c line line_offset done (pre ++ r :: post) jr =
        rules_loop c line line_offset (done ++ pre.map syntax_check.hold) (r :: post) jr := by
  intro pre
  induction pre with
  | nil => intro done jr _; simp
  | cons p pre ih =>
    intro done jr h0
    have hact : active_rule (done ++ p :: (pre ++ r :: post)) ≠ 0 := by
      refine (active_rule_append_ne_zero _ _).2 (Or.inr ?_)
      rw [show p :: (pre ++ r :: post) = (p :: pre) ++ r :: post by simp]
      exact (active_rule_append_ne_zero _ _).2 (Or.inr (active_rule_cons_ne_zero _ hr))
    rw [List.cons_append, rules_loop_cons_of_eq (evaluate_rule_hold jr hact (h0 p (by simp))),
      ih (done ++ [p.hold]) jr (fun q hq => h0 q (by simp [hq]))]
    simp

theorem c_index_eq_get? {s : List Nat} {i : Nat} (h : i < s.length) :
    c_index s i = s.get? i := by
  simp [c_index, h]

/-- The step of the active rule on a byte that does not complete its close
pattern is the step of the matcher of the close pattern taken alone. -/
theorem evaluate_rule_quiet {c line line_offset idx act k : Nat} {r : syntax_check}
    {s2 : List Nat} (jr : List tag_event) (hact : act ≠ 0)
    (hr : r.rule_active ≠ 0) (hs : r.syntax_check2 = some s2)
    (hl : r.syntax_check2_len = s2.length) (hk : r.counter < s2.length)
    (hq : restart_step s2 (r.counter, 0) c = (k, 0)) :
    evaluate_rule c line line_offset idx act r jr = some ({ r with counter := k }, jr) := by
  unfold evaluate_rule
  rw [if_pos hact, if_pos hr]
  simp only [hs, c_index_lt hk]
  by_cases hget : s2.get? r.counter = some c
  · have hch : s2.get ⟨r.counter, hk⟩ = c := by
      rw [List.get?_eq_get hk] at hget; exact Option.some.inj hget
    by_cases hfull : r.counter + 1 = s2.length
    · rw [restart_step_full 0 hget hfull] at hq
      exact absurd (Prod.mk.inj hq).2 (by decide)
    · rw [restart_step_next 0 hget hfull] at hq
      have hk1 : k = r.counter + 1 := (Prod.mk.inj hq).1.symm
      subst hk1
      rw [if_pos hch, if_neg (by rw [hl]; exact hfull)]
  · have hch : ¬ s2.get ⟨r.counter, hk⟩ = c := by
      intro h; apply hget; rw [List.get?_eq_get hk, h]
    rw [restart_step_miss 0 hget] at hq
    have hk0 : k = 0 := (Prod.mk.inj hq).1.symm
    subst hk0
    rw [if_neg hch]
    by_cases h3 : r.counter = 0
    · rw [if_neg (by simp [h3])]
      cases r; simp_all
    · rw [if_pos h3]

/-- The step of the active rule on the byte that completes its close pattern:
the close tag is appended at `line_offset + 2` and the rule is no longer active. -/
theorem evaluate_rule_close {c line line_offset idx act : Nat} {r : syntax_check}
    {s2 : List Nat} (jr : List tag_event) (hact : act ≠ 0)
    (hr : r.rule_active ≠ 0) (hs : r.syntax_check2 = some s2)
    (hl : r.syntax_check2_len = s2.length) (hk : r.counter < s2.length)
    (hq : restart_step s2 (r.counter, 0) c = (0, 1)) :
    evaluate_rule c line line_offset idx act r jr =
      some ({ r with counter := 0, rule_active := 0 },
        jr ++ [⟨idx, false, ⟨(line : Int), (line_offset : Int) + 2,
          strdup r.close_string_if_found⟩⟩]) := by
  unfold evaluate_rule
  rw [if_pos hact, if_pos hr]
  simp only [hs, c_index_lt hk]
  by_cases hget : s2.get? r.counter = some c
  · have hch : s2.get ⟨r.counter, hk⟩ = c := by
      rw [List.get?_eq_get hk] at hget; exact Option.some.inj hget
    by_cases hfull : r.counter + 1 = s2.length
    · rw [if_pos hch, if_pos (by rw [hl]; exact hfull)]
      simp [add_tag]
    · rw [restart_step_next 0 hget hfull] at hq
      exact absurd (Prod.mk.inj hq).2 (by decide)
  · rw [restart_step_miss 0 hget] at hq
    exact absurd (Prod.mk.inj hq).2 (by decide)
/-- One byte inside a region that does not complete the close pattern. -/
theorem rules_loop_quiet (c line line_offset : Nat) (A B : List syntax_check)
    (r : syntax_check) (s2 : List Nat) (k : Nat) (jr : List tag_event)
    (hA : ∀ p ∈ A, p.rule_active = 0) (hB : ∀ p ∈ B, p.rule_active = 0)
    (hr : r.rule_active ≠ 0) (hs : r.syntax_check2 = some s2)
    (hl : r.syntax_check2_len = s2.length) (hk : r.counter < s2.length)
    (hq : restart_step s2 (r.counter, 0) c = (k, 0)) :
    rules_loop c line line_offset [] (A ++ r :: B) jr =
      some (A.map syntax_check.hold ++ { r with counter := k } :: B.map syntax_check.hold,
        jr) := by
  rw [rules_loop_hold_before c line line_offset r B hr A [] jr hA]
  have hact : active_rule ([] ++ A.map syntax_check.hold ++ r :: B) ≠ 0 :=
    (active_rule_append_ne_zero _ _).2 (Or.inr (active_rule_cons_ne_zero _ hr))
  rw [rules_loop_cons_of_eq (evaluate_rule_quiet jr hact hr hs hl hk hq),
    rules_loop_hold c line line_offset B _ jr ?_ hB]
  · simp
  · exact (active_rule_append_ne_zero _ _).2
      (Or.inr (active_rule_cons_ne_zero _ (by simpa using hr)))

/-- The byte that completes the close pattern of the open region. -/
theorem rules_loop_close (c line line_offset : Nat) (A B : List syntax_check)
    (r : syntax_check) (s2 : List Nat) (jr : List tag_event)
    (hA : ∀ p ∈ A, p.rule_active = 0) (hBw : ∀ p ∈ B, rule_wf p)
    (hr : r.rule_active ≠ 0) (hs : r.syntax_check2 = some s2)
    (hl : r.syntax_check2_len = s2.length) (hk : r.counter < s2.length)
    (hq : restart_step s2 (r.counter, 0) c = (0, 1)) :
    ∃ B1 more, rules_loop c line line_offset [] (A ++ r :: B) jr =
      some (A.map syntax_check.hold ++ { r with counter := 0, rule_active := 0 } :: B1,
        jr ++ ⟨A.length, false, ⟨(line : Int), (line_offset : Int) + 2,
          strdup r.close_string_if_found⟩⟩ :: more) := by
  rw [rules_loop_hold_before c line line_offset r B hr A [] jr hA]
  have hact : active_rule ([] ++ A.map syntax_check.hold ++ r :: B) ≠ 0 :=
    (active_rule_append_ne_zero _ _).2 (Or.inr (active_rule_cons_ne_zero _ hr))
  rw [rules_loop_cons_of_eq (evaluate_rule_close jr hact hr hs hl hk hq)]
  obtain ⟨⟨rules1, jr1⟩, h⟩ := rules_loop_total c line line_offset B
    ([] ++ A.map syntax_check.hold ++ [{ r with counter := 0, rule_active := 0 }])
    (jr ++ [⟨([] ++ A.map syntax_check.hold).length, false, ⟨(line : Int),
      (line_offset : Int) + 2, strdup r.close_string_if_found⟩⟩]) hBw
  obtain ⟨d, more, h1, h2⟩ := rules_loop_shape _ _ _ _ _ h
  refine ⟨d, more, ?_⟩
  rw [h, h1, h2]
  simp

theorem rule_wf_hold {p : syntax_check} (hw : rule_wf p) (h0 : p.rule_active = 0) :
    rule_wf p.hold := by
  obtain ⟨h1, h2, _, h4, _⟩ := hw
  exact ⟨h1, h2, fun _ => h2, h4, fun hh => absurd h0 hh⟩

theorem restart_foldl_mono (pat : List Nat) :
    ∀ (input : List Nat) (k n : Nat), n ≤ (input.foldl (restart_step pat) (k, n)).2 := by
  intro input
  induction input with
  | nil => intro k n; simp
  | cons c rest ih =>
    intro k n
    rw [List.foldl_cons]
    by_cases hget : pat.get? k = some c
    · by_cases hfull : k + 1 = pat.length
      · rw [restart_step_full n hget hfull]
        exact Nat.le_trans (Nat.le_succ n) (ih 0 (n + 1))
      · rw [restart_step_next n hget hfull]; exact ih _ _
    · rw [restart_step_miss n hget]; exact ih _ _

/-- A step of the matcher that counts no match leaves the cursor inside the
pattern; a step that counts one has read the last byte of the pattern. -/
theorem restart_step_cases (pat : List Nat) (k n c : Nat) (hk : k < pat.length) :
    (∃ k1, k1 < pat.length ∧ restart_step pat (k, n) c = (k1, n)) ∨
    (restart_step pat (k, n) c = (0, n + 1) ∧ pat.get? k = some c ∧ k + 1 = pat.length) := by
  by_cases hget : pat.get? k = some c
  · by_cases hfull : k + 1 = pat.length
    · exact Or.inr ⟨restart_step_full n hget hfull, hget, hfull⟩
    · exact Or.inl ⟨k + 1, by omega, restart_step_next n hget hfull⟩
  · exact Or.inl ⟨0, by omega, restart_step_miss n hget⟩

/-- The bytes inside a region on which the matcher of the close pattern,
started at the counter of the active rule, counts no match: the rule stays
active, its counter follows the matcher, and the journal does not grow. -/
theorem parse_loop_quiet (s2 : List Nat) :
    ∀ (rest : List Nat) (line line_offset : Nat) (A B : List syntax_check)
      (r : syntax_check) (jr : List tag_event),
      (∀ p ∈ A, p.rule_active = 0) → (∀ p ∈ B, p.rule_active = 0) →
      (∀ p ∈ B, rule_wf p) → r.rule_active ≠ 0 → r.syntax_check2 = some s2 →
      r.syntax_check2_len = s2.length → r.counter < s2.length →
      (rest.foldl (restart_step s2) (r.counter, 0)).2 = 0 →
      ∃ A1 B1, parse_loop rest line line_offset ⟨A ++ r :: B, jr⟩ =
          some ⟨A1 ++ { r with counter :=
            (rest.foldl (restart_step s2) (r.counter, 0)).1 } :: B1, jr⟩ ∧
        A1.length = A.length ∧ (∀ p ∈ A1, p.rule_active = 0) ∧
        (∀ p ∈ B1, p.rule_active = 0) ∧ (∀ p ∈ B1, rule_wf p) ∧
        (rest.foldl (restart_step s2) (r.counter, 0)).1 < s2.length := by
  intro rest
  induction rest with
  | nil =>
    intro line lo A B r jr hA hB hBw hr hs hl hk _
    exact ⟨A, B, rfl, rfl, hA, hB, hBw, hk⟩
  | cons c rest ih =>
    intro line lo A B r jr hA hB hBw hr hs hl hk hq
    rw [List.foldl_cons] at hq ⊢
    rcases restart_step_cases s2 r.counter 0 c hk with ⟨k1, hk1, hstep⟩ | ⟨hstep, _, _⟩
    · rw [hstep] at hq ⊢
      have hloop := rules_loop_quiet c line lo A B r s2 k1 jr hA hB hr hs hl hk hstep
      have hA1 : ∀ p ∈ A.map syntax_check.hold, p.rule_active = 0 := by
        intro p hp
        obtain ⟨q, hq1, rfl⟩ := List.mem_map.1 hp
        exact hA q hq1
      have hB1 : ∀ p ∈ B.map syntax_check.hold, p.rule_active = 0 := by
        intro p hp
        obtain ⟨q, hq1, rfl⟩ := List.mem_map.1 hp
        exact hB q hq1
      have hBw1 : ∀ p ∈ B.map syntax_check.hold, rule_wf p := by
        intro p hp
        obtain ⟨q, hq1, rfl⟩ := List.mem_map.1 hp
        exact rule_wf_hold (hBw q hq1) (hB q hq1)
      simp only [parse_loop, evaluate_syntax_checks, hloop]
      split
      · obtain ⟨A1, B1, h1, h2, h3⟩ := ih (line + 1) 0 (A.map syntax_check.hold)
          (B.map syntax_check.hold) { r with counter := k1 } jr hA1 hB1 hBw1 hr hs hl hk1 hq
        exact ⟨A1, B1, h1, by simpa using h2, h3⟩
      · obtain ⟨A1, B1, h1, h2, h3⟩ := ih line (lo + 1) (A.map syntax_check.hold)
          (B.map syntax_check.hold) { r with counter := k1 } jr hA1 hB1 hBw1 hr hs hl hk1 hq
        exact ⟨A1, B1, h1, by simpa using h2, h3⟩
    · rw [hstep] at hq
      have h1 := restart_foldl_mono s2 rest 0 (0 + 1)
      rw [hq] at h1
      exact absurd h1 (by decide)
/-- A rule that is not active before a byte and active after it has the
counter 0: it was activated by the step of this byte. -/
theorem rules_loop_activated {c line line_offset : Nat} (i : Nat)
    {rules rules1 : List syntax_check} {jr jr1 : List tag_event}
    (h0 : ∀ r, rules.get? i = some r → r.rule_active = 0)
    (h : rules_loop c line line_offset [] rules jr = some (rules1, jr1)) :
    ∀ r, rules1.get? i = some r → r.rule_active ≠ 0 → r.counter = 0 := by
  have hI := rules_loop_inv
    (fun done todo _ => ∀ r, (done ++ todo).get? i = some r →
      (i < done.length → r.rule_active ≠ 0 → r.counter = 0) ∧
      (done.length ≤ i → r.rule_active = 0))
    (fun done p rest jr p1 jr1 hI he => by
      intro r hr
      rw [List.append_assoc, List.singleton_append] at hr
      by_cases hi : i = done.length
      · subst hi
        rw [get?_zipper] at hr
        have hr1 : p1 = r := Option.some.inj hr
        subst hr1
        have hp0 : p.rule_active = 0 := (hI p (get?_zipper done rest p)).2 (Nat.le_refl _)
        refine ⟨fun _ ha => ?_, fun hle => ?_⟩
        · rcases evaluate_rule_cases he with
            ⟨_, _, hp, _⟩ | ⟨_, ha1, _⟩ | ⟨_, ha1, _⟩ | ⟨_, ha1, _⟩ |
            ⟨_, _, _, hp, _⟩ | ⟨_, _, _, _, hp, _⟩ | ⟨_, _, _, _, hp, _⟩ | ⟨_, _, hp, _⟩
          · subst hp; rfl
          · exact absurd hp0 ha1
          · exact absurd hp0 ha1
          · exact absurd hp0 ha1
          · subst hp; exact absurd hp0 ha
          · subst hp; rfl
          · subst hp; rfl
          · subst hp; exact absurd hp0 ha
        · simp only [List.length_append, List.length_singleton] at hle
          omega
      · rw [get?_zipper_ne done rest p p1 hi] at hr
        obtain ⟨h1, h2⟩ := hI r hr
        simp only [List.length_append, List.length_singleton]
        exact ⟨fun hlt => h1 (by omega), fun hle => h2 (by omega)⟩)
    rules [] jr rules1 jr1
    (fun r hr => ⟨fun hlt => absurd hlt (by simp), fun _ => h0 r (by simpa using hr)⟩) h
  intro r hr ha
  have hlt : i < rules1.length := by
    by_contra hn
    rw [List.get?_eq_none.2 (by omega)] at hr
    cases hr
  exact (hI r (by simpa using hr)).1 hlt ha

theorem eq_zipper_of_get? :
    ∀ (l : List syntax_check) (i : Nat) (r : syntax_check), l.get? i = some r →
      ∃ A B, l = A ++ r :: B ∧ A.length = i := by
  intro l
  induction l with
  | nil => intro i r h; simp at h
  | cons x l ih =>
    intro i r h
    cases i with
    | zero =>
      simp only [List.get?_cons_zero, Option.some.injEq] at h
      exact ⟨[], l, by simp [h], rfl⟩
    | succ i =>
      simp only [List.get?_cons_succ] at h
      obtain ⟨A, B, h1, h2⟩ := ih i r h
      exact ⟨x :: A, B, by simp [h1], by simp [h2]⟩

/-- The cursor of the matcher of a pattern taken alone is inside the pattern,
and the bytes read so far end with that many bytes of the pattern. -/
theorem restart_state_suffix (pat : List Nat) (hpat : 0 < pat.length) :
    ∀ pre, (restart_state pat pre).1 < pat.length ∧
      pat.take (restart_state pat pre).1 <:+ pre := by
  intro pre
  induction pre using List.reverseRecOn with
  | nil => simp [restart_state, hpat]
  | append_singleton pre c ih =>
    rw [restart_state_snoc]
    obtain ⟨hk, hsuf⟩ := ih
    generalize restart_state pat pre = s at hk hsuf
    obtain ⟨k, n⟩ := s
    dsimp only at hk hsuf
    by_cases hget : pat.get? k = some c
    · by_cases hfull : k + 1 = pat.length
      · rw [restart_step_full n hget hfull]
        exact ⟨hpat, by simp⟩
      · rw [restart_step_next n hget hfull]
        refine ⟨by dsimp only; omega, ?_⟩
        dsimp only
        rw [List.get?_eq_getElem?] at hget
        rw [List.take_succ, hget]
        obtain ⟨t, ht⟩ := hsuf
        exact ⟨t, by rw [← ht]; simp⟩
    · rw [restart_step_miss n hget]
      exact ⟨hpat, by simp⟩

/-- The byte on which the matcher counts a match ends an occurrence of the
pattern. -/
theorem restart_match_suffix (pat : List Nat) (hpat : 0 < pat.length) (pre : List Nat)
    (d : Nat) (h0 : restart_count pat pre = 0) (h1 : restart_count pat (pre ++ [d]) ≠ 0) :
    restart_step pat ((restart_state pat pre).1, 0) d = (0, 1) ∧ pat <:+ pre ++ [d] := by
  obtain ⟨hk, hsuf⟩ := restart_state_suffix pat hpat pre
  unfold restart_count at h0 h1
  rw [restart_state_snoc] at h1
  generalize restart_state pat pre = s at hk hsuf h0 h1
  obtain ⟨k, n⟩ := s
  dsimp only at hk hsuf h0 h1 ⊢
  subst h0
  rcases restart_step_cases pat k 0 d hk with ⟨k1, _, hstep⟩ | ⟨hstep, hget, hfull⟩
  · rw [hstep] at h1; exact absurd rfl h1
  · refine ⟨hstep, ?_⟩
    have htake : pat.take (k + 1) = pat.take k ++ [d] := by
      rw [List.get?_eq_getElem?] at hget
      rw [List.take_succ, hget]; rfl
    rw [hfull, List.take_length] at htake
    obtain ⟨t, ht⟩ := hsuf
    exact ⟨t, by rw [htake, ← ht]; simp⟩

/-- The matcher of a pattern of one byte counts the bytes equal to it. -/
theorem restart_state_single (b : Nat) (pre : List Nat) :
    restart_state [b] pre = (0, pre.count b) := by
  induction pre using List.reverseRecOn with
  | nil => simp [restart_state]
  | append_singleton pre c ih =>
    rw [restart_state_snoc, ih]
    by_cases hc : c = b
    · subst hc
      rw [restart_step_full _ (by simp) (by simp)]
      simp [List.count_append]
    · have hbc : (b == c) = false := by
        simp only [beq_eq_false_iff_ne, ne_eq]; exact fun h => hc h.symm
      rw [restart_step_miss _ (by simp; exact fun h => hc h.symm)]
      simp [List.count_append, List.count_cons, hbc, hc]

/-- The scan behind the byte on which a rule of `main` became active, over
bytes on which the matcher of its close pattern counts no match. -/
theorem region_scan (i : Nat) (p ra : syntax_check) (s2 pre : List Nat) (sta : cparse)
    (hget : main_syntax_list.get? i = some p) (hs2 : p.syntax_check2 = some s2)
    (hsta : parse_source_code pre main_state = some sta)
    (hra : sta.syntax_list.get? i = some ra) (hact : ra.rule_active ≠ 0)
    (hc0 : ra.counter = 0) :
    0 < s2.length ∧ ra.syntax_check2 = some s2 ∧ ra.syntax_check2_len = s2.length ∧
    ra.close_string_if_found = p.close_string_if_found ∧
    ∀ rest, restart_count s2 rest = 0 →
      ∃ A1 B1, parse_source_code (pre ++ rest) main_state =
          some ⟨A1 ++ { ra with counter := (restart_state s2 rest).1 } :: B1, sta.journal⟩ ∧
        A1.length = i ∧ (∀ q ∈ A1, q.rule_active = 0) ∧ (∀ q ∈ B1, rule_wf q) ∧
        (restart_state s2 rest).1 < s2.length := by
  have hwf : ∀ q ∈ sta.syntax_list, rule_wf q := by
    obtain ⟨st1, h1, hw⟩ := parse_loop_total pre 0 0 main_state main_syntax_list_wf
    unfold parse_source_code at hsta
    rw [hsta] at h1
    rw [Option.some.inj h1]; exact hw
  have hcount : count_active sta.syntax_list ≤ 1 :=
    parse_loop_forall (fun l => count_active l ≤ 1)
      (fun c line lo done p rest jr p1 jr1 hc he => count_active_step hc he)
      _ _ _ _ _ (by decide : count_active main_state.syntax_list ≤ 1) hsta
  have hres : sta.syntax_list.map syntax_check.reset
      = main_syntax_list.map syntax_check.reset := parse_loop_reset hsta
  obtain ⟨_, hf2, _, _, _, _, hfc⟩ := reset_fields (get?_of_map_reset hres hra hget)
  have hs : ra.syntax_check2 = some s2 := by rw [hf2, hs2]
  obtain ⟨A, B, hAB, hlen⟩ := eq_zipper_of_get? _ _ _ hra
  rw [hAB] at hcount hwf
  rw [count_active_append, count_active_cons, if_neg hact] at hcount
  have hA : ∀ q ∈ A, q.rule_active = 0 :=
    (count_active_eq_zero_iff A).1 (by omega)
  have hB : ∀ q ∈ B, q.rule_active = 0 :=
    (count_active_eq_zero_iff B).1 (by omega)
  have hBw : ∀ q ∈ B, rule_wf q := fun q hq => hwf q (by simp [hq])
  obtain ⟨_, _, _, h4, h5⟩ := hwf ra (by simp)
  obtain ⟨hty, hk⟩ := h5 hact
  obtain ⟨_, hl, hpos⟩ := h4 hty
  rw [hs, Option.getD_some] at hl
  refine ⟨by omega, hs, hl, hfc, ?_⟩
  intro rest hrest
  have hfold : rest.foldl (restart_step s2) (ra.counter, 0) = restart_state s2 rest := by
    rw [hc0]; rfl
  obtain ⟨A1, B1, h1, h2, h3, _, h5, h6⟩ := parse_loop_quiet s2 rest (scan_pos pre).1
    (scan_pos pre).2 A B ra sta.journal hA hB hBw hact hs hl (by omega)
    (by rw [hfold]; exact hrest)
  rw [hfold] at h1 h6
  refine ⟨A1, B1, ?_, by omega, h3, h5, h6⟩
  rw [parse_source_code_append, hsta, Option.some_bind, ← h1, ← hAB]

/-- C11. Close at the first match of the close matcher: for the rules of
`main` and an input inside the range of `int` (`input.length + 2 ≤ 2^31`),
once the double-ended rule with index `i` (close pattern `s2`) has become
active on the byte `c` behind the bytes `pre0`, the scan runs the matcher of
`s2` taken alone (cursor reset on a mismatch, the byte not looked at again)
on the bytes that follow. Over bytes `rest` on which this matcher counts no
match, the rule stays active with the cursor of the matcher as its counter
and no tag is appended. On the first byte `d` on which the matcher counts a
match, the close tag of the rule is appended at the (`line`,
`line_offset + 2`) of that byte, a sum below `2^31`, and the rule is no
longer active; that byte ends an occurrence of the close pattern in the
bytes behind `c`. For a close pattern of one byte the matcher counts no
match exactly on the bytes different from it, so the region ends at the
first occurrence. -/
theorem region_closes_at_restart_match (input : List Nat) (i : Nat) (p : syntax_check)
    (s2 pre0 : List Nat) (c : Nat) (hsize : input.length + 2 ≤ 2147483648)
    (hget : main_syntax_list.get? i = some p) (hs2 : p.syntax_check2 = some s2)
    (hbefore : rule_active_after main_state pre0 i = some 0)
    (hafter : rule_active_after main_state (pre0 ++ [c]) i = some 1) :
    ∃ sta, parse_source_code (pre0 ++ [c]) main_state = some sta ∧
      (∀ rest, pre0 ++ [c] ++ rest <+: input → restart_count s2 rest = 0 →
        ∃ st q, parse_source_code (pre0 ++ [c] ++ rest) main_state = some st ∧
          st.journal = sta.journal ∧ st.syntax_list.get? i = some q ∧
          q.rule_active = 1 ∧ q.counter = (restart_state s2 rest).1) ∧
      (∀ r1 d, pre0 ++ [c] ++ r1 ++ [d] <+: input →
        restart_count s2 r1 = 0 → restart_count s2 (r1 ++ [d]) ≠ 0 →
        ∃ st more, parse_source_code (pre0 ++ [c] ++ r1 ++ [d]) main_state = some st ∧
          st.journal = sta.journal ++
            ⟨i, false, ⟨(lines_read (pre0 ++ [c] ++ r1) : Int),
              (bytes_on_line (pre0 ++ [c] ++ r1) : Int) + 2,
              strdup p.close_string_if_found⟩⟩ :: more ∧
          lines_read (pre0 ++ [c] ++ r1) < 2147483648 ∧
          bytes_on_line (pre0 ++ [c] ++ r1) + 2 < 2147483648 ∧
          rule_active_after main_state (pre0 ++ [c] ++ r1 ++ [d]) i = some 0 ∧
          s2 <:+ r1 ++ [d]) ∧
      (∀ b r1, s2 = [b] → (restart_count s2 r1 = 0 ↔ b ∉ r1)) := by
  unfold rule_active_after at hbefore hafter
  cases hst0 : parse_source_code pre0 main_state with
  | none => simp [hst0] at hbefore
  | some st0 =>
  cases hsta : parse_source_code (pre0 ++ [c]) main_state with
  | none => simp [hsta] at hafter
  | some sta =>
  simp only [hst0, Option.some_bind, Option.map_eq_some'] at hbefore
  simp only [hsta, Option.some_bind, Option.map_eq_some'] at hafter
  obtain ⟨r0, hr0, hr00⟩ := hbefore
  obtain ⟨ra, hra, hra1⟩ := hafter
  have hact : ra.rule_active ≠ 0 := by rw [hra1]; decide
  have hloop := hsta
  rw [parse_source_code_snoc, hst0, Option.some_bind] at hloop
  have hc0 : ra.counter = 0 :=
    rules_loop_activated i
      (fun r hr => by rw [hr0] at hr; rw [← Option.some.inj hr]; exact hr00)
      (evaluate_syntax_checks_one hloop) ra hra hact
  obtain ⟨hpos, hs, hl, hfc, hscan⟩ := region_scan i p ra s2 (pre0 ++ [c]) sta hget hs2 hsta
    hra hact hc0
  refine ⟨sta, rfl, ?_, ?_, ?_⟩
  · intro rest _ hrest
    obtain ⟨A1, B1, h1, h2, _⟩ := hscan rest hrest
    refine ⟨_, { ra with counter := (restart_state s2 rest).1 }, h1, rfl, ?_, hra1, rfl⟩
    show (A1 ++ _ :: B1).get? i = some _
    rw [← h2]; exact get?_zipper _ _ _
  · intro r1 d hin h0 h1
    obtain ⟨A1, B1, hp1, hlen, hA1, hB1w, hk⟩ := hscan r1 h0
    obtain ⟨hstep, hsuf⟩ := restart_match_suffix s2 hpos r1 d h0 h1
    obtain ⟨B2, more, hclose⟩ := rules_loop_close d (scan_pos (pre0 ++ [c] ++ r1)).1
      (scan_pos (pre0 ++ [c] ++ r1)).2 A1 B1
      { ra with counter := (restart_state s2 r1).1 } s2 sta.journal hA1 hB1w hact hs hl hk hstep
    have hparse : parse_source_code (pre0 ++ [c] ++ r1 ++ [d]) main_state =
        some ⟨A1.map syntax_check.hold ++ { ra with counter := 0, rule_active := 0 } :: B2,
          sta.journal ++ ⟨A1.length, false, ⟨((scan_pos (pre0 ++ [c] ++ r1)).1 : Int),
            ((scan_pos (pre0 ++ [c] ++ r1)).2 : Int) + 2,
            strdup ra.close_string_if_found⟩⟩ :: more⟩ := by
      rw [parse_source_code_snoc, hp1, Option.some_bind]
      simp only [evaluate_syntax_checks, hclose]
    have hle := hin.length_le
    have hb1 := scan_pos_le (pre0 ++ [c] ++ r1)
    have hb2 := scan_pos_line_le (pre0 ++ [c] ++ r1)
    rw [scan_pos_eq] at hb1 hb2
    simp only [List.length_append, List.length_singleton] at hle hb1 hb2
    refine ⟨_, more, hparse, ?_, by omega, by omega, ?_, hsuf⟩
    · rw [scan_pos_eq, hlen, hfc]
    · unfold rule_active_after
      rw [hparse, Option.some_bind]
      have hl2 : (A1.map syntax_check.hold).length = i := by simp [hlen]
      rw [← hl2, get?_zipper]
      rfl
  · intro b r1 hb
    subst hb
    unfold restart_count
    rw [restart_state_single]
    exact List.count_eq_zero

/-- C11 at a block comment behind one byte. -/
theorem region_closes_at_restart_match_witness :
    (bytes "a/* b */ c").length + 2 ≤ 2147483648 ∧
    main_syntax_list.get? 31 = some { block_comment_rule 0 with rule_active := 0 } ∧
    (block_comment_rule 0).syntax_check2 = some (bytes "*/") ∧
    rule_active_after main_state (bytes "a/") 31 = some 0 ∧
    rule_active_after main_state (bytes "a/" ++ [42]) 31 = some 1 ∧
    ∃ sta, parse_source_code (bytes "a/" ++ [42]) main_state = some sta ∧
      (∀ rest, bytes "a/" ++ [42] ++ rest <+: bytes "a/* b */ c" →
        restart_count (bytes "*/") rest = 0 →
        ∃ st q, parse_source_code (bytes "a/" ++ [42] ++ rest) main_state = some st ∧
          st.journal = sta.journal ∧ st.syntax_list.get? 31 = some q ∧
          q.rule_active = 1 ∧ q.counter = (restart_state (bytes "*/") rest).1) ∧
      (∀ r1 d, bytes "a/" ++ [42] ++ r1 ++ [d] <+: bytes "a/* b */ c" →
        restart_count (bytes "*/") r1 = 0 →
        restart_count (bytes "*/") (r1 ++ [d]) ≠ 0 →
        ∃ st more, parse_source_code (bytes "a/" ++ [42] ++ r1 ++ [d]) main_state = some st ∧
          st.journal = sta.journal ++
            ⟨31, false, ⟨(lines_read (bytes "a/" ++ [42] ++ r1) : Int),
              (bytes_on_line (bytes "a/" ++ [42] ++ r1) : Int) + 2,
              strdup (block_comment_rule 0).close_string_if_found⟩⟩ :: more ∧
          lines_read (bytes "a/" ++ [42] ++ r1) < 2147483648 ∧
          bytes_on_line (bytes "a/" ++ [42] ++ r1) + 2 < 2147483648 ∧
          rule_active_after main_state (bytes "a/" ++ [42] ++ r1 ++ [d]) 31 = some 0 ∧
          bytes "*/" <:+ r1 ++ [d]) ∧
      (∀ b r1, bytes "*/" = [b] → (restart_count (bytes "*/") r1 = 0 ↔ b ∉ r1)) :=
  ⟨by decide, by decide!, by decide!, by decide!, by decide!,
    region_closes_at_restart_match (bytes "a/* b */ c") 31
      { block_comment_rule 0 with rule_active := 0 } (bytes "*/") (bytes "a/") 42
      (by decide) (by decide!) (by decide!) (by decide!) (by decide!)⟩

/-- C11, as first stated, fails on the five bytes `/***/`: the block-comment
rule (index 31) becomes active on the byte at index 1, the first occurrence
of `*/` that starts behind index 1 starts at index 3 and ends on the last
byte, yet at the end of the scan the only tag is the open tag and the rule
is still active. The `*` at index 2 moves the counter to 1, the `*` at
index 3 resets it and is not looked at again, so the `/` finds the counter 0. -/
theorem region_close_counterexample :
    rule_active_after main_state (bytes "/") 31 = some 0 ∧
    rule_active_after main_state (bytes "/*") 31 = some 1 ∧
    ¬ bytes "*/" <+: (bytes "/***/").drop 2 ∧
    bytes "*/" <+: (bytes "/***/").drop 3 ∧
    (parse_source_code (bytes "/***/") main_state).map cparse.code_tags =
      some [⟨0, 1, bytes "<font color=#0000ff>"⟩] ∧
    rule_active_after main_state (bytes "/***/") 31 = some 1 := by
  decide!

/-! ### The rule loop and the algorithm of the specification -/

end Cparse
